import Mathlib

/-!
# Metachain bootstrap: fork choice, rollback and the sync-failure policy

Shallow embedding of `process/sync/metablock.go` (type `MetaBootstrap`).

The bootstrapper is a record of its own fields plus the chain head it drives.
Every collaborator that is only an interface in the source (fork detector,
storage service, marshalizer, accounts adapter, block executor, resolver,
rounder, pools) and every method of the embedded `baseBootstrap`, which is not
part of the translated sources, is a field of `Env`.  A collaborator answers
as a function of the `View`: the chain head, the list of calls made so far to
collaborators (`trace`) and the list of lookups (`reads`).  Logging is left out.
-/

namespace MetaSync

/-! ## Data model -/

/-- Go byte slice; `none` is the nil slice. -/
abbrev ByteSlice := Option (List Nat)

/-- Value of `math.MaxUint64`. -/
def MaxUint64 : Nat := 2 ^ 64 - 1

/-- Errors of the packages `process` and `sync` that the translated functions
name, plus `other` for any error value produced by a collaborator. -/
inductive Err
  | ErrTimeIsOut
  | ErrRollbackFromGenesis
  | ErrNilHeadersStorage
  | ErrNilHeadersNonceHashStorage
  | ErrNilBlockHeader
  | ErrWrongTypeAssertion
  | ErrRollBackBehindFinalHeader
  | ErrHigherRoundInBlock
  | other (code : Nat)
  deriving DecidableEq, Repr

/-- Record `block.ShardData` of a metablock: the fields read by the bootstrapper. -/
structure ShardData where
  ShardId : Nat
  HeaderHash : ByteSlice
  deriving DecidableEq, Repr

/-- Header `block.MetaBlock`: the fields read by the bootstrapper. -/
structure MetaBlock where
  Nonce : Nat
  Round : Nat
  PrevHash : ByteSlice
  RootHash : ByteSlice
  ShardInfo : List ShardData
  deriving DecidableEq, Repr

/-- Shard header `block.Header`: the fields read by the bootstrapper. -/
structure Header where
  Nonce : Nat
  Round : Nat
  ShardId : Nat
  PrevHash : ByteSlice
  RootHash : ByteSlice
  deriving DecidableEq, Repr

/-- Interface `data.HeaderHandler` with its two implementations. -/
inductive HeaderHandler
  | metaBlock (m : MetaBlock)
  | shardHeader (h : Header)
  deriving DecidableEq, Repr

/-- Method `GetRootHash` of `data.HeaderHandler`. -/
def HeaderHandler.GetRootHash : HeaderHandler → ByteSlice
  | .metaBlock m => m.RootHash
  | .shardHeader h => h.RootHash

/-- Method `GetNonce` of `data.HeaderHandler`. -/
def HeaderHandler.GetNonce : HeaderHandler → Nat
  | .metaBlock m => m.Nonce
  | .shardHeader h => h.Nonce

/-- Storage units of `dataRetriever` used by the metachain bootstrapper. -/
inductive UnitType
  | MetaBlockUnit
  | MetaHdrNonceHashDataUnit
  deriving DecidableEq, Repr

/-- Calls made to collaborators, in the order in which they are made.  A call
is recorded whether it succeeds or fails. -/
inductive Event
  | SetCurrentBlockHeader (header : Option MetaBlock)
  | SetCurrentBlockHeaderHash (hash : ByteSlice)
  | RecreateTrie (rootHash : ByteSlice)
  | cleanCachesAndStorageOnRollback (header : MetaBlock)
  | RestoreBlockIntoPools (header : MetaBlock)
  | removeHeaderFromPools (header : MetaBlock)
  | RemoveHeaders (nonce : Nat) (hash : ByteSlice)
  | ResetProbableHighestNonce
  | ResetProbableHighestNonceIfNeeded
  | ResetForcedFork
  | IncrementNumTimesInForkChoice
  | EmptyChannelRcvHdrNonce
  | EmptyChannelRcvHdrHash
  | RequestDataFromNonce (nonce : Nat)
  | RequestDataFromHash (hash : ByteSlice)
  | waitForHeaderNonce
  | waitForHeaderHash
  | goRequestHeadersFromNonceIfMissing (nonce : Nat)
  | ProcessBlock (header : MetaBlock)
  | CommitBlock (header : MetaBlock)
  deriving DecidableEq, Repr

/-- Lookups that do not change the collaborator they are made on. -/
inductive Read
  | StorerGet (unit : UnitType) (key : ByteSlice)
  | GetMetaHeaderFromPoolWithNonce (nonce : Nat)
  | GetMetaHeader (hash : ByteSlice)
  | GetMetaHeaderFromPool (hash : ByteSlice)
  deriving DecidableEq, Repr

/-- Entries into the bootstrapper's own functions (bookkeeping of the model,
not visible to collaborators). -/
inductive Call
  | forkChoice (revertUsingForkNonce : Bool)
  | rollback (header : MetaBlock)
  | doJobOnSyncBlockFail (hdr : Option MetaBlock) (err : Err)
  deriving DecidableEq, Repr

/-- What a collaborator can observe: the chain head and the history of calls. -/
structure View where
  currentBlockHeader : Option HeaderHandler
  currentBlockHeaderHash : ByteSlice
  trace : List Event
  reads : List Read
  deriving DecidableEq, Repr

/-- Modelled from the spec: the chain handler `data.ChainHandler` is an
interface whose implementation is not among the translated sources; it is "the
current header + hash", read by `GetCurrentBlockHeader`, written by
`SetCurrentBlockHeader` and `SetCurrentBlockHeaderHash`, with a fixed genesis
header.  The record holds it together with the fields of `baseBootstrap` that
`metablock.go` reads or writes, and the histories of calls to collaborators,
of lookups and of entries into the bootstrapper's own functions. -/
structure MetaBootstrap where
  currentBlockHeader : Option HeaderHandler
  currentBlockHeaderHash : ByteSlice
  genesisHeader : HeaderHandler
  requestsWithTimeout : Nat
  isForkDetected : Bool
  forkNonce : Nat
  forkHash : ByteSlice
  headerNonce : Option Nat
  headerhash : ByteSlice
  trace : List Event
  reads : List Read
  calls : List Call
  deriving DecidableEq, Repr

/-- The part of the state a collaborator can observe. -/
def MetaBootstrap.view (s : MetaBootstrap) : View :=
  { currentBlockHeader := s.currentBlockHeader
    currentBlockHeaderHash := s.currentBlockHeaderHash
    trace := s.trace
    reads := s.reads }

/-- Record a call to a collaborator. -/
def MetaBootstrap.emit (s : MetaBootstrap) (e : Event) : MetaBootstrap :=
  { s with trace := s.trace ++ [e] }

/-- Record a lookup. -/
def MetaBootstrap.look (s : MetaBootstrap) (r : Read) : MetaBootstrap :=
  { s with reads := s.reads ++ [r] }

/-- Record the entry into one of the bootstrapper's functions. -/
def MetaBootstrap.enter (s : MetaBootstrap) (c : Call) : MetaBootstrap :=
  { s with calls := s.calls ++ [c] }

/-- Interface `storage.Storer`: the method `Get`. -/
structure Storer where
  Get : View → ByteSlice → Except Err ByteSlice

/-- Everything the translated functions use and the translated sources do not
define: constants and functions of package `process`, the collaborators
behind interfaces, and the methods of `baseBootstrap`. -/
structure Env where
  /-- Constant `process.MaxRequestsWithTimeoutAllowed`. -/
  MaxRequestsWithTimeoutAllowed : Nat
  /-- Function `process.IsInProperRound`. -/
  IsInProperRound : Int → Bool
  /-- Bit width of the field `requestsWithTimeout` (declared in `baseBootstrap`). -/
  counterBits : Nat
  /-- Call `boot.rounder.Index()`. -/
  rounderIndex : View → Int
  /-- Call `boot.forkDetector.GetHighestFinalBlockNonce()`. -/
  GetHighestFinalBlockNonce : View → Nat
  /-- Call `boot.store.GetStorer(unit)`; `none` is a nil storer. -/
  GetStorer : UnitType → Option Storer
  /-- Call `boot.marshalizer.Unmarshal` into a fresh `block.MetaBlock`. -/
  Unmarshal : ByteSlice → Except Err MetaBlock
  /-- Error returned by `boot.blkc.SetCurrentBlockHeader`. -/
  SetCurrentBlockHeader : View → Option MetaBlock → Option Err
  /-- Error returned by `boot.accounts.RecreateTrie`. -/
  RecreateTrie : View → ByteSlice → Option Err
  /-- Error returned by `boot.blkExecutor.RestoreBlockIntoPools`. -/
  RestoreBlockIntoPools : View → MetaBlock → Option Err
  /-- Error returned by `boot.blkExecutor.ProcessBlock`. -/
  ProcessBlock : View → MetaBlock → Option Err
  /-- Call `boot.blkExecutor.CommitBlock`: an error, or the chain head and head
  hash the executor installs. -/
  CommitBlock : View → MetaBlock → Except Err (Option HeaderHandler × ByteSlice)
  /-- Function `process.GetMetaHeaderFromPoolWithNonce` on the bootstrapper's pools. -/
  GetMetaHeaderFromPoolWithNonce : View → Nat → Except Err MetaBlock
  /-- Function `process.GetMetaHeader` on the bootstrapper's pool and store. -/
  GetMetaHeader : View → ByteSlice → Except Err MetaBlock
  /-- Function `process.GetMetaHeaderFromPool` on the bootstrapper's pool. -/
  GetMetaHeaderFromPool : View → ByteSlice → Except Err MetaBlock
  /-- Error returned by `boot.hdrRes.RequestDataFromNonce`. -/
  RequestDataFromNonce : View → Nat → Option Err
  /-- Error returned by `boot.hdrRes.RequestDataFromHash`. -/
  RequestDataFromHash : View → ByteSlice → Option Err
  /-- Method `baseBootstrap.ShouldSync`. -/
  ShouldSync : MetaBootstrap → Bool × MetaBootstrap
  /-- Method `baseBootstrap.getNonceForNextBlock`. -/
  getNonceForNextBlock : MetaBootstrap → Nat
  /-- Hash returned by the method `baseBootstrap.removeHeaderFromPools`. -/
  removeHeaderFromPools : View → MetaBlock → ByteSlice
  /-- Method `baseBootstrap.waitForHeaderNonce`: the error it returns, and the
  requested-nonce marker as the receipt callback left it during the wait. -/
  waitForHeaderNonce : MetaBootstrap → Option Err × Option Nat
  /-- Method `baseBootstrap.waitForHeaderHash`: the error it returns, and the
  requested-hash marker as the receipt callback left it during the wait. -/
  waitForHeaderHash : MetaBootstrap → Option Err × ByteSlice

/-! ## Chain handler and request markers -/

/-- Modelled from the spec: method `SetCurrentBlockHeader` of the chain handler
(implementation outside the translated sources): on success the head becomes
the given header (nil for a nil header), on failure the head is kept. -/
def SetCurrentBlockHeader (env : Env) (header : Option MetaBlock) (s : MetaBootstrap) :
    Option Err × MetaBootstrap :=
  match env.SetCurrentBlockHeader s.view header with
  | some e => (some e, s.emit (Event.SetCurrentBlockHeader header))
  | none =>
    (none, { s with currentBlockHeader := header.map HeaderHandler.metaBlock
                    trace := s.trace ++ [Event.SetCurrentBlockHeader header] })

/-- Modelled from the spec: method `SetCurrentBlockHeaderHash` of the chain
handler (implementation outside the translated sources) stores the head hash. -/
def SetCurrentBlockHeaderHash (hash : ByteSlice) (s : MetaBootstrap) : MetaBootstrap :=
  { s with currentBlockHeaderHash := hash
           trace := s.trace ++ [Event.SetCurrentBlockHeaderHash hash] }

/-- Modelled from the spec: method `setRequestedHeaderNonce` of `baseBootstrap`
(outside the translated sources) sets the requested-nonce marker. -/
def setRequestedHeaderNonce (nonce : Option Nat) (s : MetaBootstrap) : MetaBootstrap :=
  { s with headerNonce := nonce }

/-- Modelled from the spec: method `setRequestedHeaderHash` of `baseBootstrap`
(outside the translated sources) sets the requested-hash marker. -/
def setRequestedHeaderHash (hash : ByteSlice) (s : MetaBootstrap) : MetaBootstrap :=
  { s with headerhash := hash }

/-! ## Rollback and fork choice -/

/-- Function `MetaBootstrap.getCurrentHeader`. -/
def getCurrentHeader (s : MetaBootstrap) : Except Err MetaBlock :=
  match s.currentBlockHeader with
  | none => .error Err.ErrNilBlockHeader
  | some (HeaderHandler.metaBlock header) => .ok header
  | some (HeaderHandler.shardHeader _) => .error Err.ErrWrongTypeAssertion

/-- Function `MetaBootstrap.getPrevHeader`; the read of the storer is recorded. -/
def getPrevHeader (env : Env) (headerStore : Storer) (header : MetaBlock) (s : MetaBootstrap) :
    Except Err MetaBlock × MetaBootstrap :=
  let prevHash := header.PrevHash
  let s1 := s.look (Read.StorerGet UnitType.MetaBlockUnit prevHash)
  match headerStore.Get s.view prevHash with
  | .error e => (.error e, s1)
  | .ok buffHeader =>
    match env.Unmarshal buffHeader with
    | .error e => (.error e, s1)
    | .ok newHeader => (.ok newHeader, s1)

/-- Lines 644-662 of `MetaBootstrap.rollback`: the ordered side effects, once
the new head, head hash and root hash are known. -/
def rollbackApply (env : Env) (header : MetaBlock) (newHeader : Option MetaBlock)
    (newHeaderHash newRootHash : ByteSlice) (s : MetaBootstrap) : Option Err × MetaBootstrap :=
  match SetCurrentBlockHeader env newHeader s with
  | (some e, s1) => (some e, s1)
  | (none, s1) =>
    let s2 := SetCurrentBlockHeaderHash newHeaderHash s1
    match env.RecreateTrie s2.view newRootHash with
    | some e => (some e, s2.emit (Event.RecreateTrie newRootHash))
    | none =>
      let s3 := s2.emit (Event.RecreateTrie newRootHash)
      let s4 := s3.emit (Event.cleanCachesAndStorageOnRollback header)
      -- errNotCritical of RestoreBlockIntoPools is only logged
      let _errNotCritical := env.RestoreBlockIntoPools s4.view header
      (none, s4.emit (Event.RestoreBlockIntoPools header))

/-- Function `MetaBootstrap.rollback`. -/
def rollback (env : Env) (header : MetaBlock) (s0 : MetaBootstrap) : Option Err × MetaBootstrap :=
  let s := s0.enter (Call.rollback header)
  if header.Nonce = 0 then (some Err.ErrRollbackFromGenesis, s)
  else
    match env.GetStorer UnitType.MetaBlockUnit with
    | none => (some Err.ErrNilHeadersStorage, s)
    | some headerStore =>
      match env.GetStorer UnitType.MetaHdrNonceHashDataUnit with
      | none => (some Err.ErrNilHeadersNonceHashStorage, s)
      | some _headerNonceHashStore =>
        if header.Nonce > 1 then
          match getPrevHeader env headerStore header s with
          | (.error e, s1) => (some e, s1)
          | (.ok newHeader, s1) =>
            rollbackApply env header (some newHeader) header.PrevHash newHeader.RootHash s1
        else
          -- rollback to genesis block
          rollbackApply env header none none s.genesisHeader.GetRootHash s

/-- Loop of `MetaBootstrap.forkChoice`; `none` when the fuel runs out. -/
def forkChoiceLoop (env : Env) (revertUsingForkNonce : Bool) :
    Nat → MetaBootstrap → Option (Option Err × MetaBootstrap)
  | 0, _ => none
  | fuel + 1, s =>
    match getCurrentHeader s with
    | .error e => some (some e, s)
    | .ok header =>
      if !revertUsingForkNonce && decide (header.Nonce ≤ env.GetHighestFinalBlockNonce s.view) then
        some (some Err.ErrRollBackBehindFinalHeader, s)
      else
        match rollback env header s with
        | (some e, s1) => some (some e, s1)
        | (none, s1) =>
          if revertUsingForkNonce && decide (header.Nonce > s1.forkNonce) then
            forkChoiceLoop env revertUsingForkNonce fuel s1
          else
            some (none, s1)

/-- Function `MetaBootstrap.forkChoice`. -/
def forkChoice (env : Env) (revertUsingForkNonce : Bool) (fuel : Nat) (s : MetaBootstrap) :
    Option (Option Err × MetaBootstrap) :=
  forkChoiceLoop env revertUsingForkNonce fuel (s.enter (Call.forkChoice revertUsingForkNonce))

/-! ## Failure policy -/

/-- Function `MetaBootstrap.doJobOnSyncBlockFail`. -/
def doJobOnSyncBlockFail (env : Env) (fuel : Nat) (hdr : Option MetaBlock) (err : Err)
    (s0 : MetaBootstrap) : Option MetaBootstrap :=
  let s := s0.enter (Call.doJobOnSyncBlockFail hdr err)
  let s1 :=
    if err = Err.ErrTimeIsOut then
      { s with requestsWithTimeout := (s.requestsWithTimeout + 1) % 2 ^ env.counterBits }
    else s
  let allowedRequestsWithTimeOutHaveReached :=
    decide (s1.requestsWithTimeout ≥ env.MaxRequestsWithTimeoutAllowed)
  let isInProperRound := env.IsInProperRound (env.rounderIndex s1.view)
  let shouldRollBack :=
    decide (err ≠ Err.ErrTimeIsOut) || (allowedRequestsWithTimeOutHaveReached && isInProperRound)
  if shouldRollBack then
    let s2 := { s1 with requestsWithTimeout := 0 }
    let s3 :=
      match hdr with
      | some h =>
        let hash := env.removeHeaderFromPools s2.view h
        (s2.emit (Event.removeHeaderFromPools h)).emit (Event.RemoveHeaders h.Nonce hash)
      | none => s2
    let s4 :=
      if allowedRequestsWithTimeOutHaveReached && isInProperRound then
        s3.emit Event.ResetProbableHighestNonce
      else s3
    -- errNotCritical of forkChoice is only logged
    (forkChoice env false fuel s4).map Prod.snd
  else
    some s1

/-! ## Header source -/

/-- Function `MetaBootstrap.requestHeaderWithNonce`; the error of the dispatch
is only logged. -/
def requestHeaderWithNonce (env : Env) (nonce : Nat) (s : MetaBootstrap) : MetaBootstrap :=
  let s1 := setRequestedHeaderNonce (some nonce) s
  let _err := env.RequestDataFromNonce s1.view nonce
  s1.emit (Event.RequestDataFromNonce nonce)

/-- Function `MetaBootstrap.requestHeaderWithHash`; the error of the dispatch
is only logged. -/
def requestHeaderWithHash (env : Env) (hash : ByteSlice) (s : MetaBootstrap) : MetaBootstrap :=
  let s1 := setRequestedHeaderHash hash s
  let _err := env.RequestDataFromHash s1.view hash
  s1.emit (Event.RequestDataFromHash hash)

/-- Function `MetaBootstrap.getHeaderWithNonceRequestingIfMissing`. -/
def getHeaderWithNonceRequestingIfMissing (env : Env) (nonce : Nat) (s : MetaBootstrap) :
    Except Err MetaBlock × MetaBootstrap :=
  let s0 := s.look (Read.GetMetaHeaderFromPoolWithNonce nonce)
  match env.GetMetaHeaderFromPoolWithNonce s.view nonce with
  | .ok hdr => (.ok hdr, s0)
  | .error _ =>
    let s1 := s0.emit Event.EmptyChannelRcvHdrNonce
    let s2 := requestHeaderWithNonce env nonce s1
    let w := env.waitForHeaderNonce s2
    let s3 := { s2 with headerNonce := w.2, trace := s2.trace ++ [Event.waitForHeaderNonce] }
    match w.1 with
    | some e => (.error e, s3)
    | none =>
      let s4 := s3.look (Read.GetMetaHeaderFromPoolWithNonce nonce)
      match env.GetMetaHeaderFromPoolWithNonce s3.view nonce with
      | .error e => (.error e, s4)
      | .ok hdr => (.ok hdr, s4)

/-- Function `MetaBootstrap.getHeaderWithHashRequestingIfMissing`. -/
def getHeaderWithHashRequestingIfMissing (env : Env) (hash : ByteSlice) (s : MetaBootstrap) :
    Except Err MetaBlock × MetaBootstrap :=
  let s0 := s.look (Read.GetMetaHeader hash)
  match env.GetMetaHeader s.view hash with
  | .ok hdr => (.ok hdr, s0)
  | .error _ =>
    let s1 := s0.emit Event.EmptyChannelRcvHdrHash
    let s2 := requestHeaderWithHash env hash s1
    let w := env.waitForHeaderHash s2
    let s3 := { s2 with headerhash := w.2, trace := s2.trace ++ [Event.waitForHeaderHash] }
    match w.1 with
    | some e => (.error e, s3)
    | none =>
      let s4 := s3.look (Read.GetMetaHeaderFromPool hash)
      match env.GetMetaHeaderFromPool s3.view hash with
      | .error e => (.error e, s4)
      | .ok hdr => (.ok hdr, s4)

/-! ## One synchronization attempt -/

/-- Lines 425-448 of `MetaBootstrap.SyncBlock`: the handling of a detected
fork.  The boolean tells whether `SyncBlock` returns nil at line 446. -/
def syncBlockFork (env : Env) (fuel : Nat) (s : MetaBootstrap) : Option (Bool × MetaBootstrap) :=
  if s.isForkDetected then
    let isForcedFork := decide (s.forkNonce = MaxUint64) && decide (s.forkHash = none)
    let s1 := s.emit Event.IncrementNumTimesInForkChoice
    match forkChoice env (!isForcedFork) fuel s1 with
    | none => none
    | some (_err, s2) =>
      if isForcedFork then
        some (true, (s2.emit Event.ResetProbableHighestNonce).emit Event.ResetForcedFork)
      else
        some (false, s2)
  else
    some (false, s)

/-- Lines 464-501 of `MetaBootstrap.SyncBlock`: header resolution, processing
and commit.  Returns the values of the variables `hdr` and `err` at the return
statement, which are the ones the deferred function reads. -/
def syncBlockAttempt (env : Env) (nonce : Nat) (s : MetaBootstrap) :
    Option MetaBlock × Option Err × MetaBootstrap :=
  let r :=
    if s.isForkDetected then getHeaderWithHashRequestingIfMissing env s.forkHash s
    else getHeaderWithNonceRequestingIfMissing env nonce s
  match r with
  | (.error err, s1) => (none, some err, s1.emit Event.ResetProbableHighestNonceIfNeeded)
  | (.ok hdr, s1) =>
    let s2 := s1.emit (Event.goRequestHeadersFromNonceIfMissing ((hdr.Nonce + 1) % 2 ^ 64))
    match env.ProcessBlock s2.view hdr with
    | some err => (some hdr, some err, s2.emit (Event.ProcessBlock hdr))
    | none =>
      let s3 := s2.emit (Event.ProcessBlock hdr)
      match env.CommitBlock s3.view hdr with
      | .error err => (some hdr, some err, s3.emit (Event.CommitBlock hdr))
      | .ok (head, hash) =>
        let s4 := { s3 with currentBlockHeader := head
                            currentBlockHeaderHash := hash
                            trace := s3.trace ++ [Event.CommitBlock hdr] }
        (some hdr, none, { s4 with requestsWithTimeout := 0 })

/-- Function `MetaBootstrap.SyncBlock`; `none` when the fuel of a fork choice
runs out. -/
def SyncBlock (env : Env) (fuel : Nat) (s0 : MetaBootstrap) :
    Option (Option Err × MetaBootstrap) :=
  match env.ShouldSync s0 with
  | (false, s) => some (none, s)
  | (true, s) =>
    match syncBlockFork env fuel s with
    | none => none
    | some (true, s1) => some (none, s1)
    | some (false, s1) =>
      let s2 := setRequestedHeaderHash none (setRequestedHeaderNonce none s1)
      let nonce := env.getNonceForNextBlock s2
      match syncBlockAttempt env nonce s2 with
      | (_, none, s3) => some (none, s3)
      | (hdr, some err, s3) =>
        -- the deferred function runs the failure policy
        match doJobOnSyncBlockFail env fuel hdr err s3 with
        | none => none
        | some s4 => some (some err, s4)

/-! ## Notarization tracker -/

/-- Go map `map[uint32]uint64`: `none` is a missing key. -/
abbrev NonceMap := Nat → Option Nat

/-- The empty map, `make(map[uint32]uint64, 0)`. -/
def NonceMap.empty : NonceMap := fun _ => none

/-- Read `m[k]`: a missing key reads as 0. -/
def NonceMap.get (m : NonceMap) (k : Nat) : Nat := (m k).getD 0

/-- Assignment `m[k] = v`. -/
def NonceMap.set (m : NonceMap) (k v : Nat) : NonceMap :=
  fun j => if j = k then some v else m j

/-- What the tracker reads and the translated sources do not define: the
number of shards, the reference round, and the content of the storage as the
loading functions return it. -/
structure ScanEnv where
  /-- Call `boot.shardCoordinator.NumberOfShards()`. -/
  NumberOfShards : Nat
  /-- Field `bootstrapRoundIndex` of `baseBootstrap`. -/
  bootstrapRoundIndex : Nat
  /-- Constant `sharding.MetachainShardId`. -/
  MetachainShardId : Nat
  /-- Method `baseBootstrap.getMetaHeaderFromStorage(shardId, nonce)`: the
  header and its hash, or an error. -/
  getMetaHeaderFromStorage : Nat → Nat → Except Err (HeaderHandler × ByteSlice)
  /-- Function `process.GetShardHeaderFromStorage` on the bootstrapper's
  marshalizer and store. -/
  GetShardHeaderFromStorage : ByteSlice → Except Err Header
  /-- Method `baseBootstrap.getShardHeaderFromStorage(shardId, nonce)`: the
  header and its hash, or an error. -/
  getShardHeaderFromStorage : Nat → Nat → Except Err (HeaderHandler × ByteSlice)

/-- Modelled from the spec: the type `notarizedInfo` is declared with
`baseBootstrap`, outside the translated sources; it is `startNonce` and four
mappings keyed by shard id. -/
structure notarizedInfo where
  lastNotarized : NonceMap
  finalNotarized : NonceMap
  blockWithLastNotarized : NonceMap
  blockWithFinalNotarized : NonceMap
  startNonce : Nat

/-- Modelled from the spec: method `notarizedInfo.reset` (outside the
translated sources) clears all maps to empty and `startNonce` to zero. -/
def notarizedInfo.reset : notarizedInfo :=
  { lastNotarized := NonceMap.empty
    finalNotarized := NonceMap.empty
    blockWithLastNotarized := NonceMap.empty
    blockWithFinalNotarized := NonceMap.empty
    startNonce := 0 }

/-- Function `MetaBootstrap.getHeader`. -/
def getHeader (cfg : ScanEnv) (shardId nonce : Nat) : Except Err (HeaderHandler × ByteSlice) :=
  cfg.getMetaHeaderFromStorage shardId nonce

/-- Function `MetaBootstrap.isMetaBlockValid`; `none` is the result
`(nil, false)`, `some metaBlock` the result `(metaBlock, true)`. -/
def isMetaBlockValid (cfg : ScanEnv) (nonce : Nat) : Option MetaBlock :=
  match getHeader cfg cfg.MetachainShardId nonce with
  | .error _ => none
  | .ok (headerHandler, _) =>
    match headerHandler with
    | HeaderHandler.shardHeader _ => none
    | HeaderHandler.metaBlock metaBlock =>
      if metaBlock.Round > cfg.bootstrapRoundIndex then none else some metaBlock

/-- Loop of `MetaBootstrap.getMaxNotarizedHeadersNoncesInMetaBlock` over the
remaining records, with the map built so far. -/
def maxNonceLoop (cfg : ScanEnv) : List ShardData → NonceMap → NonceMap × Option Err
  | [], maxNonce => (maxNonce, none)
  | shardData :: rest, maxNonce =>
    match cfg.GetShardHeaderFromStorage shardData.HeaderHash with
    | .error err => (maxNonce, some err)
    | .ok header =>
      if header.Nonce > maxNonce.get shardData.ShardId then
        maxNonceLoop cfg rest (maxNonce.set shardData.ShardId header.Nonce)
      else
        maxNonceLoop cfg rest maxNonce

/-- Function `MetaBootstrap.getMaxNotarizedHeadersNoncesInMetaBlock`. -/
def getMaxNotarizedHeadersNoncesInMetaBlock (cfg : ScanEnv) (metaBlock : MetaBlock) :
    NonceMap × Option Err :=
  maxNonceLoop cfg metaBlock.ShardInfo NonceMap.empty

/-- Body of the first loop of `MetaBootstrap.areNotarizedShardHeadersFound`
for shard `i`. -/
def fillShard (notarizedNonce : NonceMap) (nonce : Nat) (ni : notarizedInfo) (i : Nat) :
    notarizedInfo :=
  if ni.lastNotarized.get i = 0 then
    { ni with lastNotarized := ni.lastNotarized.set i (notarizedNonce.get i)
              blockWithLastNotarized := ni.blockWithLastNotarized.set i nonce }
  else if ni.finalNotarized.get i = 0 then
    { ni with finalNotarized := ni.finalNotarized.set i (notarizedNonce.get i)
              blockWithFinalNotarized := ni.blockWithFinalNotarized.set i nonce }
  else ni

/-- Function `MetaBootstrap.areNotarizedShardHeadersFound`: the value it
returns and the tracker state it leaves. -/
def areNotarizedShardHeadersFound (cfg : ScanEnv) (ni : notarizedInfo)
    (notarizedNonce : NonceMap) (nonce : Nat) : Bool × notarizedInfo :=
  let ni1 := (List.range cfg.NumberOfShards).foldl (fillShard notarizedNonce nonce) ni
  -- foundAllNotarizedShardHeaders: no shard with a zero last or final value
  let foundAllNotarizedShardHeaders :=
    (List.range cfg.NumberOfShards).all
      (fun i => !(decide (ni1.lastNotarized.get i = 0) || decide (ni1.finalNotarized.get i = 0)))
  (foundAllNotarizedShardHeaders, ni1)

/-- Body of the scan loop of `MetaBootstrap.getNonceWithLastNotarized` for one
value of `currentNonce`: whether the loop breaks, and the tracker state. -/
def scanStep (cfg : ScanEnv) (currentNonce : Nat) (ni : notarizedInfo) : Bool × notarizedInfo :=
  match isMetaBlockValid cfg currentNonce with
  | none => (false, notarizedInfo.reset)
  | some metaBlock =>
    let ni1 := if ni.startNonce = 0 then { ni with startNonce := currentNonce } else ni
    if metaBlock.ShardInfo.length = 0 then (false, ni1)
    else
      match getMaxNotarizedHeadersNoncesInMetaBlock cfg metaBlock with
      | (_, some _) => (false, notarizedInfo.reset)
      | (maxNonce, none) => areNotarizedShardHeadersFound cfg ni1 maxNonce currentNonce

/-- Scan loop of `MetaBootstrap.getNonceWithLastNotarized`, from `currentNonce`
down to 1 or to the break; the second component lists the nonces given to
`isMetaBlockValid`, in order. -/
def scanLoop (cfg : ScanEnv) : Nat → notarizedInfo → List Nat → notarizedInfo × List Nat
  | 0, ni, visited => (ni, visited)
  | n + 1, ni, visited =>
    match scanStep cfg (n + 1) ni with
    | (true, ni1) => (ni1, visited ++ [n + 1])
    | (false, ni1) => scanLoop cfg n ni1 (visited ++ [n + 1])

/-- Body of the second loop of `MetaBootstrap.getNonceWithLastNotarized` for
shard `i`. -/
def promoteShard (nonce : Nat) (ni : notarizedInfo) (i : Nat) : notarizedInfo :=
  if nonce > ni.blockWithLastNotarized.get i then
    { ni with finalNotarized := ni.finalNotarized.set i (ni.lastNotarized.get i) }
  else ni

/-- Tracker state of `MetaBootstrap.getNonceWithLastNotarized` when the scan
loop is left. -/
def scanResult (cfg : ScanEnv) (nonce : Nat) : notarizedInfo :=
  (scanLoop cfg nonce notarizedInfo.reset []).1

/-- Tracker state of `MetaBootstrap.getNonceWithLastNotarized` at its return
statement. -/
def notarizedAtReturn (cfg : ScanEnv) (nonce : Nat) : notarizedInfo :=
  (List.range cfg.NumberOfShards).foldl (promoteShard nonce) (scanResult cfg nonce)

/-- Function `MetaBootstrap.getNonceWithLastNotarized`: `startNonce`, the
`finalNotarized` map and the `lastNotarized` map. -/
def getNonceWithLastNotarized (cfg : ScanEnv) (nonce : Nat) : Nat × NonceMap × NonceMap :=
  let ni := notarizedAtReturn cfg nonce
  (ni.startNonce, ni.finalNotarized, ni.lastNotarized)

/-- Tracker state after the scan has handled `count` blocks from nonce `hi`
downwards without breaking. -/
def stepsFrom (cfg : ScanEnv) : Nat → Nat → notarizedInfo → notarizedInfo
  | _, 0, ni => ni
  | hi, count + 1, ni => stepsFrom cfg (hi - 1) count (scanStep cfg hi ni).2

/-- The nonces `hi, hi - 1, ...`, `count` of them. -/
def descending (hi count : Nat) : List Nat := (List.range count).map (fun c => hi - c)

/-- Function `MetaBootstrap.isMetaBlockValid` with its two results as the
source returns them: the block (`none` is nil) and the flag. -/
def isMetaBlockValidResults (cfg : ScanEnv) (nonce : Nat) : Option MetaBlock × Bool :=
  match getHeader cfg cfg.MetachainShardId nonce with
  | .error _ => (none, false)
  | .ok (headerHandler, _) =>
    match headerHandler with
    | HeaderHandler.shardHeader _ => (none, false)
    | HeaderHandler.metaBlock metaBlock =>
      if metaBlock.Round > cfg.bootstrapRoundIndex then (none, false) else (some metaBlock, true)

/-- Calls `boot.blkExecutor.AddLastNotarizedHdr(shardId, header)` made so far,
in order. -/
abbrev Registrations := List (Nat × HeaderHandler)

/-- Lines 303-321 of `MetaBootstrap.applyNotarizedBlocks`: the body of the loop
for shard `i`; `some err` is the error the function returns from inside it. -/
def applyNotarizedShard (cfg : ScanEnv) (finalNotarized lastNotarized : NonceMap) (i : Nat)
    (regs : Registrations) : Option Err × Registrations :=
  let nonce := finalNotarized.get i
  let r1 : Option Err × Registrations :=
    if nonce > 0 then
      match cfg.getShardHeaderFromStorage i nonce with
      | .error err => (some err, regs)
      | .ok (headerHandler, _) => (none, regs ++ [(i, headerHandler)])
    else (none, regs)
  match r1 with
  | (some err, regs1) => (some err, regs1)
  | (none, regs1) =>
    let nonce := lastNotarized.get i
    if nonce > 0 then
      match cfg.getShardHeaderFromStorage i nonce with
      | .error err => (some err, regs1)
      | .ok (headerHandler, _) => (none, regs1 ++ [(i, headerHandler)])
    else (none, regs1)

/-- Loop of `MetaBootstrap.applyNotarizedBlocks` over the remaining shards. -/
def applyNotarizedLoop (cfg : ScanEnv) (finalNotarized lastNotarized : NonceMap) :
    List Nat → Registrations → Option Err × Registrations
  | [], regs => (none, regs)
  | i :: rest, regs =>
    match applyNotarizedShard cfg finalNotarized lastNotarized i regs with
    | (some err, regs1) => (some err, regs1)
    | (none, regs1) => applyNotarizedLoop cfg finalNotarized lastNotarized rest regs1

/-- Function `MetaBootstrap.applyNotarizedBlocks`: the error it returns and the
registrations it made. -/
def applyNotarizedBlocks (cfg : ScanEnv) (finalNotarized lastNotarized : NonceMap) :
    Option Err × Registrations :=
  applyNotarizedLoop cfg finalNotarized lastNotarized (List.range cfg.NumberOfShards) []

/-! ## Vocabulary of the statements -/

/-- The five calls that `rollback` makes, in source order, for a given new
head, new head hash and new root hash. -/
def rollbackSteps (header : MetaBlock) (newHeader : Option MetaBlock)
    (newHeaderHash newRootHash : ByteSlice) : List Event :=
  [ Event.SetCurrentBlockHeader newHeader,
    Event.SetCurrentBlockHeaderHash newHeaderHash,
    Event.RecreateTrie newRootHash,
    Event.cleanCachesAndStorageOnRollback header,
    Event.RestoreBlockIntoPools header ]

/-- Calls to collaborators that belong to a rollback step. -/
def Event.isRollbackStep : Event → Bool
  | .SetCurrentBlockHeader _ => true
  | .SetCurrentBlockHeaderHash _ => true
  | .RecreateTrie _ => true
  | .cleanCachesAndStorageOnRollback _ => true
  | .RestoreBlockIntoPools _ => true
  | _ => false

/-- Lookups in a storer (as opposed to lookups in the header pools). -/
def Read.isStorerGet : Read → Bool
  | .StorerGet _ _ => true
  | _ => false

/-- Entries into `rollback`. -/
def Call.isRollback : Call → Bool
  | .rollback _ => true
  | _ => false

/-- What fork choice and rollback leave alone and what they may add: the
bootstrapper's own fields and the genesis header are kept, the trace grows by
rollback steps only, the lookups by storer reads only, and the entries by
entries into `rollback` only. -/
structure RollbackFrame (s t : MetaBootstrap) : Prop where
  genesisHeader : t.genesisHeader = s.genesisHeader
  requestsWithTimeout : t.requestsWithTimeout = s.requestsWithTimeout
  isForkDetected : t.isForkDetected = s.isForkDetected
  forkNonce : t.forkNonce = s.forkNonce
  forkHash : t.forkHash = s.forkHash
  headerNonce : t.headerNonce = s.headerNonce
  headerhash : t.headerhash = s.headerhash
  trace : ∃ es, t.trace = s.trace ++ es ∧ ∀ e ∈ es, e.isRollbackStep = true
  reads : ∃ rs, t.reads = s.reads ++ rs ∧ ∀ r ∈ rs, r.isStorerGet = true
  calls : ∃ cs, t.calls = s.calls ++ cs ∧ ∀ c ∈ cs, c.isRollback = true

/-- View of the accounts adapter at the moment `rollback` calls `RecreateTrie`. -/
def viewAtRecreateTrie (s : MetaBootstrap) (newHeader : Option MetaBlock)
    (newHeaderHash : ByteSlice) : View :=
  { currentBlockHeader := newHeader.map HeaderHandler.metaBlock
    currentBlockHeaderHash := newHeaderHash
    trace := s.trace ++ [Event.SetCurrentBlockHeader newHeader,
                         Event.SetCurrentBlockHeaderHash newHeaderHash]
    reads := s.reads }

/-- Calls by which the failure policy removes the header it was given from the
pools and from the fork detector; none for a nil header. -/
def removalEvents (env : Env) (hdr : Option MetaBlock) (s : MetaBootstrap) : List Event :=
  match hdr with
  | some h => [Event.removeHeaderFromPools h,
               Event.RemoveHeaders h.Nonce (env.removeHeaderFromPools s.view h)]
  | none => []

/-- State in which the failure policy calls `forkChoice(false)`: the counter is
reset, the header (if any) has been removed from the pools and the fork
detector, and the probable highest nonce has been reset when `force` holds. -/
def stateBeforeForkChoice (env : Env) (hdr : Option MetaBlock) (err : Err) (force : Bool)
    (s : MetaBootstrap) : MetaBootstrap :=
  { s with
    requestsWithTimeout := 0
    trace := s.trace ++ removalEvents env hdr s ++
      (if force then [Event.ResetProbableHighestNonce] else [])
    calls := s.calls ++ [Call.doJobOnSyncBlockFail hdr err] }

/-- The four map entries of the tracker for shard `j`: last, final, block with
last, block with final. -/
def notarizedInfo.entry (ni : notarizedInfo) (j : Nat) :
    Option Nat × Option Nat × Option Nat × Option Nat :=
  (ni.lastNotarized j, ni.finalNotarized j, ni.blockWithLastNotarized j,
    ni.blockWithFinalNotarized j)

/-- Two-step fill: the final value of a shard is non-zero only if its last
value is non-zero. -/
def notarizedInfo.twoStepFill (ni : notarizedInfo) : Prop :=
  ∀ s, ni.finalNotarized.get s ≠ 0 → ni.lastNotarized.get s ≠ 0

/-- Lines 464-468 of `MetaBootstrap.SyncBlock`: the header is resolved by hash
with `boot.forkHash` when a fork is detected, by nonce otherwise. -/
def resolveHeader (env : Env) (nonce : Nat) (s : MetaBootstrap) :
    Except Err MetaBlock × MetaBootstrap :=
  if s.isForkDetected then getHeaderWithHashRequestingIfMissing env s.forkHash s
  else getHeaderWithNonceRequestingIfMissing env nonce s

/-- State in which `SyncBlock` resolves the header: the one left by the fork
handling, after lines 450-451. -/
def stateAtResolution (s : MetaBootstrap) : MetaBootstrap :=
  setRequestedHeaderHash none (setRequestedHeaderNonce none s)

/-- Kinds of calls to collaborators. -/
inductive EventKind
  | rollbackStep
  | removal
  | resetProbable
  | resetIfNeeded
  | resetForcedFork
  | metric
  | nonceRequest
  | hashRequest
  | nextHeaders
  | processBlock
  | commitBlock
  deriving DecidableEq, Repr

/-- Kind of a call to a collaborator. -/
def Event.kind : Event → EventKind
  | .SetCurrentBlockHeader _ => .rollbackStep
  | .SetCurrentBlockHeaderHash _ => .rollbackStep
  | .RecreateTrie _ => .rollbackStep
  | .cleanCachesAndStorageOnRollback _ => .rollbackStep
  | .RestoreBlockIntoPools _ => .rollbackStep
  | .removeHeaderFromPools _ => .removal
  | .RemoveHeaders _ _ => .removal
  | .ResetProbableHighestNonce => .resetProbable
  | .ResetProbableHighestNonceIfNeeded => .resetIfNeeded
  | .ResetForcedFork => .resetForcedFork
  | .IncrementNumTimesInForkChoice => .metric
  | .EmptyChannelRcvHdrNonce => .nonceRequest
  | .RequestDataFromNonce _ => .nonceRequest
  | .waitForHeaderNonce => .nonceRequest
  | .EmptyChannelRcvHdrHash => .hashRequest
  | .RequestDataFromHash _ => .hashRequest
  | .waitForHeaderHash => .hashRequest
  | .goRequestHeadersFromNonceIfMissing _ => .nextHeaders
  | .ProcessBlock _ => .processBlock
  | .CommitBlock _ => .commitBlock

/-- Kinds of lookups. -/
inductive ReadKind
  | storer
  | poolByNonce
  | byHash
  deriving DecidableEq, Repr

/-- Kind of a lookup. -/
def Read.kind : Read → ReadKind
  | .StorerGet _ _ => .storer
  | .GetMetaHeaderFromPoolWithNonce _ => .poolByNonce
  | .GetMetaHeader _ => .byHash
  | .GetMetaHeaderFromPool _ => .byHash

/-- Kinds of entries into the bootstrapper's own functions. -/
inductive CallKind
  | forkChoice
  | rollback
  | failurePolicy
  deriving DecidableEq, Repr

/-- Kind of an entry. -/
def Call.kind : Call → CallKind
  | .forkChoice _ => .forkChoice
  | .rollback _ => .rollback
  | .doJobOnSyncBlockFail _ _ => .failurePolicy

/-- From state `s` to state `t` the fork fields and the genesis header are
kept, and the three histories grow by entries of the listed kinds only. -/
structure Within (ek : List EventKind) (rk : List ReadKind) (ck : List CallKind)
    (s t : MetaBootstrap) : Prop where
  genesisHeader : t.genesisHeader = s.genesisHeader
  isForkDetected : t.isForkDetected = s.isForkDetected
  forkNonce : t.forkNonce = s.forkNonce
  forkHash : t.forkHash = s.forkHash
  trace : ∃ es, t.trace = s.trace ++ es ∧ ∀ e ∈ es, e.kind ∈ ek
  reads : ∃ rs, t.reads = s.reads ++ rs ∧ ∀ r ∈ rs, r.kind ∈ rk
  calls : ∃ cs, t.calls = s.calls ++ cs ∧ ∀ c ∈ cs, c.kind ∈ ck

/-- What the scan of `getNonceWithLastNotarized` does with the metablock at one
nonce, seen from one shard: the tracker is reset (invalid block, or a
referenced shard header that cannot be loaded), the block is passed over (valid,
empty `ShardInfo`), or `areNotarizedShardHeadersFound` is called with the
value `v` for the shard. -/
inductive Observation
  | reset
  | skipped
  | value (v : Nat)
  deriving DecidableEq, Repr

/-- Observation of shard `s` at the metablock with nonce `cur`. -/
def observation (cfg : ScanEnv) (cur s : Nat) : Observation :=
  match isMetaBlockValid cfg cur with
  | none => Observation.reset
  | some metaBlock =>
    if metaBlock.ShardInfo.length = 0 then Observation.skipped
    else
      match getMaxNotarizedHeadersNoncesInMetaBlock cfg metaBlock with
      | (_, some _) => Observation.reset
      | (maxNonce, none) => Observation.value (maxNonce.get s)

/-- Lines 192-194 of `getNonceWithLastNotarized`: `startNonce` is set at the
first valid block. -/
def markStart (cur : Nat) (ni : notarizedInfo) : notarizedInfo :=
  if ni.startNonce = 0 then { ni with startNonce := cur } else ni

/-- The loads the contract of `applyNotarizedBlocks` asks for shard `i`, as
pairs of shard id and nonce: the final nonce when it is `> 0`, then the last
nonce when it is `> 0`. -/
def shardRequests (finalNotarized lastNotarized : NonceMap) (i : Nat) : List (Nat × Nat) :=
  (if finalNotarized.get i > 0 then [(i, finalNotarized.get i)] else []) ++
  (if lastNotarized.get i > 0 then [(i, lastNotarized.get i)] else [])

/-- The loads the contract of `applyNotarizedBlocks` asks for: those of the
shards `0 .. NumberOfShards - 1`, in ascending order. -/
def loadRequests (cfg : ScanEnv) (finalNotarized lastNotarized : NonceMap) : List (Nat × Nat) :=
  (List.range cfg.NumberOfShards).flatMap (shardRequests finalNotarized lastNotarized)

/-- The registration made for a request whose header can be loaded. -/
def registration (cfg : ScanEnv) (q : Nat × Nat) : Option (Nat × HeaderHandler) :=
  match cfg.getShardHeaderFromStorage q.1 q.2 with
  | .ok (headerHandler, _) => some (q.1, headerHandler)
  | .error _ => none

/-- The contract of `applyNotarizedBlocks` in the words of the specification:
the requested headers are loaded and registered one after the other, and the
first header that cannot be loaded ends the run with its error. -/
def registerInOrder (cfg : ScanEnv) : List (Nat × Nat) → Registrations →
    Option Err × Registrations
  | [], regs => (none, regs)
  | q :: rest, regs =>
    match cfg.getShardHeaderFromStorage q.1 q.2 with
    | .error err => (some err, regs)
    | .ok (headerHandler, _) => registerInOrder cfg rest (regs ++ [(q.1, headerHandler)])

/-! ## A concrete chain used to instantiate the statements -/

/-- Block number `n` of the sample chain: its hash is `[n]`, its predecessor's
hash is `[n - 1]`. -/
def sampleBlock (n : Nat) : MetaBlock :=
  { Nonce := n, Round := n, PrevHash := some [n - 1], RootHash := some [100 + n], ShardInfo := [] }

/-- Sample storer: the buffer stored under a key is the key itself. -/
def sampleStorer : Storer := { Get := fun _ key => .ok key }

/-- Sample marshalizer: the buffer `[n]` decodes to `sampleBlock n`. -/
def sampleUnmarshal : ByteSlice → Except Err MetaBlock
  | some [n] => .ok (sampleBlock n)
  | _ => .error (Err.other 1)

/-- Sample environment: collaborators never fail, every round is proper, two
timeouts are allowed, the highest final nonce is 4, the pools are empty and
no header ever arrives. -/
def sampleEnv : Env :=
  { MaxRequestsWithTimeoutAllowed := 2
    IsInProperRound := fun _ => true
    counterBits := 32
    rounderIndex := fun _ => 0
    GetHighestFinalBlockNonce := fun _ => 4
    GetStorer := fun _ => some sampleStorer
    Unmarshal := sampleUnmarshal
    SetCurrentBlockHeader := fun _ _ => none
    RecreateTrie := fun _ _ => none
    RestoreBlockIntoPools := fun _ _ => none
    ProcessBlock := fun _ _ => none
    CommitBlock := fun _ h => .ok (some (HeaderHandler.metaBlock h), some [h.Nonce])
    GetMetaHeaderFromPoolWithNonce := fun _ _ => .error (Err.other 2)
    GetMetaHeader := fun _ _ => .error (Err.other 3)
    GetMetaHeaderFromPool := fun _ _ => .error (Err.other 4)
    RequestDataFromNonce := fun _ _ => none
    RequestDataFromHash := fun _ _ => none
    ShouldSync := fun s => (true, s)
    getNonceForNextBlock := fun s =>
      match s.currentBlockHeader with
      | none => 1
      | some h => (h.GetNonce + 1) % 2 ^ 64
    removeHeaderFromPools := fun _ h => some [h.Nonce]
    waitForHeaderNonce := fun s => (some Err.ErrTimeIsOut, s.headerNonce)
    waitForHeaderHash := fun s => (some Err.ErrTimeIsOut, s.headerhash) }

/-- Sample state: the chain head is block `n` of the sample chain, no fork is
detected, nothing is requested and nothing has happened yet. -/
def sampleState (n : Nat) : MetaBootstrap :=
  { currentBlockHeader := some (HeaderHandler.metaBlock (sampleBlock n))
    currentBlockHeaderHash := some [n]
    genesisHeader := HeaderHandler.metaBlock (sampleBlock 0)
    requestsWithTimeout := 0
    isForkDetected := false
    forkNonce := 0
    forkHash := none
    headerNonce := none
    headerhash := none
    trace := []
    reads := []
    calls := [] }

/-- Sample state with a forced fork pending and `c` timeouts counted so far. -/
def forcedForkState (n c : Nat) : MetaBootstrap :=
  { sampleState n with
    isForkDetected := true
    forkNonce := MaxUint64
    forkHash := none
    requestsWithTimeout := c }

/-- State after `n` consecutive runs of the failure policy with `ErrTimeIsOut`
and a nil header, from the sample state with head 5 and a counter of 0. -/
def sampleTimeouts : Nat → Option MetaBootstrap
  | 0 => some (sampleState 5)
  | n + 1 => (sampleTimeouts n).bind (doJobOnSyncBlockFail sampleEnv 1 none Err.ErrTimeIsOut)

/-- State left by one attempt from the sample state with head 5: the header
with nonce 6 is not in the pool, it is requested, and the wait times out. -/
def sampleTimedOut : MetaBootstrap :=
  { sampleState 5 with
    requestsWithTimeout := 1
    headerNonce := some 6
    trace := [Event.EmptyChannelRcvHdrNonce, Event.RequestDataFromNonce 6,
              Event.waitForHeaderNonce, Event.ResetProbableHighestNonceIfNeeded]
    reads := [Read.GetMetaHeaderFromPoolWithNonce 6]
    calls := [Call.doJobOnSyncBlockFail none Err.ErrTimeIsOut] }

/-- Metablock number `n` of the sample storage: block 50 notarizes the shard
header `(0, 7)`, block 45 the shard headers `(0, 5)` and `(0, 3)`, the other
blocks nothing. -/
def sampleMeta (n : Nat) : MetaBlock :=
  { sampleBlock n with
    ShardInfo :=
      if n = 50 then [{ ShardId := 0, HeaderHash := some [0, 7] }]
      else if n = 45 then [{ ShardId := 0, HeaderHash := some [0, 3] },
                           { ShardId := 0, HeaderHash := some [0, 5] }]
      else [] }

/-- Sample storage with two shards: the metablocks 1 to 50, of rounds 1 to 50,
and a shard header with nonce `n` of shard `s` under every hash `[s, n]`. -/
def sampleScanEnv : ScanEnv :=
  { NumberOfShards := 2
    bootstrapRoundIndex := 100
    MetachainShardId := 2 ^ 32 - 1
    getMetaHeaderFromStorage := fun _ n =>
      if 1 ≤ n ∧ n ≤ 50 then .ok (HeaderHandler.metaBlock (sampleMeta n), some [n])
      else .error (Err.other 5)
    GetShardHeaderFromStorage := fun hash =>
      match hash with
      | some [s, n] =>
        .ok { Nonce := n, Round := n, ShardId := s, PrevHash := none, RootHash := none }
      | _ => .error (Err.other 6)
    getShardHeaderFromStorage := fun s n =>
      .ok (HeaderHandler.shardHeader
        { Nonce := n, Round := n, ShardId := s, PrevHash := none, RootHash := none },
        some [s, n]) }

/-- Sample environment in which every header is available: the pool holds
`sampleBlock n` under the nonce `n` and under the hash `[n]`. -/
def poolEnv : Env :=
  { sampleEnv with
    GetMetaHeaderFromPoolWithNonce := fun _ n => .ok (sampleBlock n)
    GetMetaHeader := fun _ h =>
      match h with
      | some [n] => .ok (sampleBlock n)
      | _ => .error (Err.other 3) }

/-- Sample state with head 5 in which both request markers are still set. -/
def staleState : MetaBootstrap :=
  { sampleState 5 with headerNonce := some 9, headerhash := some [9] }

/-- Sample state with head 8 and a specific fork pending at nonce 6, the
competing header being the one with hash `[6]`. -/
def specificForkState : MetaBootstrap :=
  { sampleState 8 with isForkDetected := true, forkNonce := 6, forkHash := some [6] }

/-- State left by the fork choice of one attempt from `specificForkState`:
three rollback steps, down to head 5. -/
def specificForkRolledBack : MetaBootstrap :=
  { specificForkState with
    currentBlockHeader := some (HeaderHandler.metaBlock (sampleBlock 5))
    currentBlockHeaderHash := some [5]
    trace := [Event.IncrementNumTimesInForkChoice] ++
      rollbackSteps (sampleBlock 8) (some (sampleBlock 7)) (some [7]) (some [107]) ++
      rollbackSteps (sampleBlock 7) (some (sampleBlock 6)) (some [6]) (some [106]) ++
      rollbackSteps (sampleBlock 6) (some (sampleBlock 5)) (some [5]) (some [105])
    reads := [Read.StorerGet UnitType.MetaBlockUnit (some [7]),
              Read.StorerGet UnitType.MetaBlockUnit (some [6]),
              Read.StorerGet UnitType.MetaBlockUnit (some [5])]
    calls := [Call.forkChoice true, Call.rollback (sampleBlock 8),
              Call.rollback (sampleBlock 7), Call.rollback (sampleBlock 6)] }

/-- State left by one attempt from `specificForkState` in `poolEnv`: the
competing header 6 is fetched by hash, processed and committed. -/
def specificForkResolved : MetaBootstrap :=
  { specificForkRolledBack with
    currentBlockHeader := some (HeaderHandler.metaBlock (sampleBlock 6))
    currentBlockHeaderHash := some [6]
    trace := specificForkRolledBack.trace ++
      [Event.goRequestHeadersFromNonceIfMissing 7, Event.ProcessBlock (sampleBlock 6),
        Event.CommitBlock (sampleBlock 6)]
    reads := specificForkRolledBack.reads ++ [Read.GetMetaHeader (some [6])] }

/-- State left by one attempt from the sample state with head 5 in `poolEnv`:
header 6 is fetched by nonce, processed and committed. -/
def sampleCommitted : MetaBootstrap :=
  { sampleState 6 with
    trace := [Event.goRequestHeadersFromNonceIfMissing 7, Event.ProcessBlock (sampleBlock 6),
      Event.CommitBlock (sampleBlock 6)]
    reads := [Read.GetMetaHeaderFromPoolWithNonce 6] }

/-- Sample storage like `sampleScanEnv`, except that metablock 48 references a
shard header under the nil hash, which cannot be loaded. -/
def brokenScanEnv : ScanEnv :=
  { sampleScanEnv with
    getMetaHeaderFromStorage := fun s n =>
      if n = 48 then
        .ok (HeaderHandler.metaBlock
          { sampleBlock 48 with ShardInfo := [{ ShardId := 0, HeaderHash := none }] }, some [48])
      else sampleScanEnv.getMetaHeaderFromStorage s n }

/-- Sample state whose chain head is the block with nonce 0 of the sample chain. -/
def genesisHeadState : MetaBootstrap := sampleState 0

/-- Sample environment in which the header with nonce 6 arrives during the
wait: the pool lookup fails before the wait and succeeds after it, and the
dispatch of the request reports an error. -/
def arrivingEnv : Env :=
  { sampleEnv with
    GetMetaHeaderFromPoolWithNonce := fun v n =>
      if Event.waitForHeaderNonce ∈ v.trace then .ok (sampleBlock n) else .error (Err.other 2)
    RequestDataFromNonce := fun _ _ => some (Err.other 9)
    waitForHeaderNonce := fun _ => (none, none) }

/-- The headers of the sample chain: `sampleBlock n` for every `n`. -/
def onSampleChain (b : MetaBlock) : Prop := b = sampleBlock b.Nonce

/-- Sample state whose chain head is the block with nonce 0 of the sample
chain, with a specific fork pending at nonce 5. -/
def genesisForkState : MetaBootstrap :=
  { sampleState 0 with isForkDetected := true, forkNonce := 5, forkHash := some [5] }

/-- Sample storage like `sampleScanEnv`, except that no metablock is stored at
nonce 48: a scan from 50 meets an invalid block after it has recorded shard 0
at block 50. -/
def gapScanEnv : ScanEnv :=
  { sampleScanEnv with
    getMetaHeaderFromStorage := fun s n =>
      if n = 48 then .error (Err.other 5) else sampleScanEnv.getMetaHeaderFromStorage s n }

/-! ## Frame lemmas -/

theorem view_enter (s : MetaBootstrap) (c : Call) : (s.enter c).view = s.view := rfl

theorem RollbackFrame.refl (s : MetaBootstrap) : RollbackFrame s s :=
  { genesisHeader := rfl, requestsWithTimeout := rfl, isForkDetected := rfl, forkNonce := rfl,
    forkHash := rfl, headerNonce := rfl, headerhash := rfl,
    trace := ⟨[], by simp⟩, reads := ⟨[], by simp⟩, calls := ⟨[], by simp⟩ }

theorem RollbackFrame.trans {s t u : MetaBootstrap} (h1 : RollbackFrame s t)
    (h2 : RollbackFrame t u) : RollbackFrame s u := by
  obtain ⟨es1, he1, hes1⟩ := h1.trace
  obtain ⟨es2, he2, hes2⟩ := h2.trace
  obtain ⟨rs1, hr1, hrs1⟩ := h1.reads
  obtain ⟨rs2, hr2, hrs2⟩ := h2.reads
  obtain ⟨cs1, hc1, hcs1⟩ := h1.calls
  obtain ⟨cs2, hc2, hcs2⟩ := h2.calls
  refine
    { genesisHeader := h2.genesisHeader.trans h1.genesisHeader
      requestsWithTimeout := h2.requestsWithTimeout.trans h1.requestsWithTimeout
      isForkDetected := h2.isForkDetected.trans h1.isForkDetected
      forkNonce := h2.forkNonce.trans h1.forkNonce
      forkHash := h2.forkHash.trans h1.forkHash
      headerNonce := h2.headerNonce.trans h1.headerNonce
      headerhash := h2.headerhash.trans h1.headerhash
      trace := ⟨es1 ++ es2, by rw [he2, he1, List.append_assoc], ?_⟩
      reads := ⟨rs1 ++ rs2, by rw [hr2, hr1, List.append_assoc], ?_⟩
      calls := ⟨cs1 ++ cs2, by rw [hc2, hc1, List.append_assoc], ?_⟩ }
  · intro e he
    rcases List.mem_append.mp he with h | h
    · exact hes1 e h
    · exact hes2 e h
  · intro e he
    rcases List.mem_append.mp he with h | h
    · exact hrs1 e h
    · exact hrs2 e h
  · intro e he
    rcases List.mem_append.mp he with h | h
    · exact hcs1 e h
    · exact hcs2 e h

theorem rollbackApply_setHeader_fails (env : Env) (header : MetaBlock)
    (newHeader : Option MetaBlock) (newHeaderHash newRootHash : ByteSlice) (s : MetaBootstrap)
    (e : Err) (h : env.SetCurrentBlockHeader s.view newHeader = some e) :
    rollbackApply env header newHeader newHeaderHash newRootHash s =
      (some e, { s with trace := s.trace ++ [Event.SetCurrentBlockHeader newHeader] }) := by
  simp [rollbackApply, SetCurrentBlockHeader, h, MetaBootstrap.emit]

theorem rollbackApply_recreateTrie_fails (env : Env) (header : MetaBlock)
    (newHeader : Option MetaBlock) (newHeaderHash newRootHash : ByteSlice) (s : MetaBootstrap)
    (e : Err) (h1 : env.SetCurrentBlockHeader s.view newHeader = none)
    (h2 : env.RecreateTrie (viewAtRecreateTrie s newHeader newHeaderHash) newRootHash = some e) :
    rollbackApply env header newHeader newHeaderHash newRootHash s =
      (some e, { s with currentBlockHeader := newHeader.map HeaderHandler.metaBlock
                        currentBlockHeaderHash := newHeaderHash
                        trace := s.trace ++
                          (rollbackSteps header newHeader newHeaderHash newRootHash).take 3 }) := by
  simp only [viewAtRecreateTrie] at h2
  simp only [MetaBootstrap.view] at h1
  simp [rollbackApply, SetCurrentBlockHeader, h1, SetCurrentBlockHeaderHash, MetaBootstrap.emit,
    MetaBootstrap.view, h2, rollbackSteps]

theorem rollbackApply_succeeds (env : Env) (header : MetaBlock)
    (newHeader : Option MetaBlock) (newHeaderHash newRootHash : ByteSlice) (s : MetaBootstrap)
    (h1 : env.SetCurrentBlockHeader s.view newHeader = none)
    (h2 : env.RecreateTrie (viewAtRecreateTrie s newHeader newHeaderHash) newRootHash = none) :
    rollbackApply env header newHeader newHeaderHash newRootHash s =
      (none, { s with currentBlockHeader := newHeader.map HeaderHandler.metaBlock
                      currentBlockHeaderHash := newHeaderHash
                      trace := s.trace ++
                        rollbackSteps header newHeader newHeaderHash newRootHash }) := by
  simp only [viewAtRecreateTrie] at h2
  simp only [MetaBootstrap.view] at h1
  simp [rollbackApply, SetCurrentBlockHeader, h1, SetCurrentBlockHeaderHash, MetaBootstrap.emit,
    MetaBootstrap.view, h2, rollbackSteps]

theorem rollbackApply_frame (env : Env) (header : MetaBlock) (newHeader : Option MetaBlock)
    (newHeaderHash newRootHash : ByteSlice) (s : MetaBootstrap) :
    RollbackFrame s (rollbackApply env header newHeader newHeaderHash newRootHash s).2 := by
  cases h1 : env.SetCurrentBlockHeader s.view newHeader with
  | some e =>
    rw [rollbackApply_setHeader_fails env header newHeader newHeaderHash newRootHash s e h1]
    exact { genesisHeader := rfl, requestsWithTimeout := rfl, isForkDetected := rfl,
            forkNonce := rfl, forkHash := rfl, headerNonce := rfl, headerhash := rfl,
            trace := ⟨_, rfl, by simp [Event.isRollbackStep]⟩,
            reads := ⟨[], by simp⟩, calls := ⟨[], by simp⟩ }
  | none =>
    cases h2 : env.RecreateTrie (viewAtRecreateTrie s newHeader newHeaderHash) newRootHash with
    | some e =>
      rw [rollbackApply_recreateTrie_fails env header newHeader newHeaderHash newRootHash s e h1 h2]
      exact { genesisHeader := rfl, requestsWithTimeout := rfl, isForkDetected := rfl,
              forkNonce := rfl, forkHash := rfl, headerNonce := rfl, headerhash := rfl,
              trace := ⟨_, rfl, by simp [rollbackSteps, Event.isRollbackStep]⟩,
              reads := ⟨[], by simp⟩, calls := ⟨[], by simp⟩ }
    | none =>
      rw [rollbackApply_succeeds env header newHeader newHeaderHash newRootHash s h1 h2]
      exact { genesisHeader := rfl, requestsWithTimeout := rfl, isForkDetected := rfl,
              forkNonce := rfl, forkHash := rfl, headerNonce := rfl, headerhash := rfl,
              trace := ⟨_, rfl, by simp [rollbackSteps, Event.isRollbackStep]⟩,
              reads := ⟨[], by simp⟩, calls := ⟨[], by simp⟩ }

theorem RollbackFrame.enter_rollback (s : MetaBootstrap) (header : MetaBlock) :
    RollbackFrame s (s.enter (Call.rollback header)) :=
  { genesisHeader := rfl, requestsWithTimeout := rfl, isForkDetected := rfl, forkNonce := rfl,
    forkHash := rfl, headerNonce := rfl, headerhash := rfl,
    trace := ⟨[], by simp [MetaBootstrap.enter]⟩, reads := ⟨[], by simp [MetaBootstrap.enter]⟩,
    calls := ⟨[Call.rollback header], rfl, by simp [Call.isRollback]⟩ }

theorem RollbackFrame.look_storer (s : MetaBootstrap) (u : UnitType) (key : ByteSlice) :
    RollbackFrame s (s.look (Read.StorerGet u key)) :=
  { genesisHeader := rfl, requestsWithTimeout := rfl, isForkDetected := rfl, forkNonce := rfl,
    forkHash := rfl, headerNonce := rfl, headerhash := rfl,
    trace := ⟨[], by simp [MetaBootstrap.look]⟩,
    reads := ⟨[Read.StorerGet u key], rfl, by simp [Read.isStorerGet]⟩,
    calls := ⟨[], by simp [MetaBootstrap.look]⟩ }

theorem getPrevHeader_state (env : Env) (headerStore : Storer) (header : MetaBlock)
    (s : MetaBootstrap) :
    (getPrevHeader env headerStore header s).2 =
      s.look (Read.StorerGet UnitType.MetaBlockUnit header.PrevHash) := by
  unfold getPrevHeader
  simp only []
  split
  · rfl
  · split <;> rfl

theorem rollback_frame (env : Env) (header : MetaBlock) (s : MetaBootstrap) :
    RollbackFrame s (rollback env header s).2 := by
  have h0 := RollbackFrame.enter_rollback s header
  unfold rollback
  simp only []
  split
  · exact h0
  · split
    · exact h0
    · split
      · exact h0
      · split
        · split
          · rename_i hg
            have h := congrArg Prod.snd hg
            rw [getPrevHeader_state] at h
            simp only at h
            rw [← h]
            exact h0.trans (RollbackFrame.look_storer _ _ _)
          · rename_i hg
            have h := congrArg Prod.snd hg
            rw [getPrevHeader_state] at h
            simp only at h
            rw [← h]
            exact (h0.trans (RollbackFrame.look_storer _ _ _)).trans (rollbackApply_frame _ _ _ _ _ _)
        · exact h0.trans (rollbackApply_frame _ _ _ _ _ _)

theorem rollbackApply_none (env : Env) (header : MetaBlock) (newHeader : Option MetaBlock)
    (newHeaderHash newRootHash : ByteSlice) (s t : MetaBootstrap)
    (h : rollbackApply env header newHeader newHeaderHash newRootHash s = (none, t)) :
    t = { s with currentBlockHeader := newHeader.map HeaderHandler.metaBlock
                 currentBlockHeaderHash := newHeaderHash
                 trace := s.trace ++
                   rollbackSteps header newHeader newHeaderHash newRootHash } := by
  cases h1 : env.SetCurrentBlockHeader s.view newHeader with
  | some e =>
    rw [rollbackApply_setHeader_fails env header newHeader newHeaderHash newRootHash s e h1] at h
    simp at h
  | none =>
    cases h2 : env.RecreateTrie (viewAtRecreateTrie s newHeader newHeaderHash) newRootHash with
    | some e =>
      rw [rollbackApply_recreateTrie_fails env header newHeader newHeaderHash newRootHash s e
        h1 h2] at h
      simp at h
    | none =>
      rw [rollbackApply_succeeds env header newHeader newHeaderHash newRootHash s h1 h2] at h
      exact (congrArg Prod.snd h).symm

theorem getPrevHeader_ok (env : Env) (headerStore : Storer) (header newHeader : MetaBlock)
    (s t : MetaBootstrap) (h : getPrevHeader env headerStore header s = (.ok newHeader, t)) :
    ∃ buff, headerStore.Get s.view header.PrevHash = .ok buff ∧
      env.Unmarshal buff = .ok newHeader := by
  unfold getPrevHeader at h
  simp only [] at h
  split at h
  · simp at h
  · rename_i buff hb
    split at h
    · simp at h
    · rename_i m hm
      simp only [Prod.mk.injEq, Except.ok.injEq] at h
      exact ⟨buff, hb, by rw [hm, h.1]⟩

/-- Successful rollback, in full: the state it leaves. -/
theorem rollback_success (env : Env) (header : MetaBlock) (s t : MetaBootstrap)
    (h : rollback env header s = (none, t)) :
    header.Nonce ≠ 0 ∧
    (1 < header.Nonce →
      ∃ headerStore buff newHeader,
        env.GetStorer UnitType.MetaBlockUnit = some headerStore ∧
        headerStore.Get s.view header.PrevHash = .ok buff ∧
        env.Unmarshal buff = .ok newHeader ∧
        t = { s with currentBlockHeader := some (HeaderHandler.metaBlock newHeader)
                     currentBlockHeaderHash := header.PrevHash
                     trace := s.trace ++
                       rollbackSteps header (some newHeader) header.PrevHash newHeader.RootHash
                     reads := s.reads ++ [Read.StorerGet UnitType.MetaBlockUnit header.PrevHash]
                     calls := s.calls ++ [Call.rollback header] }) ∧
    (header.Nonce = 1 →
      t = { s with currentBlockHeader := none
                   currentBlockHeaderHash := none
                   trace := s.trace ++
                     rollbackSteps header none none s.genesisHeader.GetRootHash
                   calls := s.calls ++ [Call.rollback header] }) := by
  unfold rollback at h
  simp only [] at h
  split at h
  · simp at h
  · rename_i hn0
    refine ⟨hn0, ?_⟩
    split at h
    · simp at h
    · rename_i headerStore hs
      split at h
      · simp at h
      · split at h
        · rename_i hgt
          split at h
          · simp at h
          · rename_i newHeader s1 hg
            have hst := congrArg Prod.snd hg
            rw [getPrevHeader_state] at hst
            simp only at hst
            obtain ⟨buff, hb, hu⟩ := getPrevHeader_ok env headerStore header newHeader _ _ hg
            have ht := rollbackApply_none env header _ _ _ _ _ h
            refine ⟨fun _ => ⟨headerStore, buff, newHeader, hs, hb, hu, ?_⟩, fun h1 => ?_⟩
            · rw [ht, ← hst]
              rfl
            · omega
        · rename_i hgt
          have ht := rollbackApply_none env header _ _ _ _ _ h
          refine ⟨fun h1 => absurd h1 hgt, fun _ => ?_⟩
          rw [ht]
          rfl

theorem forkChoiceLoop_false (env : Env) (fuel : Nat) (s : MetaBootstrap) :
    forkChoiceLoop env false (fuel + 1) s =
      some (match getCurrentHeader s with
        | .error e => (some e, s)
        | .ok header =>
          if header.Nonce ≤ env.GetHighestFinalBlockNonce s.view then
            (some Err.ErrRollBackBehindFinalHeader, s)
          else rollback env header s) := by
  unfold forkChoiceLoop
  cases hc : getCurrentHeader s with
  | error e => rfl
  | ok header =>
    simp only [Bool.not_false, Bool.true_and, decide_eq_true_eq, Bool.false_and]
    by_cases hle : header.Nonce ≤ env.GetHighestFinalBlockNonce s.view
    · simp [hle]
    · simp only [hle, if_false]
      rcases hr : rollback env header s with ⟨_ | e, s1⟩ <;> simp

theorem forkChoiceLoop_frame (env : Env) (rev : Bool) (fuel : Nat) :
    ∀ (s t : MetaBootstrap) (r : Option Err),
      forkChoiceLoop env rev fuel s = some (r, t) → RollbackFrame s t := by
  induction fuel with
  | zero => intro s t r h; simp [forkChoiceLoop] at h
  | succ n ih =>
    intro s t r h
    unfold forkChoiceLoop at h
    split at h
    · simp only [Option.some.injEq, Prod.mk.injEq] at h
      rw [← h.2]
      exact RollbackFrame.refl s
    · rename_i header hc
      split at h
      · simp only [Option.some.injEq, Prod.mk.injEq] at h
        rw [← h.2]
        exact RollbackFrame.refl s
      · have hf := rollback_frame env header s
        split at h
        · rename_i e s1 hr
          simp only [Option.some.injEq, Prod.mk.injEq] at h
          rw [hr] at hf
          rw [← h.2]
          exact hf
        · rename_i s1 hr
          rw [hr] at hf
          split at h
          · exact hf.trans (ih s1 t r h)
          · simp only [Option.some.injEq, Prod.mk.injEq] at h
            rw [← h.2]
            exact hf

/-! ## Fork choice and the finality floor -/

/-- C1: when the chain head is a MetaBlock whose nonce is at most the highest
final block nonce reported by the fork detector, `forkChoice(false)` returns
`ErrRollBackBehindFinalHeader` and does nothing else: the chain head, the head
hash, the calls made to collaborators (trie, pools, storage) and the lookups
are those of the state before the call, and `rollback` is not entered (the
only new entry is the one into `forkChoice` itself). -/
theorem forkChoice_refuses_behind_final (env : Env) (fuel : Nat) (s : MetaBootstrap)
    (header : MetaBlock)
    (hhead : s.currentBlockHeader = some (HeaderHandler.metaBlock header))
    (hfinal : header.Nonce ≤ env.GetHighestFinalBlockNonce s.view) :
    forkChoice env false (fuel + 1) s =
      some (some Err.ErrRollBackBehindFinalHeader,
        { s with calls := s.calls ++ [Call.forkChoice false] }) := by
  unfold forkChoice
  rw [forkChoiceLoop_false]
  have hc : getCurrentHeader (s.enter (Call.forkChoice false)) = .ok header := by
    simp [getCurrentHeader, MetaBootstrap.enter, hhead]
  rw [hc, view_enter]
  simp only [hfinal, if_true]
  rfl

theorem forkChoice_refuses_behind_final_witness :
    (sampleState 3).currentBlockHeader = some (HeaderHandler.metaBlock (sampleBlock 3)) ∧
    (sampleBlock 3).Nonce ≤ sampleEnv.GetHighestFinalBlockNonce (sampleState 3).view ∧
    forkChoice sampleEnv false 1 (sampleState 3) =
      some (some Err.ErrRollBackBehindFinalHeader,
        { sampleState 3 with calls := (sampleState 3).calls ++ [Call.forkChoice false] }) :=
  ⟨rfl, by decide,
    forkChoice_refuses_behind_final sampleEnv 0 (sampleState 3) (sampleBlock 3) rfl (by decide)⟩

/-- C2, as stated, fails: on the sample chain with head nonce 5 and highest
final nonce 4, `forkChoice(false)` returns nil and the resulting head is block
4, whose nonce is not above the highest final nonce. -/
theorem forkChoice_false_reaches_final :
    (forkChoice sampleEnv false 1 (sampleState 5)).map
        (fun r => (r.1, r.2.currentBlockHeader, r.2.currentBlockHeaderHash)) =
      some (none, some (HeaderHandler.metaBlock (sampleBlock 4)), some [4]) ∧
    (sampleBlock 4).Nonce + 1 = (sampleBlock 5).Nonce ∧
    (sampleBlock 4).Nonce ≤ sampleEnv.GetHighestFinalBlockNonce (sampleState 5).view := by
  refine ⟨by rfl, by decide, by decide⟩

/-- C2, amended: when `forkChoice(false)` returns nil and the stored predecessor
of the head (nonce n) has nonce n-1, the head it rolled back had a nonce above
the highest final block nonce read at invocation time, and the resulting head
is the predecessor, whose nonce is never below that value (it may be equal to
it); when the rolled-back head had nonce 1 the resulting head is nil and that
value was 0. -/
theorem forkChoice_false_not_below_final (env : Env) (fuel : Nat) (s t : MetaBootstrap)
    (hpred : ∀ header headerStore v buff newHeader,
      s.currentBlockHeader = some (HeaderHandler.metaBlock header) →
      env.GetStorer UnitType.MetaBlockUnit = some headerStore →
      headerStore.Get v header.PrevHash = .ok buff →
      env.Unmarshal buff = .ok newHeader → newHeader.Nonce + 1 = header.Nonce)
    (hret : forkChoice env false fuel s = some (none, t)) :
    ∃ header, s.currentBlockHeader = some (HeaderHandler.metaBlock header) ∧
      env.GetHighestFinalBlockNonce s.view < header.Nonce ∧
      (1 < header.Nonce →
        ∃ newHeader, t.currentBlockHeader = some (HeaderHandler.metaBlock newHeader) ∧
          newHeader.Nonce + 1 = header.Nonce ∧
          env.GetHighestFinalBlockNonce s.view ≤ newHeader.Nonce) ∧
      (header.Nonce = 1 →
        t.currentBlockHeader = none ∧ env.GetHighestFinalBlockNonce s.view = 0) := by
  cases fuel with
  | zero => simp [forkChoice, forkChoiceLoop] at hret
  | succ n =>
    unfold forkChoice at hret
    rw [forkChoiceLoop_false, view_enter] at hret
    simp only [Option.some.injEq] at hret
    split at hret
    · simp at hret
    · rename_i header hc
      have hhead : s.currentBlockHeader = some (HeaderHandler.metaBlock header) := by
        unfold getCurrentHeader at hc
        simp only [MetaBootstrap.enter] at hc
        split at hc
        · simp at hc
        · rename_i m hm
          simp only [Except.ok.injEq] at hc
          rw [hm, hc]
        · simp at hc
      split at hret
      · simp at hret
      · rename_i hlt
        obtain ⟨_, hgt, h1⟩ := rollback_success env header _ t hret
        refine ⟨header, hhead, by omega, ?_, ?_⟩
        · intro hn
          obtain ⟨headerStore, buff, newHeader, hs, hb, hu, ht⟩ := hgt hn
          have hp := hpred header headerStore _ buff newHeader hhead hs hb hu
          refine ⟨newHeader, by rw [ht], hp, by omega⟩
        · intro hn
          refine ⟨by rw [h1 hn], by omega⟩

theorem forkChoice_false_not_below_final_witness :
    ∃ header, (sampleState 5).currentBlockHeader = some (HeaderHandler.metaBlock header) ∧
      sampleEnv.GetHighestFinalBlockNonce (sampleState 5).view < header.Nonce ∧
      (1 < header.Nonce →
        ∃ newHeader,
          (rollback sampleEnv (sampleBlock 5)
            ((sampleState 5).enter (Call.forkChoice false))).2.currentBlockHeader =
              some (HeaderHandler.metaBlock newHeader) ∧
          newHeader.Nonce + 1 = header.Nonce ∧
          sampleEnv.GetHighestFinalBlockNonce (sampleState 5).view ≤ newHeader.Nonce) ∧
      (header.Nonce = 1 →
        (rollback sampleEnv (sampleBlock 5)
          ((sampleState 5).enter (Call.forkChoice false))).2.currentBlockHeader = none ∧
        sampleEnv.GetHighestFinalBlockNonce (sampleState 5).view = 0) :=
  forkChoice_false_not_below_final sampleEnv 1 (sampleState 5)
    (rollback sampleEnv (sampleBlock 5) ((sampleState 5).enter (Call.forkChoice false))).2
    (by
      intro header headerStore v buff newHeader hh hs hb hu
      have h5 : header = sampleBlock 5 := by
        have := hh
        simp only [sampleState, Option.some.injEq, HeaderHandler.metaBlock.injEq] at this
        exact this.symm
      subst h5
      simp only [sampleEnv, Option.some.injEq] at hs
      subst hs
      simp only [sampleStorer, sampleBlock, Except.ok.injEq] at hb
      subst hb
      simp only [sampleEnv, sampleUnmarshal, Except.ok.injEq] at hu
      subst hu
      rfl)
    (by rfl)

/-! ## Rollback -/

/-- C3: for every header whose nonce is 0, `rollback(header)` returns
`ErrRollbackFromGenesis` and performs no mutation, whatever the stores hold:
the chain head, the head hash, the calls made to collaborators
(`SetCurrentBlockHeader`, `SetCurrentBlockHeaderHash`, `RecreateTrie`, the
cleanup, `RestoreBlockIntoPools`) and the lookups are unchanged; only the
entry into `rollback` is recorded. -/
theorem rollback_from_genesis (env : Env) (header : MetaBlock) (s : MetaBootstrap)
    (h : header.Nonce = 0) :
    rollback env header s =
      (some Err.ErrRollbackFromGenesis,
        { s with calls := s.calls ++ [Call.rollback header] }) := by
  unfold rollback
  simp only [h, if_true]
  rfl

theorem rollback_from_genesis_witness :
    (sampleBlock 0).Nonce = 0 ∧
    rollback sampleEnv (sampleBlock 0) (sampleState 0) =
      (some Err.ErrRollbackFromGenesis,
        { sampleState 0 with calls := (sampleState 0).calls ++ [Call.rollback (sampleBlock 0)] }) :=
  ⟨rfl, rollback_from_genesis sampleEnv (sampleBlock 0) (sampleState 0) rfl⟩

/-- C4: when `rollback(header)` returns nil: if `header.Nonce > 1` the new chain
head is the MetaBlock stored (and unmarshalled) in the meta-block storer under
`header.PrevHash`, the new head hash is `header.PrevHash` and the trie is
recreated at that predecessor's root hash; if `header.Nonce == 1` the new
chain head is nil, the new head hash is nil, the trie is recreated at the
genesis header's root hash and no storer is read. -/
theorem rollback_new_head (env : Env) (header : MetaBlock) (s t : MetaBootstrap)
    (h : rollback env header s = (none, t)) :
    (1 < header.Nonce →
      ∃ headerStore buff newHeader,
        env.GetStorer UnitType.MetaBlockUnit = some headerStore ∧
        headerStore.Get s.view header.PrevHash = .ok buff ∧
        env.Unmarshal buff = .ok newHeader ∧
        t.currentBlockHeader = some (HeaderHandler.metaBlock newHeader) ∧
        t.currentBlockHeaderHash = header.PrevHash ∧
        t.trace = s.trace ++
          [ Event.SetCurrentBlockHeader (some newHeader),
            Event.SetCurrentBlockHeaderHash header.PrevHash,
            Event.RecreateTrie newHeader.RootHash,
            Event.cleanCachesAndStorageOnRollback header,
            Event.RestoreBlockIntoPools header ] ∧
        t.reads = s.reads ++ [Read.StorerGet UnitType.MetaBlockUnit header.PrevHash]) ∧
    (header.Nonce = 1 →
      t.currentBlockHeader = none ∧
      t.currentBlockHeaderHash = none ∧
      t.trace = s.trace ++
        [ Event.SetCurrentBlockHeader none,
          Event.SetCurrentBlockHeaderHash none,
          Event.RecreateTrie s.genesisHeader.GetRootHash,
          Event.cleanCachesAndStorageOnRollback header,
          Event.RestoreBlockIntoPools header ] ∧
      t.reads = s.reads) := by
  obtain ⟨_, hgt, h1⟩ := rollback_success env header s t h
  constructor
  · intro hn
    obtain ⟨headerStore, buff, newHeader, hs, hb, hu, ht⟩ := hgt hn
    exact ⟨headerStore, buff, newHeader, hs, hb, hu, by rw [ht], by rw [ht], by rw [ht]; rfl,
      by rw [ht]⟩
  · intro hn
    have ht := h1 hn
    exact ⟨by rw [ht], by rw [ht], by rw [ht]; rfl, by rw [ht]⟩

theorem rollback_new_head_witness :
    (1 < (sampleBlock 5).Nonce →
      ∃ headerStore buff newHeader,
        sampleEnv.GetStorer UnitType.MetaBlockUnit = some headerStore ∧
        headerStore.Get (sampleState 5).view (sampleBlock 5).PrevHash = .ok buff ∧
        sampleEnv.Unmarshal buff = .ok newHeader ∧
        (rollback sampleEnv (sampleBlock 5) (sampleState 5)).2.currentBlockHeader =
          some (HeaderHandler.metaBlock newHeader) ∧
        (rollback sampleEnv (sampleBlock 5) (sampleState 5)).2.currentBlockHeaderHash =
          (sampleBlock 5).PrevHash ∧
        (rollback sampleEnv (sampleBlock 5) (sampleState 5)).2.trace =
          (sampleState 5).trace ++
            [ Event.SetCurrentBlockHeader (some newHeader),
              Event.SetCurrentBlockHeaderHash (sampleBlock 5).PrevHash,
              Event.RecreateTrie newHeader.RootHash,
              Event.cleanCachesAndStorageOnRollback (sampleBlock 5),
              Event.RestoreBlockIntoPools (sampleBlock 5) ] ∧
        (rollback sampleEnv (sampleBlock 5) (sampleState 5)).2.reads =
          (sampleState 5).reads ++
            [Read.StorerGet UnitType.MetaBlockUnit (sampleBlock 5).PrevHash]) ∧
    ((sampleBlock 5).Nonce = 1 →
      (rollback sampleEnv (sampleBlock 5) (sampleState 5)).2.currentBlockHeader = none ∧
      (rollback sampleEnv (sampleBlock 5) (sampleState 5)).2.currentBlockHeaderHash = none ∧
      (rollback sampleEnv (sampleBlock 5) (sampleState 5)).2.trace =
        (sampleState 5).trace ++
          [ Event.SetCurrentBlockHeader none,
            Event.SetCurrentBlockHeaderHash none,
            Event.RecreateTrie (sampleState 5).genesisHeader.GetRootHash,
            Event.cleanCachesAndStorageOnRollback (sampleBlock 5),
            Event.RestoreBlockIntoPools (sampleBlock 5) ] ∧
      (rollback sampleEnv (sampleBlock 5) (sampleState 5)).2.reads = (sampleState 5).reads) :=
  rollback_new_head sampleEnv (sampleBlock 5) (sampleState 5)
    (rollback sampleEnv (sampleBlock 5) (sampleState 5)).2 (by rfl)

theorem rollback_ignores_restore_error (env : Env) (f : View → MetaBlock → Option Err)
    (header : MetaBlock) (s : MetaBootstrap) :
    rollback { env with RestoreBlockIntoPools := f } header s = rollback env header s := rfl

theorem rollbackApply_effects (env : Env) (header : MetaBlock) (newHeader : Option MetaBlock)
    (newHeaderHash newRootHash : ByteSlice) (s : MetaBootstrap) :
    ∃ k : Nat,
      (rollbackApply env header newHeader newHeaderHash newRootHash s).2.trace =
        s.trace ++ (rollbackSteps header newHeader newHeaderHash newRootHash).take k ∧
      (rollbackApply env header newHeader newHeaderHash newRootHash s).2.reads = s.reads ∧
      (k = 1 ∨ k = 3 ∨ k = 5) ∧
      (env.SetCurrentBlockHeader s.view newHeader ≠ none ↔ k = 1) ∧
      (k = 1 → (rollbackApply env header newHeader newHeaderHash newRootHash s).1 =
        env.SetCurrentBlockHeader s.view newHeader) ∧
      (3 ≤ k →
        (env.RecreateTrie (viewAtRecreateTrie s newHeader newHeaderHash) newRootHash ≠ none ↔
          k = 3)) ∧
      (k = 3 → (rollbackApply env header newHeader newHeaderHash newRootHash s).1 =
        env.RecreateTrie (viewAtRecreateTrie s newHeader newHeaderHash) newRootHash) ∧
      ((rollbackApply env header newHeader newHeaderHash newRootHash s).1 = none ↔ k = 5) := by
  cases h1 : env.SetCurrentBlockHeader s.view newHeader with
  | some e =>
    rw [rollbackApply_setHeader_fails env header newHeader newHeaderHash newRootHash s e h1]
    exact ⟨1, by simp [rollbackSteps], rfl, by simp, by simp, by simp, by omega, by omega,
      by simp⟩
  | none =>
    cases h2 : env.RecreateTrie (viewAtRecreateTrie s newHeader newHeaderHash) newRootHash with
    | some e =>
      rw [rollbackApply_recreateTrie_fails env header newHeader newHeaderHash newRootHash s e
        h1 h2]
      exact ⟨3, rfl, rfl, by simp, by simp, by omega, by simp, by simp, by simp⟩
    | none =>
      rw [rollbackApply_succeeds env header newHeader newHeaderHash newRootHash s h1 h2]
      exact ⟨5, by simp [rollbackSteps], rfl, by simp, by simp, by omega, by simp, by omega,
        by simp⟩

theorem rollback_cases (env : Env) (header : MetaBlock) (s : MetaBootstrap) :
    ((rollback env header s).1 ≠ none ∧ (rollback env header s).2.trace = s.trace) ∨
    (∃ newHeader newHeaderHash newRootHash s1,
      s1.trace = s.trace ∧ s1.currentBlockHeader = s.currentBlockHeader ∧
      s1.currentBlockHeaderHash = s.currentBlockHeaderHash ∧
      rollback env header s = rollbackApply env header newHeader newHeaderHash newRootHash s1) := by
  unfold rollback
  simp only []
  split
  · exact Or.inl ⟨by simp, rfl⟩
  · split
    · exact Or.inl ⟨by simp, rfl⟩
    · split
      · exact Or.inl ⟨by simp, rfl⟩
      · split
        · split
          · rename_i hg
            have hst := congrArg Prod.snd hg
            rw [getPrevHeader_state] at hst
            simp only at hst
            exact Or.inl ⟨by simp, by rw [← hst]; rfl⟩
          · rename_i newHeader s1 hg
            have hst := congrArg Prod.snd hg
            rw [getPrevHeader_state] at hst
            simp only at hst
            exact Or.inr ⟨some newHeader, header.PrevHash, newHeader.RootHash, s1,
              by rw [← hst]; rfl, by rw [← hst]; rfl, by rw [← hst]; rfl, rfl⟩
        · exact Or.inr ⟨none, none, s.genesisHeader.GetRootHash, s.enter (Call.rollback header),
            rfl, rfl, rfl, rfl⟩

/-- C5: the calls `rollback(header)` makes to collaborators are always the first
k of [SetCurrentBlockHeader, SetCurrentBlockHeaderHash, RecreateTrie,
cleanCachesAndStorageOnRollback, RestoreBlockIntoPools], with k one of 0, 1, 3,
5.  With k = 0 rollback failed before any call.  Once the head update is
reached, it fails exactly when k = 1, and then rollback returns its error;
once the trie recreation is reached, it fails exactly when k = 3, and then
rollback returns its error.  The full sequence runs exactly when rollback
returns nil, and the answer of `RestoreBlockIntoPools` changes nothing in what
rollback returns or does. -/
theorem rollback_effects_in_order (env : Env) (header : MetaBlock) (s : MetaBootstrap) :
    ∃ (newHeader : Option MetaBlock) (newHeaderHash newRootHash : ByteSlice) (k : Nat),
      (rollback env header s).2.trace =
        s.trace ++ (rollbackSteps header newHeader newHeaderHash newRootHash).take k ∧
      (k = 0 ∨ k = 1 ∨ k = 3 ∨ k = 5) ∧
      (k = 0 → (rollback env header s).1 ≠ none) ∧
      (1 ≤ k →
        (env.SetCurrentBlockHeader
          ({ s with reads := (rollback env header s).2.reads }).view newHeader ≠ none ↔ k = 1)) ∧
      (k = 1 → (rollback env header s).1 =
        env.SetCurrentBlockHeader
          ({ s with reads := (rollback env header s).2.reads }).view newHeader) ∧
      (3 ≤ k →
        (env.RecreateTrie
          (viewAtRecreateTrie { s with reads := (rollback env header s).2.reads }
            newHeader newHeaderHash) newRootHash ≠ none ↔ k = 3)) ∧
      (k = 3 → (rollback env header s).1 =
        env.RecreateTrie
          (viewAtRecreateTrie { s with reads := (rollback env header s).2.reads }
            newHeader newHeaderHash) newRootHash) ∧
      ((rollback env header s).1 = none ↔ k = 5) ∧
      (∀ f, rollback { env with RestoreBlockIntoPools := f } header s =
        rollback env header s) := by
  rcases rollback_cases env header s with ⟨hne, htr⟩ | ⟨nh, nhh, nrh, s1, ht1, hh1, hhh1, heq⟩
  · refine ⟨none, none, none, 0, by simp [htr], by simp, fun _ => hne, by omega, by omega,
      by omega, by omega, ?_, fun f => rfl⟩
    constructor
    · intro h; exact absurd h hne
    · intro h; omega
  · obtain ⟨k, hk1, hk2, hk3, hk4, hk5, hk6, hk7, hk8⟩ :=
      rollbackApply_effects env header nh nhh nrh s1
    have hv1 : ({ s with reads := (rollback env header s).2.reads } : MetaBootstrap).view
        = s1.view := by
      rw [heq, hk2]
      simp only [MetaBootstrap.view, ht1, hh1, hhh1]
    have hv2 : viewAtRecreateTrie { s with reads := (rollback env header s).2.reads } nh nhh
        = viewAtRecreateTrie s1 nh nhh := by
      rw [heq, hk2]
      simp only [viewAtRecreateTrie, ht1]
    refine ⟨nh, nhh, nrh, k, ?_, ?_, ?_, ?_, ?_, ?_, ?_, ?_, fun f => rfl⟩
    · rw [heq, hk1, ht1]
    · rcases hk3 with h | h | h <;> simp [h]
    · intro h0; rcases hk3 with h | h | h <;> omega
    · intro _; rw [hv1]; exact hk4
    · intro h; rw [hv1, heq]; exact hk5 h
    · intro h; rw [hv2]; exact hk6 h
    · intro h; rw [hv2, heq]; exact hk7 h
    · rw [heq]; exact hk8

/-! ## Failure policy -/

theorem forkChoice_false_total (env : Env) (fuel : Nat) (s : MetaBootstrap) :
    ∃ r t, forkChoice env false (fuel + 1) s = some (r, t) ∧
      RollbackFrame (s.enter (Call.forkChoice false)) t := by
  have h := forkChoiceLoop_false env fuel (s.enter (Call.forkChoice false))
  unfold forkChoice
  rw [h]
  exact ⟨_, _, rfl, forkChoiceLoop_frame env false (fuel + 1) _ _ _ h⟩

theorem doJobOnSyncBlockFail_eq (env : Env) (fuel : Nat) (hdr : Option MetaBlock) (err : Err)
    (s : MetaBootstrap) (c : Nat)
    (hc : c = if err = Err.ErrTimeIsOut then (s.requestsWithTimeout + 1) % 2 ^ env.counterBits
              else s.requestsWithTimeout) :
    doJobOnSyncBlockFail env fuel hdr err s =
      if err ≠ Err.ErrTimeIsOut ∨
          (env.MaxRequestsWithTimeoutAllowed ≤ c ∧
            env.IsInProperRound (env.rounderIndex s.view) = true) then
        (forkChoice env false fuel
          (stateBeforeForkChoice env hdr err
            (decide (env.MaxRequestsWithTimeoutAllowed ≤ c) &&
              env.IsInProperRound (env.rounderIndex s.view)) s)).map Prod.snd
      else
        some { s with requestsWithTimeout := c
                      calls := s.calls ++ [Call.doJobOnSyncBlockFail hdr err] } := by
  unfold doJobOnSyncBlockFail stateBeforeForkChoice removalEvents
  subst hc
  have hv : ∀ n, ({ s.enter (Call.doJobOnSyncBlockFail hdr err) with
      requestsWithTimeout := n } : MetaBootstrap).view = s.view := fun _ => rfl
  by_cases he : err = Err.ErrTimeIsOut
  · subst he
    simp only [if_true, hv]
    by_cases hm : env.MaxRequestsWithTimeoutAllowed ≤
        (s.requestsWithTimeout + 1) % 2 ^ env.counterBits
    · cases hp : env.IsInProperRound (env.rounderIndex s.view) <;> cases hdr <;>
        simp [hm, hp, MetaBootstrap.enter, MetaBootstrap.view, MetaBootstrap.emit]
    · cases hp : env.IsInProperRound (env.rounderIndex s.view) <;> cases hdr <;>
        simp [hm, hp, MetaBootstrap.enter, MetaBootstrap.view, MetaBootstrap.emit]
  · simp only [he, if_false]
    have hv2 : (s.enter (Call.doJobOnSyncBlockFail hdr err)).view = s.view := rfl
    simp only [hv2]
    by_cases hm : env.MaxRequestsWithTimeoutAllowed ≤ s.requestsWithTimeout
    · cases hp : env.IsInProperRound (env.rounderIndex s.view) <;> cases hdr <;>
        simp [he, hm, hp, MetaBootstrap.enter, MetaBootstrap.view, MetaBootstrap.emit]
    · cases hp : env.IsInProperRound (env.rounderIndex s.view) <;> cases hdr <;>
        simp [he, hm, hp, MetaBootstrap.enter, MetaBootstrap.view, MetaBootstrap.emit]

/-- C6: `doJobOnSyncBlockFail(hdr, err)` rolls back if and only if `err` is not
`ErrTimeIsOut`, or the timeout counter after its increment (`c`) has reached
`MaxRequestsWithTimeoutAllowed` and the round is proper.  Rolling back means:
the counter is reset, `hdr` (when non-nil) is removed from the pools and then
from the fork detector, and `forkChoice(false)` is invoked on the state so
obtained.  When the condition is false nothing but the counter changes: no
call to a collaborator, no lookup, the same chain head. -/
theorem doJobOnSyncBlockFail_rolls_back_iff (env : Env) (fuel : Nat) (hdr : Option MetaBlock)
    (err : Err) (s : MetaBootstrap) (c : Nat)
    (hc : c = if err = Err.ErrTimeIsOut then (s.requestsWithTimeout + 1) % 2 ^ env.counterBits
              else s.requestsWithTimeout) :
    ∃ t cs,
      doJobOnSyncBlockFail env (fuel + 1) hdr err s = some t ∧
      t.calls = s.calls ++ Call.doJobOnSyncBlockFail hdr err :: cs ∧
      (Call.forkChoice false ∈ cs ↔
        (err ≠ Err.ErrTimeIsOut ∨
          (env.MaxRequestsWithTimeoutAllowed ≤ c ∧
            env.IsInProperRound (env.rounderIndex s.view) = true))) ∧
      ((err ≠ Err.ErrTimeIsOut ∨
          (env.MaxRequestsWithTimeoutAllowed ≤ c ∧
            env.IsInProperRound (env.rounderIndex s.view) = true)) →
        (∃ r, forkChoice env false (fuel + 1)
          (stateBeforeForkChoice env hdr err
            (decide (env.MaxRequestsWithTimeoutAllowed ≤ c) &&
              env.IsInProperRound (env.rounderIndex s.view)) s) = some (r, t)) ∧
        (∀ h, hdr = some h →
          ∃ es, t.trace = s.trace ++
            [Event.removeHeaderFromPools h,
             Event.RemoveHeaders h.Nonce (env.removeHeaderFromPools s.view h)] ++ es)) ∧
      (¬ (err ≠ Err.ErrTimeIsOut ∨
          (env.MaxRequestsWithTimeoutAllowed ≤ c ∧
            env.IsInProperRound (env.rounderIndex s.view) = true)) →
        t = { s with requestsWithTimeout := c
                     calls := s.calls ++ [Call.doJobOnSyncBlockFail hdr err] }) := by
  rw [doJobOnSyncBlockFail_eq env (fuel + 1) hdr err s c hc]
  by_cases hcond : err ≠ Err.ErrTimeIsOut ∨
      (env.MaxRequestsWithTimeoutAllowed ≤ c ∧
        env.IsInProperRound (env.rounderIndex s.view) = true)
  · rw [if_pos hcond]
    obtain ⟨r, t, hfc, hfr⟩ := forkChoice_false_total env fuel
      (stateBeforeForkChoice env hdr err
        (decide (env.MaxRequestsWithTimeoutAllowed ≤ c) &&
          env.IsInProperRound (env.rounderIndex s.view)) s)
    obtain ⟨cs, hcs, _⟩ := hfr.calls
    obtain ⟨es, hes, _⟩ := hfr.trace
    refine ⟨t, Call.forkChoice false :: cs, by rw [hfc]; rfl, ?_,
      ⟨fun _ => hcond, fun _ => List.mem_cons_self _ _⟩, ?_, ?_⟩
    · rw [hcs]
      simp [MetaBootstrap.enter, stateBeforeForkChoice]
    · intro _
      refine ⟨⟨r, hfc⟩, ?_⟩
      intro h hh
      subst hh
      refine ⟨(if (decide (env.MaxRequestsWithTimeoutAllowed ≤ c) &&
          env.IsInProperRound (env.rounderIndex s.view)) = true
          then [Event.ResetProbableHighestNonce] else []) ++ es, ?_⟩
      rw [hes]
      simp [MetaBootstrap.enter, stateBeforeForkChoice, removalEvents]
    · intro hn
      exact absurd hcond hn
  · rw [if_neg hcond]
    refine ⟨_, [], rfl, rfl, by simp [hcond], fun h => absurd h hcond, fun _ => rfl⟩

theorem doJobOnSyncBlockFail_rolls_back_iff_witness :
    ∃ t cs,
      doJobOnSyncBlockFail sampleEnv 1 (some (sampleBlock 6)) (Err.other 7) (sampleState 5) =
        some t ∧
      t.calls = (sampleState 5).calls ++
        Call.doJobOnSyncBlockFail (some (sampleBlock 6)) (Err.other 7) :: cs ∧
      (Call.forkChoice false ∈ cs ↔
        (Err.other 7 ≠ Err.ErrTimeIsOut ∨
          (sampleEnv.MaxRequestsWithTimeoutAllowed ≤ 0 ∧
            sampleEnv.IsInProperRound (sampleEnv.rounderIndex (sampleState 5).view) = true))) ∧
      ((Err.other 7 ≠ Err.ErrTimeIsOut ∨
          (sampleEnv.MaxRequestsWithTimeoutAllowed ≤ 0 ∧
            sampleEnv.IsInProperRound (sampleEnv.rounderIndex (sampleState 5).view) = true)) →
        (∃ r, forkChoice sampleEnv false 1
          (stateBeforeForkChoice sampleEnv (some (sampleBlock 6)) (Err.other 7)
            (decide (sampleEnv.MaxRequestsWithTimeoutAllowed ≤ 0) &&
              sampleEnv.IsInProperRound (sampleEnv.rounderIndex (sampleState 5).view))
            (sampleState 5)) = some (r, t)) ∧
        (∀ h, some (sampleBlock 6) = some h →
          ∃ es, t.trace = (sampleState 5).trace ++
            [Event.removeHeaderFromPools h,
             Event.RemoveHeaders h.Nonce
               (sampleEnv.removeHeaderFromPools (sampleState 5).view h)] ++ es)) ∧
      (¬ (Err.other 7 ≠ Err.ErrTimeIsOut ∨
          (sampleEnv.MaxRequestsWithTimeoutAllowed ≤ 0 ∧
            sampleEnv.IsInProperRound (sampleEnv.rounderIndex (sampleState 5).view) = true)) →
        t = { sampleState 5 with
              requestsWithTimeout := 0
              calls := (sampleState 5).calls ++
                [Call.doJobOnSyncBlockFail (some (sampleBlock 6)) (Err.other 7)] }) :=
  doJobOnSyncBlockFail_rolls_back_iff sampleEnv 0 (some (sampleBlock 6)) (Err.other 7)
    (sampleState 5) 0 (by decide)

theorem count_reset_of_rollbackSteps (es : List Event)
    (h : ∀ e ∈ es, e.isRollbackStep = true) :
    es.count Event.ResetProbableHighestNonce = 0 := by
  rw [List.count_eq_zero]
  intro hmem
  have := h _ hmem
  simp [Event.isRollbackStep] at this

/-- C7: inside `doJobOnSyncBlockFail`, `ResetProbableHighestNonce` is called
exactly once when the timeout counter after its increment (`c`) has reached
`MaxRequestsWithTimeoutAllowed` and the round is proper, and not at all
otherwise; in particular a rollback caused only by a non-timeout error never
resets the probable highest nonce. -/
theorem doJobOnSyncBlockFail_resets_probable_iff (env : Env) (fuel : Nat)
    (hdr : Option MetaBlock) (err : Err) (s : MetaBootstrap) (c : Nat)
    (hc : c = if err = Err.ErrTimeIsOut then (s.requestsWithTimeout + 1) % 2 ^ env.counterBits
              else s.requestsWithTimeout) :
    ∃ t es,
      doJobOnSyncBlockFail env (fuel + 1) hdr err s = some t ∧
      t.trace = s.trace ++ es ∧
      es.count Event.ResetProbableHighestNonce =
        (if env.MaxRequestsWithTimeoutAllowed ≤ c ∧
            env.IsInProperRound (env.rounderIndex s.view) = true then 1 else 0) := by
  rw [doJobOnSyncBlockFail_eq env (fuel + 1) hdr err s c hc]
  by_cases hforce : env.MaxRequestsWithTimeoutAllowed ≤ c ∧
      env.IsInProperRound (env.rounderIndex s.view) = true
  · have hb : (decide (env.MaxRequestsWithTimeoutAllowed ≤ c) &&
        env.IsInProperRound (env.rounderIndex s.view)) = true := by
      simp [hforce.1, hforce.2]
    rw [if_pos (Or.inr hforce), if_pos hforce, hb]
    obtain ⟨r, t, hfc, hfr⟩ := forkChoice_false_total env fuel
      (stateBeforeForkChoice env hdr err true s)
    obtain ⟨es, hes, hsteps⟩ := hfr.trace
    refine ⟨t, removalEvents env hdr s ++ [Event.ResetProbableHighestNonce] ++ es,
      by rw [hfc]; rfl, ?_, ?_⟩
    · rw [hes]
      simp only [MetaBootstrap.enter, stateBeforeForkChoice, if_true, List.append_assoc]
    · rw [List.count_append, List.count_append, count_reset_of_rollbackSteps es hsteps]
      cases hdr <;> simp [List.count_cons, removalEvents]
  · have hb : (decide (env.MaxRequestsWithTimeoutAllowed ≤ c) &&
        env.IsInProperRound (env.rounderIndex s.view)) = false := by
      rw [Bool.eq_false_iff]
      intro h
      simp only [Bool.and_eq_true, decide_eq_true_eq] at h
      exact hforce h
    rw [if_neg hforce, hb]
    by_cases he : err ≠ Err.ErrTimeIsOut
    · rw [if_pos (Or.inl he)]
      obtain ⟨r, t, hfc, hfr⟩ := forkChoice_false_total env fuel
        (stateBeforeForkChoice env hdr err false s)
      obtain ⟨es, hes, hsteps⟩ := hfr.trace
      refine ⟨t, removalEvents env hdr s ++ [] ++ es, by rw [hfc]; rfl, ?_, ?_⟩
      · rw [hes]
        simp [MetaBootstrap.enter, stateBeforeForkChoice]
      · rw [List.count_append, List.count_append, count_reset_of_rollbackSteps es hsteps]
        cases hdr <;> simp [List.count_cons, removalEvents]
    · rw [if_neg (fun h => h.elim he hforce)]
      exact ⟨_, [], rfl, by simp, by simp⟩

theorem doJobOnSyncBlockFail_resets_probable_iff_witness :
    ∃ t es,
      doJobOnSyncBlockFail sampleEnv 1 none Err.ErrTimeIsOut
        { sampleState 5 with requestsWithTimeout := 1 } = some t ∧
      t.trace = ({ sampleState 5 with requestsWithTimeout := 1 } : MetaBootstrap).trace ++ es ∧
      es.count Event.ResetProbableHighestNonce =
        (if sampleEnv.MaxRequestsWithTimeoutAllowed ≤ 2 ∧
            sampleEnv.IsInProperRound (sampleEnv.rounderIndex
              ({ sampleState 5 with requestsWithTimeout := 1 } : MetaBootstrap).view) = true
          then 1 else 0) :=
  doJobOnSyncBlockFail_resets_probable_iff sampleEnv 0 none Err.ErrTimeIsOut
    { sampleState 5 with requestsWithTimeout := 1 } 2 (by decide)

/-! ## The timeout counter across one synchronization attempt -/

theorem getHeaderWithNonceRequestingIfMissing_counter (env : Env) (nonce : Nat)
    (s : MetaBootstrap) :
    (getHeaderWithNonceRequestingIfMissing env nonce s).2.requestsWithTimeout =
        s.requestsWithTimeout ∧
    ∃ es, (getHeaderWithNonceRequestingIfMissing env nonce s).2.trace = s.trace ++ es ∧
      ∀ h, Event.CommitBlock h ∉ es := by
  unfold getHeaderWithNonceRequestingIfMissing
  simp only []
  split
  · exact ⟨rfl, [], by simp [MetaBootstrap.look], by simp⟩
  · split
    · exact ⟨rfl, _, by
        simp [MetaBootstrap.look, MetaBootstrap.emit, requestHeaderWithNonce,
          setRequestedHeaderNonce]; rfl, by simp⟩
    · split
      · exact ⟨rfl, _, by
          simp [MetaBootstrap.look, MetaBootstrap.emit, requestHeaderWithNonce,
            setRequestedHeaderNonce]; rfl, by simp⟩
      · exact ⟨rfl, _, by
          simp [MetaBootstrap.look, MetaBootstrap.emit, requestHeaderWithNonce,
            setRequestedHeaderNonce]; rfl, by simp⟩

theorem getHeaderWithHashRequestingIfMissing_counter (env : Env) (hash : ByteSlice)
    (s : MetaBootstrap) :
    (getHeaderWithHashRequestingIfMissing env hash s).2.requestsWithTimeout =
        s.requestsWithTimeout ∧
    ∃ es, (getHeaderWithHashRequestingIfMissing env hash s).2.trace = s.trace ++ es ∧
      ∀ h, Event.CommitBlock h ∉ es := by
  unfold getHeaderWithHashRequestingIfMissing
  simp only []
  split
  · exact ⟨rfl, [], by simp [MetaBootstrap.look], by simp⟩
  · split
    · exact ⟨rfl, _, by
        simp [MetaBootstrap.look, MetaBootstrap.emit, requestHeaderWithHash,
          setRequestedHeaderHash]; rfl, by simp⟩
    · split
      · exact ⟨rfl, _, by
          simp [MetaBootstrap.look, MetaBootstrap.emit, requestHeaderWithHash,
            setRequestedHeaderHash]; rfl, by simp⟩
      · exact ⟨rfl, _, by
          simp [MetaBootstrap.look, MetaBootstrap.emit, requestHeaderWithHash,
            setRequestedHeaderHash]; rfl, by simp⟩

theorem syncBlockAttempt_counter (env : Env) (nonce : Nat) (s t : MetaBootstrap)
    (hdr : Option MetaBlock) (err : Option Err)
    (h : syncBlockAttempt env nonce s = (hdr, err, t)) :
    ∃ es, t.trace = s.trace ++ es ∧
      (err = none → t.requestsWithTimeout = 0 ∧ ∃ b, Event.CommitBlock b ∈ es) ∧
      (err ≠ none → t.requestsWithTimeout = s.requestsWithTimeout) := by
  have hfetch : ∀ p : Except Err MetaBlock × MetaBootstrap,
      p = (if s.isForkDetected = true then getHeaderWithHashRequestingIfMissing env s.forkHash s
        else getHeaderWithNonceRequestingIfMissing env nonce s) →
      p.2.requestsWithTimeout = s.requestsWithTimeout ∧ ∃ es, p.2.trace = s.trace ++ es := by
    intro p hp
    subst hp
    split
    · obtain ⟨h1, es, h2, _⟩ := getHeaderWithHashRequestingIfMissing_counter env s.forkHash s
      exact ⟨h1, es, h2⟩
    · obtain ⟨h1, es, h2, _⟩ := getHeaderWithNonceRequestingIfMissing_counter env nonce s
      exact ⟨h1, es, h2⟩
  unfold syncBlockAttempt at h
  simp only [] at h
  split at h
  · rename_i e s1 hr
    obtain ⟨hc, es, htr⟩ := hfetch _ hr.symm
    have hc : s1.requestsWithTimeout = s.requestsWithTimeout := hc
    have htr : s1.trace = s.trace ++ es := htr
    simp only [Prod.mk.injEq] at h
    obtain ⟨_, he, ht⟩ := h
    subst ht he
    exact ⟨es ++ [Event.ResetProbableHighestNonceIfNeeded],
      by simp [MetaBootstrap.emit, htr], by simp, fun _ => hc⟩
  · rename_i b s1 hr
    obtain ⟨hc, es, htr⟩ := hfetch _ hr.symm
    have hc : s1.requestsWithTimeout = s.requestsWithTimeout := hc
    have htr : s1.trace = s.trace ++ es := htr
    split at h
    · simp only [Prod.mk.injEq] at h
      obtain ⟨_, he, ht⟩ := h
      subst ht he
      exact ⟨es ++ [Event.goRequestHeadersFromNonceIfMissing ((b.Nonce + 1) % 2 ^ 64),
        Event.ProcessBlock b], by simp [MetaBootstrap.emit, htr], by simp, fun _ => hc⟩
    · split at h
      · simp only [Prod.mk.injEq] at h
        obtain ⟨_, he, ht⟩ := h
        subst ht he
        exact ⟨es ++ [Event.goRequestHeadersFromNonceIfMissing ((b.Nonce + 1) % 2 ^ 64),
          Event.ProcessBlock b, Event.CommitBlock b], by simp [MetaBootstrap.emit, htr],
          by simp, fun _ => hc⟩
      · simp only [Prod.mk.injEq] at h
        obtain ⟨_, he, ht⟩ := h
        subst ht he
        exact ⟨es ++ [Event.goRequestHeadersFromNonceIfMissing ((b.Nonce + 1) % 2 ^ 64),
          Event.ProcessBlock b, Event.CommitBlock b], by simp [MetaBootstrap.emit, htr],
          fun _ => ⟨rfl, b, by simp⟩, fun hne => absurd rfl hne⟩

theorem forkChoice_frame (env : Env) (rev : Bool) (fuel : Nat) (s t : MetaBootstrap)
    (r : Option Err) (h : forkChoice env rev fuel s = some (r, t)) :
    RollbackFrame (s.enter (Call.forkChoice rev)) t :=
  forkChoiceLoop_frame env rev fuel _ _ _ h

theorem commitBlock_not_rollbackStep (es : List Event)
    (h : ∀ e ∈ es, e.isRollbackStep = true) (b : MetaBlock) : Event.CommitBlock b ∉ es := by
  intro hmem
  have := h _ hmem
  simp [Event.isRollbackStep] at this

theorem syncBlockFork_counter (env : Env) (fuel : Nat) (s t : MetaBootstrap) (b : Bool)
    (h : syncBlockFork env fuel s = some (b, t)) :
    t.requestsWithTimeout = s.requestsWithTimeout ∧
    ∃ es, t.trace = s.trace ++ es ∧ ∀ hdr, Event.CommitBlock hdr ∉ es := by
  unfold syncBlockFork at h
  split at h
  · simp only [] at h
    split at h
    · simp at h
    · rename_i e s2 hfc
      have hfr := forkChoice_frame env _ fuel _ _ _ hfc
      obtain ⟨es, hes, hsteps⟩ := hfr.trace
      have hcnt := hfr.requestsWithTimeout
      split at h
      · simp only [Option.some.injEq, Prod.mk.injEq] at h
        rw [← h.2]
        refine ⟨hcnt, [Event.IncrementNumTimesInForkChoice] ++ es ++
          [Event.ResetProbableHighestNonce, Event.ResetForcedFork], ?_, ?_⟩
        · simp [MetaBootstrap.emit, hes, MetaBootstrap.enter]
        · intro hdr hmem
          simp only [List.mem_append, List.mem_singleton, List.mem_cons, List.mem_nil_iff,
            or_false] at hmem
          rcases hmem with (hm | hm) | hm | hm
          · cases hm
          · exact commitBlock_not_rollbackStep es hsteps hdr hm
          · cases hm
          · cases hm
      · simp only [Option.some.injEq, Prod.mk.injEq] at h
        rw [← h.2]
        refine ⟨hcnt, [Event.IncrementNumTimesInForkChoice] ++ es, ?_, ?_⟩
        · simp [MetaBootstrap.emit, hes, MetaBootstrap.enter]
        · intro hdr hmem
          simp only [List.mem_append, List.mem_singleton] at hmem
          rcases hmem with hm | hm
          · cases hm
          · exact commitBlock_not_rollbackStep es hsteps hdr hm
  · simp only [Option.some.injEq, Prod.mk.injEq] at h
    rw [← h.2]
    exact ⟨rfl, [], by simp, by simp⟩

theorem doJobOnSyncBlockFail_counter (env : Env) (fuel : Nat) (hdr : Option MetaBlock)
    (err : Err) (s t : MetaBootstrap) (h : doJobOnSyncBlockFail env fuel hdr err s = some t) :
    (err ≠ Err.ErrTimeIsOut → t.requestsWithTimeout = 0) ∧
    (err = Err.ErrTimeIsOut →
      t.requestsWithTimeout = 0 ∨
      t.requestsWithTimeout = (s.requestsWithTimeout + 1) % 2 ^ env.counterBits) := by
  obtain ⟨c, hc⟩ : ∃ c, c = if err = Err.ErrTimeIsOut then
      (s.requestsWithTimeout + 1) % 2 ^ env.counterBits else s.requestsWithTimeout := ⟨_, rfl⟩
  rw [doJobOnSyncBlockFail_eq env fuel hdr err s c hc] at h
  by_cases hcond : err ≠ Err.ErrTimeIsOut ∨
      (env.MaxRequestsWithTimeoutAllowed ≤ c ∧
        env.IsInProperRound (env.rounderIndex s.view) = true)
  · rw [if_pos hcond] at h
    rcases hfc : forkChoice env false fuel (stateBeforeForkChoice env hdr err
        (decide (env.MaxRequestsWithTimeoutAllowed ≤ c) &&
          env.IsInProperRound (env.rounderIndex s.view)) s) with _ | ⟨r, t2⟩
    · rw [hfc] at h
      simp at h
    · rw [hfc] at h
      simp only [Option.map_some', Option.some.injEq] at h
      have hfr := forkChoice_frame env _ fuel _ _ _ hfc
      have hcnt := hfr.requestsWithTimeout
      rw [h] at hcnt
      exact ⟨fun _ => hcnt, fun _ => Or.inl hcnt⟩
  · rw [if_neg hcond] at h
    simp only [Option.some.injEq] at h
    rw [← h]
    refine ⟨fun hne => absurd (Or.inl hne) hcond, fun he => Or.inr ?_⟩
    rw [hc, if_pos he]

/-- C8, as stated, fails: an attempt that handles a forced fork returns nil and
leaves the timeout counter at its previous value 1, not at 0. -/
theorem SyncBlock_nil_keeps_counter :
    (SyncBlock sampleEnv 1 (forcedForkState 6 1)).map
        (fun r => (r.1, r.2.requestsWithTimeout)) = some (none, 1) ∧
    (forcedForkState 6 1).requestsWithTimeout = 1 := by
  refine ⟨by rfl, by rfl⟩

/-- C8, amended: for every SyncBlock attempt (the state after the `ShouldSync`
guard is `s1`): the timeout counter increases only when the attempt fails with
`ErrTimeIsOut`, and then by exactly 1; after any attempt that fails with an
error other than `ErrTimeIsOut` the counter is 0; after an attempt that
returns nil the counter is 0 if the attempt committed a block and is
unchanged if it did not (no sync needed, or a forced fork was handled). -/
theorem SyncBlock_timeout_counter (env : Env) (fuel : Nat) (s s1 t : MetaBootstrap) (b : Bool)
    (r : Option Err)
    (hs : env.ShouldSync s = (b, s1))
    (h : SyncBlock env fuel s = some (r, t)) :
    (s1.requestsWithTimeout < t.requestsWithTimeout →
      r = some Err.ErrTimeIsOut ∧ t.requestsWithTimeout = s1.requestsWithTimeout + 1) ∧
    (∀ e, r = some e → e ≠ Err.ErrTimeIsOut → t.requestsWithTimeout = 0) ∧
    (r = none →
      ∃ es, t.trace = s1.trace ++ es ∧
        ((∃ hdr, Event.CommitBlock hdr ∈ es) → t.requestsWithTimeout = 0) ∧
        ((∀ hdr, Event.CommitBlock hdr ∉ es) →
          t.requestsWithTimeout = s1.requestsWithTimeout)) := by
  unfold SyncBlock at h
  rw [hs] at h
  cases b with
  | false =>
    simp only [Option.some.injEq, Prod.mk.injEq] at h
    obtain ⟨hr, ht⟩ := h
    subst hr ht
    refine ⟨fun hlt => absurd hlt (Nat.lt_irrefl _), fun e he => by simp at he, fun _ => ?_⟩
    exact ⟨[], by simp, fun ⟨_, hm⟩ => by simp at hm, fun _ => rfl⟩
  | true =>
    simp only [] at h
    split at h
    · simp at h
    · rename_i s2 hfork
      obtain ⟨hc2, es2, htr2, hno2⟩ := syncBlockFork_counter env fuel s1 s2 true hfork
      simp only [Option.some.injEq, Prod.mk.injEq] at h
      obtain ⟨hr, ht⟩ := h
      subst hr ht
      refine ⟨fun hlt => by omega, fun e he => by simp at he, fun _ => ?_⟩
      exact ⟨es2, htr2, fun ⟨hdr, hm⟩ => absurd hm (hno2 hdr), fun _ => hc2⟩
    · rename_i s2 hfork
      obtain ⟨hc2, es2, htr2, hno2⟩ := syncBlockFork_counter env fuel s1 s2 false hfork
      split at h
      · rename_i hdr s3 hatt
        obtain ⟨es3, htr3, hok3, _⟩ := syncBlockAttempt_counter env _ _ _ _ _ hatt
        obtain ⟨hc3, bk, hbk⟩ := hok3 rfl
        simp only [Option.some.injEq, Prod.mk.injEq] at h
        obtain ⟨hr, ht⟩ := h
        subst hr ht
        refine ⟨fun hlt => by omega, fun e he => by simp at he, fun _ => ?_⟩
        refine ⟨es2 ++ es3, ?_, fun _ => hc3, fun hall => ?_⟩
        · rw [htr3]
          simp [setRequestedHeaderHash, setRequestedHeaderNonce, htr2]
        · exact absurd (List.mem_append_right es2 hbk) (hall bk)
      · rename_i hdr err s3 hatt
        obtain ⟨es3, htr3, _, herr3⟩ := syncBlockAttempt_counter env _ _ _ _ _ hatt
        have hc3 : s3.requestsWithTimeout = s1.requestsWithTimeout := by
          rw [herr3 (by simp)]
          simpa [setRequestedHeaderHash, setRequestedHeaderNonce] using hc2
        split at h
        · simp at h
        · rename_i s4 hjob
          obtain ⟨hj1, hj2⟩ := doJobOnSyncBlockFail_counter env fuel hdr err s3 s4 hjob
          simp only [Option.some.injEq, Prod.mk.injEq] at h
          obtain ⟨hr, ht⟩ := h
          subst hr ht
          refine ⟨fun hlt => ?_, fun e he hne => ?_, fun hn => by simp at hn⟩
          · by_cases he : err = Err.ErrTimeIsOut
            · rcases hj2 he with h0 | h1
              · omega
              · have hle := Nat.mod_le (s3.requestsWithTimeout + 1) (2 ^ env.counterBits)
                exact ⟨by rw [he], by omega⟩
            · have := hj1 he
              omega
          · simp only [Option.some.injEq] at he
            subst he
            exact hj1 hne

theorem SyncBlock_timeout_counter_witness :
    ((sampleState 5).requestsWithTimeout < sampleTimedOut.requestsWithTimeout →
      some Err.ErrTimeIsOut = some Err.ErrTimeIsOut ∧
      sampleTimedOut.requestsWithTimeout = (sampleState 5).requestsWithTimeout + 1) ∧
    (∀ e, some Err.ErrTimeIsOut = some e → e ≠ Err.ErrTimeIsOut →
      sampleTimedOut.requestsWithTimeout = 0) ∧
    (some Err.ErrTimeIsOut = none →
      ∃ es, sampleTimedOut.trace = (sampleState 5).trace ++ es ∧
        ((∃ hdr, Event.CommitBlock hdr ∈ es) → sampleTimedOut.requestsWithTimeout = 0) ∧
        ((∀ hdr, Event.CommitBlock hdr ∉ es) →
          sampleTimedOut.requestsWithTimeout = (sampleState 5).requestsWithTimeout)) :=
  SyncBlock_timeout_counter sampleEnv 1 (sampleState 5) (sampleState 5) sampleTimedOut true
    (some Err.ErrTimeIsOut) (by rfl) (by rfl)

/-- C9, as stated, fails: with two timeouts allowed, every round proper and a
counter of 0, the first timeout failure does not roll back, the second one
already does (one `forkChoice(false)`, one `ResetProbableHighestNonce`, counter
back to 0), and the third one does not roll back. -/
theorem second_timeout_rolls_back :
    sampleEnv.MaxRequestsWithTimeoutAllowed = 2 ∧
    (sampleTimeouts 0).map (fun t => t.requestsWithTimeout) = some 0 ∧
    (sampleTimeouts 1).map (fun t => (t.requestsWithTimeout,
        t.calls.count (Call.forkChoice false),
        t.trace.count Event.ResetProbableHighestNonce)) = some (1, 0, 0) ∧
    (sampleTimeouts 2).map (fun t => (t.requestsWithTimeout,
        t.calls.count (Call.forkChoice false),
        t.trace.count Event.ResetProbableHighestNonce)) = some (0, 1, 1) ∧
    (sampleTimeouts 3).map (fun t => (t.requestsWithTimeout,
        t.calls.count (Call.forkChoice false),
        t.trace.count Event.ResetProbableHighestNonce)) = some (1, 1, 1) := by
  refine ⟨by rfl, by rfl, by decide, by decide, by decide⟩

/-- C9, amended: starting from a timeout counter of 0, with
`MaxRequestsWithTimeoutAllowed = 2` and every round proper, consecutive timeout
failures handled by `doJobOnSyncBlockFail` trigger the rollback with
`ResetProbableHighestNonce` on the second failure: the first failure does not
roll back (only the counter becomes 1), the second one invokes
`forkChoice(false)`, resets the probable highest nonce once and puts the
counter back to 0, so that a third failure again only counts. -/
theorem timeouts_roll_back_on_second (env : Env) (fuel : Nat) (hdr1 hdr2 hdr3 : Option MetaBlock)
    (s : MetaBootstrap)
    (hmax : env.MaxRequestsWithTimeoutAllowed = 2)
    (hproper : ∀ i, env.IsInProperRound i = true)
    (hbits : 2 ≤ env.counterBits)
    (h0 : s.requestsWithTimeout = 0) :
    ∃ t1 t2 t3 cs es,
      doJobOnSyncBlockFail env (fuel + 1) hdr1 Err.ErrTimeIsOut s = some t1 ∧
      t1 = { s with requestsWithTimeout := 1
                    calls := s.calls ++ [Call.doJobOnSyncBlockFail hdr1 Err.ErrTimeIsOut] } ∧
      doJobOnSyncBlockFail env (fuel + 1) hdr2 Err.ErrTimeIsOut t1 = some t2 ∧
      t2.requestsWithTimeout = 0 ∧
      t2.calls = t1.calls ++
        Call.doJobOnSyncBlockFail hdr2 Err.ErrTimeIsOut :: Call.forkChoice false :: cs ∧
      (∀ c ∈ cs, c.isRollback = true) ∧
      t2.trace = t1.trace ++ es ∧
      es.count Event.ResetProbableHighestNonce = 1 ∧
      doJobOnSyncBlockFail env (fuel + 1) hdr3 Err.ErrTimeIsOut t2 = some t3 ∧
      t3 = { t2 with requestsWithTimeout := 1
                     calls := t2.calls ++ [Call.doJobOnSyncBlockFail hdr3 Err.ErrTimeIsOut] } := by
  have hpow : 4 ≤ 2 ^ env.counterBits :=
    calc 4 = 2 ^ 2 := by norm_num
      _ ≤ 2 ^ env.counterBits := Nat.pow_le_pow_right (by norm_num) hbits
  have hone : ∀ u : MetaBootstrap, u.requestsWithTimeout = 0 → ∀ hdr,
      doJobOnSyncBlockFail env (fuel + 1) hdr Err.ErrTimeIsOut u =
        some { u with requestsWithTimeout := 1
                      calls := u.calls ++ [Call.doJobOnSyncBlockFail hdr Err.ErrTimeIsOut] } := by
    intro u hu hdr
    have hc : (1 : Nat) = if Err.ErrTimeIsOut = Err.ErrTimeIsOut then
        (u.requestsWithTimeout + 1) % 2 ^ env.counterBits else u.requestsWithTimeout := by
      rw [if_pos rfl, hu, Nat.mod_eq_of_lt (by omega)]
    rw [doJobOnSyncBlockFail_eq env (fuel + 1) hdr Err.ErrTimeIsOut u 1 hc]
    rw [if_neg (by rw [hmax]; simp)]
  have hc2 : (2 : Nat) = if Err.ErrTimeIsOut = Err.ErrTimeIsOut then
      (({ s with requestsWithTimeout := 1
                 calls := s.calls ++ [Call.doJobOnSyncBlockFail hdr1 Err.ErrTimeIsOut] }
          : MetaBootstrap).requestsWithTimeout + 1) % 2 ^ env.counterBits
      else ({ s with requestsWithTimeout := 1
                     calls := s.calls ++ [Call.doJobOnSyncBlockFail hdr1 Err.ErrTimeIsOut] }
          : MetaBootstrap).requestsWithTimeout := by
    rw [if_pos rfl]
    simp only []
    rw [Nat.mod_eq_of_lt (by omega)]
  have hstep2 := doJobOnSyncBlockFail_eq env (fuel + 1) hdr2 Err.ErrTimeIsOut
    { s with requestsWithTimeout := 1
             calls := s.calls ++ [Call.doJobOnSyncBlockFail hdr1 Err.ErrTimeIsOut] } 2 hc2
  rw [if_pos (Or.inr ⟨by rw [hmax], hproper _⟩)] at hstep2
  have hb : (decide (env.MaxRequestsWithTimeoutAllowed ≤ 2) &&
      env.IsInProperRound (env.rounderIndex
        ({ s with requestsWithTimeout := 1
                  calls := s.calls ++ [Call.doJobOnSyncBlockFail hdr1 Err.ErrTimeIsOut] }
          : MetaBootstrap).view)) = true := by
    simp [hmax, hproper]
  rw [hb] at hstep2
  obtain ⟨r, t2, hfc, hfr⟩ := forkChoice_false_total env fuel
    (stateBeforeForkChoice env hdr2 Err.ErrTimeIsOut true
      { s with requestsWithTimeout := 1
               calls := s.calls ++ [Call.doJobOnSyncBlockFail hdr1 Err.ErrTimeIsOut] })
  rw [hfc] at hstep2
  obtain ⟨cs, hcs, hroll⟩ := hfr.calls
  obtain ⟨es, hes, hsteps⟩ := hfr.trace
  have hcnt : t2.requestsWithTimeout = 0 := hfr.requestsWithTimeout
  refine ⟨_, t2, _, cs,
    removalEvents env hdr2 { s with requestsWithTimeout := 1
                                    calls := s.calls ++
                                      [Call.doJobOnSyncBlockFail hdr1 Err.ErrTimeIsOut] } ++
      [Event.ResetProbableHighestNonce] ++ es,
    hone s h0 hdr1, rfl, hstep2, hcnt, ?_, hroll, ?_, ?_, hone t2 hcnt hdr3, rfl⟩
  · rw [hcs]
    simp [MetaBootstrap.enter, stateBeforeForkChoice]
  · rw [hes]
    simp [MetaBootstrap.enter, stateBeforeForkChoice]
  · rw [List.count_append, List.count_append, count_reset_of_rollbackSteps es hsteps]
    cases hdr2 <;> simp [List.count_cons, removalEvents]

theorem timeouts_roll_back_on_second_witness :
    ∃ t1 t2 t3 cs es,
      doJobOnSyncBlockFail sampleEnv 1 none Err.ErrTimeIsOut (sampleState 5) = some t1 ∧
      t1 = { sampleState 5 with
             requestsWithTimeout := 1
             calls := (sampleState 5).calls ++
               [Call.doJobOnSyncBlockFail none Err.ErrTimeIsOut] } ∧
      doJobOnSyncBlockFail sampleEnv 1 none Err.ErrTimeIsOut t1 = some t2 ∧
      t2.requestsWithTimeout = 0 ∧
      t2.calls = t1.calls ++
        Call.doJobOnSyncBlockFail none Err.ErrTimeIsOut :: Call.forkChoice false :: cs ∧
      (∀ c ∈ cs, c.isRollback = true) ∧
      t2.trace = t1.trace ++ es ∧
      es.count Event.ResetProbableHighestNonce = 1 ∧
      doJobOnSyncBlockFail sampleEnv 1 none Err.ErrTimeIsOut t2 = some t3 ∧
      t3 = { t2 with requestsWithTimeout := 1
                     calls := t2.calls ++ [Call.doJobOnSyncBlockFail none Err.ErrTimeIsOut] } :=
  timeouts_roll_back_on_second sampleEnv 0 none none none (sampleState 5) rfl (fun _ => rfl)
    (by decide) rfl

/-! ## Forced fork -/

/-- C10: when `ShouldSync()` is true (leaving the state `s1`) and a forced fork
is pending (`isForkDetected`, `forkNonce == math.MaxUint64`, `forkHash == nil`),
`SyncBlock` invokes `forkChoice(false)`, then calls `ResetProbableHighestNonce`
and `ResetForcedFork`, and returns nil whatever `forkChoice` returned.  The
calls to collaborators are the metric increment, rollback steps and the two
resets: no network request, no `ProcessBlock`, no `CommitBlock`.  The only
lookups are storer reads of the rollback: no header lookup in the pools.  The
failure policy is not entered, and the requested-nonce marker, the
requested-hash marker and the timeout counter are those of `s1`. -/
theorem SyncBlock_forced_fork (env : Env) (fuel : Nat) (s s1 : MetaBootstrap)
    (hs : env.ShouldSync s = (true, s1))
    (hf : s1.isForkDetected = true)
    (hn : s1.forkNonce = MaxUint64)
    (hh : s1.forkHash = none) :
    ∃ r t2 t es rs cs,
      forkChoice env false (fuel + 1) (s1.emit Event.IncrementNumTimesInForkChoice) =
        some (r, t2) ∧
      t = (t2.emit Event.ResetProbableHighestNonce).emit Event.ResetForcedFork ∧
      SyncBlock env (fuel + 1) s = some (none, t) ∧
      t.trace = s1.trace ++ [Event.IncrementNumTimesInForkChoice] ++ es ++
        [Event.ResetProbableHighestNonce, Event.ResetForcedFork] ∧
      (∀ e ∈ es, e.isRollbackStep = true) ∧
      t.reads = s1.reads ++ rs ∧ (∀ x ∈ rs, x.isStorerGet = true) ∧
      t.calls = s1.calls ++ Call.forkChoice false :: cs ∧ (∀ c ∈ cs, c.isRollback = true) ∧
      t.headerNonce = s1.headerNonce ∧
      t.headerhash = s1.headerhash ∧
      t.requestsWithTimeout = s1.requestsWithTimeout := by
  obtain ⟨r, t2, hfc, hfr⟩ := forkChoice_false_total env fuel
    (s1.emit Event.IncrementNumTimesInForkChoice)
  obtain ⟨es, hes, hsteps⟩ := hfr.trace
  obtain ⟨rs, hrs, hreads⟩ := hfr.reads
  obtain ⟨cs, hcs, hroll⟩ := hfr.calls
  refine ⟨r, t2, _, es, rs, cs, hfc, rfl, ?_, ?_, hsteps, ?_, hreads, ?_, hroll,
    hfr.headerNonce, hfr.headerhash, hfr.requestsWithTimeout⟩
  · unfold SyncBlock
    rw [hs]
    simp only []
    unfold syncBlockFork
    simp only [hf, hn, hh, if_true, decide_True, Bool.and_self, Bool.not_true, hfc]
  · simp [MetaBootstrap.emit, hes, MetaBootstrap.enter]
  · simp [MetaBootstrap.emit, hrs, MetaBootstrap.enter]
  · simp [MetaBootstrap.emit, hcs, MetaBootstrap.enter]

theorem SyncBlock_forced_fork_witness :
    ∃ r t2 t es rs cs,
      forkChoice sampleEnv false 1
        ((forcedForkState 6 1).emit Event.IncrementNumTimesInForkChoice) = some (r, t2) ∧
      t = (t2.emit Event.ResetProbableHighestNonce).emit Event.ResetForcedFork ∧
      SyncBlock sampleEnv 1 (forcedForkState 6 1) = some (none, t) ∧
      t.trace = (forcedForkState 6 1).trace ++ [Event.IncrementNumTimesInForkChoice] ++ es ++
        [Event.ResetProbableHighestNonce, Event.ResetForcedFork] ∧
      (∀ e ∈ es, e.isRollbackStep = true) ∧
      t.reads = (forcedForkState 6 1).reads ++ rs ∧ (∀ x ∈ rs, x.isStorerGet = true) ∧
      t.calls = (forcedForkState 6 1).calls ++ Call.forkChoice false :: cs ∧
      (∀ c ∈ cs, c.isRollback = true) ∧
      t.headerNonce = (forcedForkState 6 1).headerNonce ∧
      t.headerhash = (forcedForkState 6 1).headerhash ∧
      t.requestsWithTimeout = (forcedForkState 6 1).requestsWithTimeout :=
  SyncBlock_forced_fork sampleEnv 0 (forcedForkState 6 1) (forcedForkState 6 1) rfl rfl rfl rfl

/-! ## Notarization tracker: the per-shard fill -/

theorem NonceMap.get_set_self (m : NonceMap) (k v : Nat) : (m.set k v).get k = v := by
  simp [NonceMap.get, NonceMap.set]

theorem NonceMap.set_other (m : NonceMap) (k v j : Nat) (h : j ≠ k) : m.set k v j = m j := by
  simp [NonceMap.set, h]

theorem NonceMap.set_self (m : NonceMap) (k v : Nat) : m.set k v k = some v := by
  simp [NonceMap.set]

theorem foldl_entry (f : notarizedInfo → Nat → notarizedInfo)
    (hother : ∀ ni i j, j ≠ i → (f ni i).entry j = ni.entry j)
    (hcongr : ∀ ni ni1 i, ni.entry i = ni1.entry i → (f ni i).entry i = (f ni1 i).entry i) :
    ∀ l : List Nat, l.Nodup → ∀ ni j,
      (j ∈ l → (l.foldl f ni).entry j = (f ni j).entry j) ∧
      (j ∉ l → (l.foldl f ni).entry j = ni.entry j) := by
  intro l
  induction l with
  | nil => intro _ ni j; simp
  | cons i rest ih =>
    intro hnd ni j
    rw [List.nodup_cons] at hnd
    obtain ⟨hi, hrest⟩ := hnd
    simp only [List.foldl_cons]
    have ih1 := ih hrest (f ni i) j
    constructor
    · intro hj
      rcases List.mem_cons.mp hj with h | h
      · subst h
        exact ih1.2 hi
      · have hne : j ≠ i := fun h1 => hi (h1 ▸ h)
        rw [ih1.1 h]
        exact hcongr _ _ _ (hother ni i j hne)
    · intro hj
      have hne : j ≠ i := fun h1 => hj (h1 ▸ List.mem_cons_self _ _)
      have hnr : j ∉ rest := fun h1 => hj (List.mem_cons_of_mem _ h1)
      rw [ih1.2 hnr]
      exact hother ni i j hne

theorem foldl_startNonce (f : notarizedInfo → Nat → notarizedInfo)
    (hstart : ∀ ni i, (f ni i).startNonce = ni.startNonce) :
    ∀ (l : List Nat) ni, (l.foldl f ni).startNonce = ni.startNonce := by
  intro l
  induction l with
  | nil => intro ni; rfl
  | cons i rest ih => intro ni; simp only [List.foldl_cons]; rw [ih, hstart]

theorem fillShard_other (nn : NonceMap) (nonce : Nat) (ni : notarizedInfo) (i j : Nat)
    (h : j ≠ i) : (fillShard nn nonce ni i).entry j = ni.entry j := by
  unfold fillShard
  split
  · simp [notarizedInfo.entry, NonceMap.set, h]
  · split
    · simp [notarizedInfo.entry, NonceMap.set, h]
    · rfl

theorem fillShard_congr (nn : NonceMap) (nonce : Nat) (ni ni1 : notarizedInfo) (i : Nat)
    (h : ni.entry i = ni1.entry i) :
    (fillShard nn nonce ni i).entry i = (fillShard nn nonce ni1 i).entry i := by
  simp only [notarizedInfo.entry, Prod.mk.injEq] at h
  obtain ⟨h1, h2, h3, h4⟩ := h
  unfold fillShard
  simp only [NonceMap.get, h1, h2]
  split
  · simp [notarizedInfo.entry, NonceMap.set, h2, h4]
  · split
    · simp [notarizedInfo.entry, NonceMap.set, h1, h3]
    · simp [notarizedInfo.entry, h1, h2, h3, h4]

theorem fillShard_startNonce (nn : NonceMap) (nonce : Nat) (ni : notarizedInfo) (i : Nat) :
    (fillShard nn nonce ni i).startNonce = ni.startNonce := by
  unfold fillShard
  split
  · rfl
  · split <;> rfl

/-- State left by `areNotarizedShardHeadersFound`, shard by shard. -/
theorem areNotarizedShardHeadersFound_entry (cfg : ScanEnv) (ni : notarizedInfo)
    (nn : NonceMap) (nonce : Nat) (j : Nat) :
    (j < cfg.NumberOfShards →
      (areNotarizedShardHeadersFound cfg ni nn nonce).2.entry j =
        (fillShard nn nonce ni j).entry j) ∧
    (cfg.NumberOfShards ≤ j →
      (areNotarizedShardHeadersFound cfg ni nn nonce).2.entry j = ni.entry j) ∧
    (areNotarizedShardHeadersFound cfg ni nn nonce).2.startNonce = ni.startNonce := by
  have h := foldl_entry (fillShard nn nonce) (fillShard_other nn nonce)
    (fillShard_congr nn nonce) (List.range cfg.NumberOfShards) (List.nodup_range _) ni j
  refine ⟨fun hj => h.1 (List.mem_range.mpr hj), fun hj => h.2 ?_, ?_⟩
  · rw [List.mem_range]; omega
  · exact foldl_startNonce _ (fillShard_startNonce nn nonce) _ _

/-- C17: one call `areNotarizedShardHeadersFound(ni, notarizedNonce, nonce)`
updates each shard `i < NumberOfShards` by exactly one rule.  If
`lastNotarized[i] == 0` it sets `lastNotarized[i] = notarizedNonce[i]` and
`blockWithLastNotarized[i] = nonce` and leaves the final entries unchanged;
otherwise, if `finalNotarized[i] == 0`, it sets
`finalNotarized[i] = notarizedNonce[i]` and `blockWithFinalNotarized[i] = nonce`
and leaves the last entries unchanged; otherwise nothing of shard `i` changes.
A single call never changes both the last and the final entry of a shard, the
entries of shards `>= NumberOfShards` never change, and `startNonce` is kept. -/
theorem areNotarizedShardHeadersFound_fill_rule (cfg : ScanEnv) (ni : notarizedInfo)
    (notarizedNonce : NonceMap) (nonce : Nat) :
    (∀ i, i < cfg.NumberOfShards →
      (ni.lastNotarized.get i = 0 →
        (areNotarizedShardHeadersFound cfg ni notarizedNonce nonce).2.lastNotarized i =
          some (notarizedNonce.get i) ∧
        (areNotarizedShardHeadersFound cfg ni notarizedNonce nonce).2.blockWithLastNotarized i =
          some nonce ∧
        (areNotarizedShardHeadersFound cfg ni notarizedNonce nonce).2.finalNotarized i =
          ni.finalNotarized i ∧
        (areNotarizedShardHeadersFound cfg ni notarizedNonce nonce).2.blockWithFinalNotarized i =
          ni.blockWithFinalNotarized i) ∧
      (ni.lastNotarized.get i ≠ 0 → ni.finalNotarized.get i = 0 →
        (areNotarizedShardHeadersFound cfg ni notarizedNonce nonce).2.finalNotarized i =
          some (notarizedNonce.get i) ∧
        (areNotarizedShardHeadersFound cfg ni notarizedNonce nonce).2.blockWithFinalNotarized i =
          some nonce ∧
        (areNotarizedShardHeadersFound cfg ni notarizedNonce nonce).2.lastNotarized i =
          ni.lastNotarized i ∧
        (areNotarizedShardHeadersFound cfg ni notarizedNonce nonce).2.blockWithLastNotarized i =
          ni.blockWithLastNotarized i) ∧
      (ni.lastNotarized.get i ≠ 0 → ni.finalNotarized.get i ≠ 0 →
        (areNotarizedShardHeadersFound cfg ni notarizedNonce nonce).2.entry i = ni.entry i) ∧
      ((areNotarizedShardHeadersFound cfg ni notarizedNonce nonce).2.lastNotarized i =
          ni.lastNotarized i ∨
        (areNotarizedShardHeadersFound cfg ni notarizedNonce nonce).2.finalNotarized i =
          ni.finalNotarized i)) ∧
    (∀ i, cfg.NumberOfShards ≤ i →
      (areNotarizedShardHeadersFound cfg ni notarizedNonce nonce).2.entry i = ni.entry i) ∧
    (areNotarizedShardHeadersFound cfg ni notarizedNonce nonce).2.startNonce = ni.startNonce := by
  refine ⟨fun i hi => ?_,
    fun i hi => (areNotarizedShardHeadersFound_entry cfg ni notarizedNonce nonce i).2.1 hi,
    (areNotarizedShardHeadersFound_entry cfg ni notarizedNonce nonce 0).2.2⟩
  have h := (areNotarizedShardHeadersFound_entry cfg ni notarizedNonce nonce i).1 hi
  simp only [notarizedInfo.entry, Prod.mk.injEq] at h
  obtain ⟨h1, h2, h3, h4⟩ := h
  simp only [notarizedInfo.entry, Prod.mk.injEq, h1, h2, h3, h4]
  by_cases hl : ni.lastNotarized.get i = 0
  · simp [fillShard, hl, NonceMap.set]
  · by_cases hf : ni.finalNotarized.get i = 0
    · simp [fillShard, hl, hf, NonceMap.set]
    · simp [fillShard, hl, hf, notarizedInfo.entry]

/-- Value returned by `areNotarizedShardHeadersFound`. -/
theorem areNotarizedShardHeadersFound_true_iff (cfg : ScanEnv) (ni : notarizedInfo)
    (nn : NonceMap) (nonce : Nat) :
    (areNotarizedShardHeadersFound cfg ni nn nonce).1 = true ↔
      ∀ i, i < cfg.NumberOfShards →
        (areNotarizedShardHeadersFound cfg ni nn nonce).2.lastNotarized.get i ≠ 0 ∧
        (areNotarizedShardHeadersFound cfg ni nn nonce).2.finalNotarized.get i ≠ 0 := by
  simp only [areNotarizedShardHeadersFound, List.all_eq_true, List.mem_range, Bool.not_eq_true',
    Bool.or_eq_false_iff, decide_eq_false_iff_not, ne_eq]

/-! ## Notarization tracker: the scan -/

theorem scanLoop_fst (cfg : ScanEnv) :
    ∀ (n : Nat) (ni : notarizedInfo) (v w : List Nat),
      (scanLoop cfg n ni v).1 = (scanLoop cfg n ni w).1 := by
  intro n
  induction n with
  | zero => intro ni v w; rfl
  | succ m ih =>
    intro ni v w
    unfold scanLoop
    rcases scanStep cfg (m + 1) ni with ⟨_ | _, ni1⟩
    · exact ih ni1 _ _
    · rfl

theorem scanLoop_invariant (cfg : ScanEnv) (bound : Nat) (P : notarizedInfo → Prop)
    (hstep : ∀ ni cur, 1 ≤ cur → cur ≤ bound → P ni → P (scanStep cfg cur ni).2) :
    ∀ (n : Nat) (ni : notarizedInfo) (v : List Nat), n ≤ bound → P ni →
      P (scanLoop cfg n ni v).1 := by
  intro n
  induction n with
  | zero => intro ni v _ h; exact h
  | succ m ih =>
    intro ni v hb h
    have hs := hstep ni (m + 1) (by omega) hb h
    unfold scanLoop
    rcases hr : scanStep cfg (m + 1) ni with ⟨_ | _, ni1⟩
    · rw [hr] at hs
      exact ih ni1 _ (by omega) hs
    · rw [hr] at hs
      exact hs

theorem scanStep_invariant (cfg : ScanEnv) (cur : Nat) (P : notarizedInfo → Prop)
    (hreset : P notarizedInfo.reset)
    (hstart : ∀ ni m, isMetaBlockValid cfg cur = some m → P ni →
      P { ni with startNonce := cur })
    (hfill : ∀ ni nn, P ni → P (areNotarizedShardHeadersFound cfg ni nn cur).2)
    (ni : notarizedInfo) (h : P ni) : P (scanStep cfg cur ni).2 := by
  unfold scanStep
  split
  · exact hreset
  · rename_i m hm
    have h1 : P (if ni.startNonce = 0 then { ni with startNonce := cur } else ni) := by
      split
      · exact hstart ni m hm h
      · exact h
    simp only []
    split
    · exact h1
    · split
      · exact hreset
      · exact hfill _ _ h1

theorem descending_succ (n k : Nat) :
    descending (n + 1) (k + 1) = (n + 1) :: descending n k := by
  unfold descending
  rw [List.range_succ_eq_map, List.map_cons, List.map_map]
  simp only [Nat.sub_zero, List.cons.injEq, true_and]
  apply List.map_congr_left
  intro c _
  simp only [Function.comp_apply]
  omega

theorem mem_descending (n k x : Nat) (h : x ∈ descending n k) : n + 1 - k ≤ x ∧ x ≤ n := by
  unfold descending at h
  rw [List.mem_map] at h
  obtain ⟨c, hc, hx⟩ := h
  rw [List.mem_range] at hc
  omega

theorem scanLoop_break (cfg : ScanEnv) :
    ∀ (n : Nat) (ni : notarizedInfo) (v : List Nat) (c : Nat), c < n →
      (∀ d, d < c → (scanStep cfg (n - d) (stepsFrom cfg n d ni)).1 = false) →
      (scanStep cfg (n - c) (stepsFrom cfg n c ni)).1 = true →
      scanLoop cfg n ni v =
        ((scanStep cfg (n - c) (stepsFrom cfg n c ni)).2, v ++ descending n (c + 1)) := by
  intro n
  induction n with
  | zero => intro ni v c hc; omega
  | succ m ih =>
    intro ni v c hc hno hyes
    unfold scanLoop
    cases c with
    | zero =>
      simp only [Nat.sub_zero, stepsFrom] at hyes
      rcases hr : scanStep cfg (m + 1) ni with ⟨_ | _, ni1⟩
      · rw [hr] at hyes; simp at hyes
      · simp only [Nat.sub_zero, stepsFrom]
        rw [hr]
        simp [descending, List.range_succ]
    | succ c0 =>
      have h0 := hno 0 (by omega)
      simp only [Nat.sub_zero, stepsFrom] at h0
      rcases hr : scanStep cfg (m + 1) ni with ⟨_ | _, ni1⟩
      · simp only []
        have hsteps : ∀ d, stepsFrom cfg (m + 1) (d + 1) ni = stepsFrom cfg m d ni1 := by
          intro d
          simp only [stepsFrom, hr, Nat.add_sub_cancel]
        have hsub : ∀ d, m + 1 - (d + 1) = m - d := fun d => by omega
        rw [ih ni1 (v ++ [m + 1]) c0 (by omega)
          (fun d hd => by
            have := hno (d + 1) (by omega)
            rwa [hsteps, hsub] at this)
          (by rwa [hsteps, hsub] at hyes)]
        rw [hsteps, hsub, descending_succ m (c0 + 1)]
        simp
      · rw [hr] at h0; simp at h0

theorem scanLoop_no_break (cfg : ScanEnv) :
    ∀ (n : Nat) (ni : notarizedInfo) (v : List Nat),
      (∀ d, d < n → (scanStep cfg (n - d) (stepsFrom cfg n d ni)).1 = false) →
      scanLoop cfg n ni v = (stepsFrom cfg n n ni, v ++ descending n n) := by
  intro n
  induction n with
  | zero => intro ni v _; simp [scanLoop, stepsFrom, descending]
  | succ m ih =>
    intro ni v hno
    unfold scanLoop
    have h0 := hno 0 (by omega)
    simp only [Nat.sub_zero, stepsFrom] at h0
    rcases hr : scanStep cfg (m + 1) ni with ⟨_ | _, ni1⟩
    · simp only []
      have hsteps : ∀ d, stepsFrom cfg (m + 1) (d + 1) ni = stepsFrom cfg m d ni1 := by
        intro d
        simp only [stepsFrom, hr, Nat.add_sub_cancel]
      have hsub : ∀ d, m + 1 - (d + 1) = m - d := fun d => by omega
      rw [ih ni1 (v ++ [m + 1])
        (fun d hd => by
          have := hno (d + 1) (by omega)
          rwa [hsteps, hsub] at this)]
      rw [hsteps, descending_succ m m]
      simp
    · rw [hr] at h0; simp at h0

theorem scanStep_break_iff (cfg : ScanEnv) (cur : Nat) (ni : notarizedInfo) :
    (scanStep cfg cur ni).1 = true ↔
      ∃ metaBlock maxNonce,
        isMetaBlockValid cfg cur = some metaBlock ∧
        metaBlock.ShardInfo.length ≠ 0 ∧
        getMaxNotarizedHeadersNoncesInMetaBlock cfg metaBlock = (maxNonce, none) ∧
        (areNotarizedShardHeadersFound cfg
          (if ni.startNonce = 0 then { ni with startNonce := cur } else ni)
          maxNonce cur).1 = true := by
  unfold scanStep
  cases hv : isMetaBlockValid cfg cur with
  | none => simp
  | some m =>
    simp only []
    by_cases hlen : m.ShardInfo.length = 0
    · rw [if_pos hlen]
      simp only [Bool.false_eq_true, false_iff, not_exists, not_and]
      intro m1 mx1 h1 h2
      simp only [Option.some.injEq] at h1
      subst h1
      exact absurd hlen h2
    · rw [if_neg hlen]
      rcases hg : getMaxNotarizedHeadersNoncesInMetaBlock cfg m with ⟨mx, _ | e⟩
      · simp only []
        constructor
        · intro h
          exact ⟨m, mx, rfl, hlen, hg, h⟩
        · rintro ⟨m1, mx1, h1, _, h3, h4⟩
          simp only [Option.some.injEq] at h1
          subst h1
          rw [hg] at h3
          simp only [Prod.mk.injEq, and_true] at h3
          subst h3
          exact h4
      · simp only [Bool.false_eq_true, false_iff, not_exists, not_and]
        intro m1 mx1 h1 _ h3
        simp only [Option.some.injEq] at h1
        subst h1
        rw [hg] at h3
        simp at h3

/-- C18: `areNotarizedShardHeadersFound` returns true if and only if, after its
update, every shard `i < NumberOfShards` has a non-zero last and a non-zero
final value.  The scan of `getNonceWithLastNotarized(N)` breaks at a block only
because that call returned true there; it stops at the first (highest-nonce)
block where this happens, having read the metablocks from `N` down to that
block and none with a lower nonce; when it happens nowhere the scan reads the
metablocks from `N` down to nonce 1. -/
theorem scan_stops_at_first_found (cfg : ScanEnv) (N : Nat) :
    (∀ ni nn nonce,
      (areNotarizedShardHeadersFound cfg ni nn nonce).1 = true ↔
        ∀ i, i < cfg.NumberOfShards →
          (areNotarizedShardHeadersFound cfg ni nn nonce).2.lastNotarized.get i ≠ 0 ∧
          (areNotarizedShardHeadersFound cfg ni nn nonce).2.finalNotarized.get i ≠ 0) ∧
    (∀ cur ni,
      (scanStep cfg cur ni).1 = true ↔
        ∃ metaBlock maxNonce,
          isMetaBlockValid cfg cur = some metaBlock ∧
          metaBlock.ShardInfo.length ≠ 0 ∧
          getMaxNotarizedHeadersNoncesInMetaBlock cfg metaBlock = (maxNonce, none) ∧
          (areNotarizedShardHeadersFound cfg
            (if ni.startNonce = 0 then { ni with startNonce := cur } else ni)
            maxNonce cur).1 = true) ∧
    (∀ c, c < N →
      (∀ d, d < c →
        (scanStep cfg (N - d) (stepsFrom cfg N d notarizedInfo.reset)).1 = false) →
      (scanStep cfg (N - c) (stepsFrom cfg N c notarizedInfo.reset)).1 = true →
      scanLoop cfg N notarizedInfo.reset [] =
        ((scanStep cfg (N - c) (stepsFrom cfg N c notarizedInfo.reset)).2,
          descending N (c + 1)) ∧
      ∀ x, x ∈ descending N (c + 1) → N - c ≤ x ∧ x ≤ N) ∧
    ((∀ d, d < N →
        (scanStep cfg (N - d) (stepsFrom cfg N d notarizedInfo.reset)).1 = false) →
      scanLoop cfg N notarizedInfo.reset [] =
        (stepsFrom cfg N N notarizedInfo.reset, descending N N) ∧
      ∀ x, x ∈ descending N N → 1 ≤ x ∧ x ≤ N) := by
  refine ⟨fun ni nn nonce => areNotarizedShardHeadersFound_true_iff cfg ni nn nonce,
    fun cur ni => scanStep_break_iff cfg cur ni, ?_, ?_⟩
  · intro c hc hno hyes
    refine ⟨?_, fun x hx => ?_⟩
    · rw [scanLoop_break cfg N notarizedInfo.reset [] c hc hno hyes]
      simp
    · have := mem_descending N (c + 1) x hx
      omega
  · intro hno
    refine ⟨?_, fun x hx => ?_⟩
    · rw [scanLoop_no_break cfg N notarizedInfo.reset [] hno]
      simp
    · have := mem_descending N N x hx
      omega

/-! ## Notarization tracker: two-step fill -/

theorem get_eq_of_entry_eq {m m1 : NonceMap} {j : Nat} (h : m j = m1 j) :
    m.get j = m1.get j := by
  simp [NonceMap.get, h]

theorem fillShard_twoStepFill (nn : NonceMap) (nonce : Nat) (ni : notarizedInfo) (s : Nat)
    (h : ni.finalNotarized.get s ≠ 0 → ni.lastNotarized.get s ≠ 0) :
    (fillShard nn nonce ni s).finalNotarized.get s ≠ 0 →
      (fillShard nn nonce ni s).lastNotarized.get s ≠ 0 := by
  unfold fillShard
  by_cases hl : ni.lastNotarized.get s = 0
  · have hf : ni.finalNotarized.get s = 0 := by
      by_contra hne
      exact h hne hl
    simp only [hl, if_true]
    intro hcontra
    exact absurd hf hcontra
  · by_cases hf : ni.finalNotarized.get s = 0
    · simp only [hl, hf, if_false, if_true]
      intro _
      exact hl
    · simp only [hl, hf, if_false]
      exact h

theorem areNotarizedShardHeadersFound_twoStepFill (cfg : ScanEnv) (ni : notarizedInfo)
    (nn : NonceMap) (nonce : Nat) (h : ni.twoStepFill) :
    (areNotarizedShardHeadersFound cfg ni nn nonce).2.twoStepFill := by
  intro s
  have he := areNotarizedShardHeadersFound_entry cfg ni nn nonce s
  by_cases hs : s < cfg.NumberOfShards
  · have h1 := he.1 hs
    simp only [notarizedInfo.entry, Prod.mk.injEq] at h1
    rw [get_eq_of_entry_eq h1.1, get_eq_of_entry_eq h1.2.1]
    exact fillShard_twoStepFill nn nonce ni s (h s)
  · have h1 := he.2.1 (by omega)
    simp only [notarizedInfo.entry, Prod.mk.injEq] at h1
    rw [get_eq_of_entry_eq h1.1, get_eq_of_entry_eq h1.2.1]
    exact h s

theorem reset_twoStepFill : notarizedInfo.reset.twoStepFill := by
  intro s h
  simp [notarizedInfo.reset, NonceMap.get, NonceMap.empty] at h

theorem scanResult_twoStepFill (cfg : ScanEnv) (N : Nat) : (scanResult cfg N).twoStepFill := by
  unfold scanResult
  apply scanLoop_invariant cfg N notarizedInfo.twoStepFill _ N _ _ (Nat.le_refl _)
    reset_twoStepFill
  intro ni cur _ _ h
  exact scanStep_invariant cfg cur notarizedInfo.twoStepFill reset_twoStepFill
    (fun ni1 _ _ h1 => h1) (fun ni1 nn h1 =>
      areNotarizedShardHeadersFound_twoStepFill cfg ni1 nn cur h1) ni h

theorem promoteShard_other (nonce : Nat) (ni : notarizedInfo) (i j : Nat) (h : j ≠ i) :
    (promoteShard nonce ni i).entry j = ni.entry j := by
  unfold promoteShard
  split
  · simp [notarizedInfo.entry, NonceMap.set, h]
  · rfl

theorem promoteShard_congr (nonce : Nat) (ni ni1 : notarizedInfo) (i : Nat)
    (h : ni.entry i = ni1.entry i) :
    (promoteShard nonce ni i).entry i = (promoteShard nonce ni1 i).entry i := by
  simp only [notarizedInfo.entry, Prod.mk.injEq] at h
  obtain ⟨h1, h2, h3, h4⟩ := h
  unfold promoteShard
  simp only [NonceMap.get, h1, h3]
  split
  · simp [notarizedInfo.entry, NonceMap.set, h1, h3, h4]
  · simp [notarizedInfo.entry, h1, h2, h3, h4]

theorem promoteShard_startNonce (nonce : Nat) (ni : notarizedInfo) (i : Nat) :
    (promoteShard nonce ni i).startNonce = ni.startNonce := by
  unfold promoteShard
  split <;> rfl

theorem promoteShard_entry (nonce : Nat) (ni : notarizedInfo) (i : Nat) :
    (promoteShard nonce ni i).entry i =
      (ni.lastNotarized i,
        if nonce > ni.blockWithLastNotarized.get i then some (ni.lastNotarized.get i)
        else ni.finalNotarized i,
        ni.blockWithLastNotarized i, ni.blockWithFinalNotarized i) := by
  unfold promoteShard
  split <;> simp [notarizedInfo.entry, NonceMap.set]

/-- State at the return statement of `getNonceWithLastNotarized`, shard by
shard, in terms of the state in which the scan loop was left. -/
theorem notarizedAtReturn_entry (cfg : ScanEnv) (N j : Nat) :
    (j < cfg.NumberOfShards →
      (notarizedAtReturn cfg N).entry j =
        ((scanResult cfg N).lastNotarized j,
          if N > (scanResult cfg N).blockWithLastNotarized.get j then
            some ((scanResult cfg N).lastNotarized.get j)
          else (scanResult cfg N).finalNotarized j,
          (scanResult cfg N).blockWithLastNotarized j,
          (scanResult cfg N).blockWithFinalNotarized j)) ∧
    (cfg.NumberOfShards ≤ j → (notarizedAtReturn cfg N).entry j = (scanResult cfg N).entry j) ∧
    (notarizedAtReturn cfg N).startNonce = (scanResult cfg N).startNonce := by
  have h := foldl_entry (promoteShard N) (promoteShard_other N) (promoteShard_congr N)
    (List.range cfg.NumberOfShards) (List.nodup_range _) (scanResult cfg N) j
  refine ⟨fun hj => ?_, fun hj => h.2 ?_, ?_⟩
  · unfold notarizedAtReturn
    rw [h.1 (List.mem_range.mpr hj), promoteShard_entry]
  · rw [List.mem_range]; omega
  · exact foldl_startNonce _ (promoteShard_startNonce N) _ _

theorem notarizedAtReturn_lastNotarized (cfg : ScanEnv) (N : Nat) :
    (notarizedAtReturn cfg N).lastNotarized = (scanResult cfg N).lastNotarized := by
  funext j
  have h := notarizedAtReturn_entry cfg N j
  by_cases hj : j < cfg.NumberOfShards
  · have h1 := h.1 hj
    simp only [notarizedInfo.entry, Prod.mk.injEq] at h1
    exact h1.1
  · have h1 := h.2.1 (by omega)
    simp only [notarizedInfo.entry, Prod.mk.injEq] at h1
    exact h1.1

theorem notarizedAtReturn_twoStepFill (cfg : ScanEnv) (N : Nat) :
    (notarizedAtReturn cfg N).twoStepFill := by
  intro s
  have hsr := scanResult_twoStepFill cfg N s
  have h := notarizedAtReturn_entry cfg N s
  by_cases hs : s < cfg.NumberOfShards
  · have h1 := h.1 hs
    simp only [notarizedInfo.entry, Prod.mk.injEq] at h1
    rw [get_eq_of_entry_eq h1.1]
    by_cases hgt : N > (scanResult cfg N).blockWithLastNotarized.get s
    · have h2 := h1.2.1
      rw [if_pos hgt] at h2
      intro hne
      simp only [NonceMap.get, h2, Option.getD_some] at hne
      exact hne
    · have h2 := h1.2.1
      rw [if_neg hgt] at h2
      rw [get_eq_of_entry_eq h2]
      exact hsr
  · have h1 := h.2.1 (by omega)
    simp only [notarizedInfo.entry, Prod.mk.injEq] at h1
    rw [get_eq_of_entry_eq h1.1, get_eq_of_entry_eq h1.2.1]
    exact hsr

/-- C15: two-step fill.  In every tracker state produced from the reset state
by any sequence of calls of `areNotarizedShardHeadersFound`, and in the maps
returned by `getNonceWithLastNotarized` for every start nonce and every storage
content, `finalNotarized[s]` is non-zero only if `lastNotarized[s]` is non-zero,
for every shard `s`; and a call of `areNotarizedShardHeadersFound` made while
`lastNotarized[s]` is still zero leaves the entry `finalNotarized[s]` as it is. -/
theorem two_step_fill (cfg : ScanEnv) :
    (∀ (calls : List (NonceMap × Nat)) (s : Nat),
      (calls.foldl (fun ni c => (areNotarizedShardHeadersFound cfg ni c.1 c.2).2)
        notarizedInfo.reset).finalNotarized.get s ≠ 0 →
      (calls.foldl (fun ni c => (areNotarizedShardHeadersFound cfg ni c.1 c.2).2)
        notarizedInfo.reset).lastNotarized.get s ≠ 0) ∧
    (∀ (ni : notarizedInfo) (nn : NonceMap) (nonce s : Nat),
      ni.lastNotarized.get s = 0 →
      (areNotarizedShardHeadersFound cfg ni nn nonce).2.finalNotarized s = ni.finalNotarized s) ∧
    (∀ (N s : Nat),
      (getNonceWithLastNotarized cfg N).2.1.get s ≠ 0 →
      (getNonceWithLastNotarized cfg N).2.2.get s ≠ 0) := by
  refine ⟨?_, ?_, fun N s => notarizedAtReturn_twoStepFill cfg N s⟩
  · intro calls
    have hgen : ∀ (l : List (NonceMap × Nat)) (ni : notarizedInfo), ni.twoStepFill →
        (l.foldl (fun ni c => (areNotarizedShardHeadersFound cfg ni c.1 c.2).2)
          ni).twoStepFill := by
      intro l
      induction l with
      | nil => intro ni h; exact h
      | cons c rest ih =>
        intro ni h
        simp only [List.foldl_cons]
        exact ih _ (areNotarizedShardHeadersFound_twoStepFill cfg ni c.1 c.2 h)
    exact hgen calls _ reset_twoStepFill
  · intro ni nn nonce s hl
    have he := areNotarizedShardHeadersFound_entry cfg ni nn nonce s
    by_cases hs : s < cfg.NumberOfShards
    · have h1 := he.1 hs
      simp only [notarizedInfo.entry, Prod.mk.injEq] at h1
      rw [h1.2.1]
      simp [fillShard, hl]
    · have h1 := he.2.1 (by omega)
      simp only [notarizedInfo.entry, Prod.mk.injEq] at h1
      exact h1.2.1

/-! ## Notarization tracker: invalid blocks and the reconciliation -/

theorem scanResult_skip_invalid (cfg : ScanEnv) (m : Nat)
    (h : isMetaBlockValid cfg (m + 1) = none) :
    scanResult cfg (m + 1) = scanResult cfg m := by
  have hstep : scanStep cfg (m + 1) notarizedInfo.reset = (false, notarizedInfo.reset) := by
    unfold scanStep
    rw [h]
  unfold scanResult
  conv => lhs; unfold scanLoop
  rw [hstep]
  exact scanLoop_fst cfg m notarizedInfo.reset _ _

theorem scanResult_startNonce_valid (cfg : ScanEnv) (N : Nat) :
    (scanResult cfg N).startNonce = 0 ∨
      isMetaBlockValid cfg (scanResult cfg N).startNonce ≠ none := by
  unfold scanResult
  apply scanLoop_invariant cfg N
    (fun ni => ni.startNonce = 0 ∨ isMetaBlockValid cfg ni.startNonce ≠ none) _ N _ _
    (Nat.le_refl _) (Or.inl rfl)
  intro ni cur _ _ h
  apply scanStep_invariant cfg cur
    (fun ni => ni.startNonce = 0 ∨ isMetaBlockValid cfg ni.startNonce ≠ none) (Or.inl rfl)
    _ _ ni h
  · intro ni1 m hm _
    right
    simp [hm]
  · intro ni1 nn h1
    rw [(areNotarizedShardHeadersFound_entry cfg ni1 nn cur 0).2.2]
    exact h1

theorem scanStep_invalid (cfg : ScanEnv) (cur : Nat) (h : isMetaBlockValid cfg cur = none)
    (ni : notarizedInfo) : scanStep cfg cur ni = (false, notarizedInfo.reset) := by
  unfold scanStep
  rw [h]

theorem stepsFrom_succ_last (cfg : ScanEnv) :
    ∀ (c K : Nat) (ni : notarizedInfo),
      stepsFrom cfg K (c + 1) ni = (scanStep cfg (K - c) (stepsFrom cfg K c ni)).2 := by
  intro c
  induction c with
  | zero => intro K ni; rfl
  | succ c ih =>
    intro K ni
    have h1 : stepsFrom cfg K (c + 1 + 1) ni =
        stepsFrom cfg (K - 1) (c + 1) (scanStep cfg K ni).2 := rfl
    have h2 : stepsFrom cfg K (c + 1) ni = stepsFrom cfg (K - 1) c (scanStep cfg K ni).2 := rfl
    have h3 : K - 1 - c = K - (c + 1) := by omega
    rw [h1, ih (K - 1) _, h2, h3]

theorem scanLoop_after_steps (cfg : ScanEnv) :
    ∀ (c n : Nat) (ni : notarizedInfo) (v : List Nat), c ≤ n →
      (∀ d, d < c → (scanStep cfg (n - d) (stepsFrom cfg n d ni)).1 = false) →
      (scanLoop cfg n ni v).1 = (scanLoop cfg (n - c) (stepsFrom cfg n c ni) []).1 := by
  intro c
  induction c with
  | zero =>
    intro n ni v _ _
    exact scanLoop_fst cfg n ni _ _
  | succ c ih =>
    intro n ni v hc hno
    obtain ⟨m, rfl⟩ : ∃ m, n = m + 1 := ⟨n - 1, by omega⟩
    have h0 := hno 0 (by omega)
    simp only [Nat.sub_zero, stepsFrom] at h0
    conv => lhs; unfold scanLoop
    rcases hr : scanStep cfg (m + 1) ni with ⟨_ | _, ni1⟩
    · simp only []
      have hsteps : ∀ d, stepsFrom cfg (m + 1) (d + 1) ni = stepsFrom cfg m d ni1 := by
        intro d
        simp only [stepsFrom, hr, Nat.add_sub_cancel]
      have hsub : ∀ d, m + 1 - (d + 1) = m - d := fun d => by omega
      rw [ih m ni1 _ (by omega)
        (fun d hd => by
          have := hno (d + 1) (by omega)
          rwa [hsteps, hsub] at this)]
      rw [hsteps, hsub]
    · rw [hr] at h0
      simp at h0

/-- C19: an invalid metablock is skipped with the tracker state reset.  The
scan step of an invalid metablock leaves the reset state whatever the tracker
held before it, and does not stop the scan.  So for every `N >= 1` such that
the metablock at nonce `N` is invalid, the scan of
`getNonceWithLastNotarized(N)` leaves the tracker state that the scan of
`getNonceWithLastNotarized(N-1)` leaves over the same storage, and the two
calls return the same `startNonce` and the same `lastNotarized` map; and a scan
started at any `K >= N` that reaches the block `N` (it did not stop above it)
is in the reset state after that block, whatever it had recorded above it, and
returns the `startNonce` and the `lastNotarized` map of
`getNonceWithLastNotarized(N-1)`.  For every start nonce the returned
`startNonce` is 0 or the nonce of a valid block. -/
theorem invalid_block_is_skipped (cfg : ScanEnv) (N : Nat) (hN : 1 ≤ N)
    (hinvalid : isMetaBlockValid cfg N = none) :
    scanResult cfg N = scanResult cfg (N - 1) ∧
    (getNonceWithLastNotarized cfg N).1 = (getNonceWithLastNotarized cfg (N - 1)).1 ∧
    (getNonceWithLastNotarized cfg N).2.2 = (getNonceWithLastNotarized cfg (N - 1)).2.2 ∧
    (∀ M, (getNonceWithLastNotarized cfg M).1 = 0 ∨
      isMetaBlockValid cfg (getNonceWithLastNotarized cfg M).1 ≠ none) ∧
    (∀ ni, scanStep cfg N ni = (false, notarizedInfo.reset)) ∧
    (∀ K, N ≤ K →
      (∀ d, d < K - N →
        (scanStep cfg (K - d) (stepsFrom cfg K d notarizedInfo.reset)).1 = false) →
      stepsFrom cfg K (K - N + 1) notarizedInfo.reset = notarizedInfo.reset ∧
      scanResult cfg K = scanResult cfg (N - 1) ∧
      (getNonceWithLastNotarized cfg K).1 = (getNonceWithLastNotarized cfg (N - 1)).1 ∧
      (getNonceWithLastNotarized cfg K).2.2 = (getNonceWithLastNotarized cfg (N - 1)).2.2) := by
  obtain ⟨m, rfl⟩ : ∃ m, N = m + 1 := ⟨N - 1, by omega⟩
  have hsr := scanResult_skip_invalid cfg m hinvalid
  have hstep := scanStep_invalid cfg (m + 1) hinvalid
  simp only [Nat.add_sub_cancel]
  refine ⟨hsr, ?_, ?_, ?_, hstep, ?_⟩
  · show (notarizedAtReturn cfg (m + 1)).startNonce = (notarizedAtReturn cfg m).startNonce
    rw [(notarizedAtReturn_entry cfg (m + 1) 0).2.2, (notarizedAtReturn_entry cfg m 0).2.2, hsr]
  · show (notarizedAtReturn cfg (m + 1)).lastNotarized = (notarizedAtReturn cfg m).lastNotarized
    rw [notarizedAtReturn_lastNotarized, notarizedAtReturn_lastNotarized, hsr]
  · intro M
    show (notarizedAtReturn cfg M).startNonce = 0 ∨
      isMetaBlockValid cfg (notarizedAtReturn cfg M).startNonce ≠ none
    rw [(notarizedAtReturn_entry cfg M 0).2.2]
    exact scanResult_startNonce_valid cfg M
  · intro K hK hno
    have hKsub : K - (K - (m + 1)) = m + 1 := by omega
    have hafter : stepsFrom cfg K (K - (m + 1) + 1) notarizedInfo.reset =
        notarizedInfo.reset := by
      rw [stepsFrom_succ_last, hKsub, hstep]
    have hres : scanResult cfg K = scanResult cfg m := by
      unfold scanResult
      rw [scanLoop_after_steps cfg (K - (m + 1)) K notarizedInfo.reset [] (by omega) hno, hKsub]
      conv => lhs; unfold scanLoop
      rw [hstep]
      exact scanLoop_fst cfg m notarizedInfo.reset _ _
    refine ⟨hafter, hres, ?_, ?_⟩
    · show (notarizedAtReturn cfg K).startNonce = (notarizedAtReturn cfg m).startNonce
      rw [(notarizedAtReturn_entry cfg K 0).2.2, (notarizedAtReturn_entry cfg m 0).2.2, hres]
    · show (notarizedAtReturn cfg K).lastNotarized = (notarizedAtReturn cfg m).lastNotarized
      rw [notarizedAtReturn_lastNotarized, notarizedAtReturn_lastNotarized, hres]

theorem invalid_block_is_skipped_witness :
    (stepsFrom gapScanEnv 50 2 notarizedInfo.reset).lastNotarized 0 = some 7 ∧
    (stepsFrom gapScanEnv 50 2 notarizedInfo.reset).startNonce = 50 ∧
    (scanStep gapScanEnv 48 (stepsFrom gapScanEnv 50 2 notarizedInfo.reset)).2.lastNotarized 0 =
      none ∧
    (scanStep gapScanEnv 48 (stepsFrom gapScanEnv 50 2 notarizedInfo.reset)).2.startNonce = 0 ∧
    (getNonceWithLastNotarized gapScanEnv 50).1 = 47 ∧
    (getNonceWithLastNotarized gapScanEnv 50).2.2 0 = some 5 ∧
    scanResult gapScanEnv 48 = scanResult gapScanEnv (48 - 1) ∧
    (getNonceWithLastNotarized gapScanEnv 48).1 =
      (getNonceWithLastNotarized gapScanEnv (48 - 1)).1 ∧
    (getNonceWithLastNotarized gapScanEnv 48).2.2 =
      (getNonceWithLastNotarized gapScanEnv (48 - 1)).2.2 ∧
    (∀ M, (getNonceWithLastNotarized gapScanEnv M).1 = 0 ∨
      isMetaBlockValid gapScanEnv (getNonceWithLastNotarized gapScanEnv M).1 ≠ none) ∧
    (∀ ni, scanStep gapScanEnv 48 ni = (false, notarizedInfo.reset)) ∧
    (∀ K, 48 ≤ K →
      (∀ d, d < K - 48 →
        (scanStep gapScanEnv (K - d) (stepsFrom gapScanEnv K d notarizedInfo.reset)).1 =
          false) →
      stepsFrom gapScanEnv K (K - 48 + 1) notarizedInfo.reset = notarizedInfo.reset ∧
      scanResult gapScanEnv K = scanResult gapScanEnv (48 - 1) ∧
      (getNonceWithLastNotarized gapScanEnv K).1 =
        (getNonceWithLastNotarized gapScanEnv (48 - 1)).1 ∧
      (getNonceWithLastNotarized gapScanEnv K).2.2 =
        (getNonceWithLastNotarized gapScanEnv (48 - 1)).2.2) :=
  ⟨by rfl, by rfl, by rfl, by rfl, by rfl, by rfl,
    invalid_block_is_skipped gapScanEnv 48 (by decide) (by rfl)⟩

theorem fillShard_blockWithLast (nn : NonceMap) (nonce : Nat) (ni : notarizedInfo) (i : Nat) :
    (fillShard nn nonce ni i).blockWithLastNotarized.get i = nonce ∨
    (fillShard nn nonce ni i).blockWithLastNotarized.get i = ni.blockWithLastNotarized.get i := by
  unfold fillShard
  split
  · left; simp [NonceMap.get, NonceMap.set]
  · split <;> (right; rfl)

theorem scanResult_blockWithLast_le (cfg : ScanEnv) (N : Nat) (i : Nat) :
    (scanResult cfg N).blockWithLastNotarized.get i ≤ N := by
  have hall : ∀ j, (scanResult cfg N).blockWithLastNotarized.get j ≤ N := by
    unfold scanResult
    apply scanLoop_invariant cfg N
      (fun ni => ∀ j, ni.blockWithLastNotarized.get j ≤ N) _ N _ _ (Nat.le_refl _)
    · intro j
      simp [notarizedInfo.reset, NonceMap.get, NonceMap.empty]
    · intro ni cur _ hcur h
      apply scanStep_invariant cfg cur
        (fun ni => ∀ j, ni.blockWithLastNotarized.get j ≤ N) _ _ _ ni h
      · intro j
        simp [notarizedInfo.reset, NonceMap.get, NonceMap.empty]
      · intro ni1 _ _ h1
        exact h1
      · intro ni1 nn h1 j
        have he := areNotarizedShardHeadersFound_entry cfg ni1 nn cur j
        by_cases hj : j < cfg.NumberOfShards
        · have h2 := he.1 hj
          simp only [notarizedInfo.entry, Prod.mk.injEq] at h2
          rw [get_eq_of_entry_eq h2.2.2.1]
          rcases fillShard_blockWithLast nn cur ni1 j with h3 | h3
          · omega
          · rw [h3]; exact h1 j
        · have h2 := he.2.1 (by omega)
          simp only [notarizedInfo.entry, Prod.mk.injEq] at h2
          rw [get_eq_of_entry_eq h2.2.2.1]
          exact h1 j
  exact hall i

/-- C20: post-loop reconciliation of `getNonceWithLastNotarized(N)`.  In the
returned maps, for every shard `i < NumberOfShards` with
`N > blockWithLastNotarized[i]`, `finalNotarized[i]` is set to
`lastNotarized[i]`; for a shard whose last value was recorded at block `N`
itself (the only other case, as no recorded block is above `N`),
`finalNotarized[i]` keeps the entry filled during the scan; the final entries
of shards `>= NumberOfShards` are kept.  The `lastNotarized` map and
`startNonce` are those the scan loop left. -/
theorem reconciliation_promotes_final (cfg : ScanEnv) (N : Nat) :
    (∀ i, i < cfg.NumberOfShards → N > (scanResult cfg N).blockWithLastNotarized.get i →
      (getNonceWithLastNotarized cfg N).2.1 i =
        some ((getNonceWithLastNotarized cfg N).2.2.get i) ∧
      (getNonceWithLastNotarized cfg N).2.1.get i =
        (getNonceWithLastNotarized cfg N).2.2.get i) ∧
    (∀ i, i < cfg.NumberOfShards → (scanResult cfg N).blockWithLastNotarized.get i = N →
      (getNonceWithLastNotarized cfg N).2.1 i = (scanResult cfg N).finalNotarized i) ∧
    (∀ i, (scanResult cfg N).blockWithLastNotarized.get i ≤ N) ∧
    (∀ i, cfg.NumberOfShards ≤ i →
      (getNonceWithLastNotarized cfg N).2.1 i = (scanResult cfg N).finalNotarized i) ∧
    (getNonceWithLastNotarized cfg N).2.2 = (scanResult cfg N).lastNotarized ∧
    (getNonceWithLastNotarized cfg N).1 = (scanResult cfg N).startNonce := by
  refine ⟨fun i hi hgt => ?_, fun i hi heq => ?_, scanResult_blockWithLast_le cfg N,
    fun i hi => ?_, notarizedAtReturn_lastNotarized cfg N,
    (notarizedAtReturn_entry cfg N 0).2.2⟩
  · have h := (notarizedAtReturn_entry cfg N i).1 hi
    simp only [notarizedInfo.entry, Prod.mk.injEq] at h
    have h2 := h.2.1
    rw [if_pos hgt] at h2
    have hfin : (getNonceWithLastNotarized cfg N).2.1 i =
        some ((getNonceWithLastNotarized cfg N).2.2.get i) := by
      show (notarizedAtReturn cfg N).finalNotarized i =
        some ((notarizedAtReturn cfg N).lastNotarized.get i)
      rw [h2, notarizedAtReturn_lastNotarized]
    refine ⟨hfin, ?_⟩
    simp only [NonceMap.get, hfin, Option.getD_some]
  · have h := (notarizedAtReturn_entry cfg N i).1 hi
    simp only [notarizedInfo.entry, Prod.mk.injEq] at h
    have h2 := h.2.1
    rw [if_neg (by omega)] at h2
    exact h2
  · have h := (notarizedAtReturn_entry cfg N i).2.1 hi
    simp only [notarizedInfo.entry, Prod.mk.injEq] at h
    exact h.2.1

/-! ## Notarization tracker: the maximum notarized nonce per shard -/

theorem maxNonceLoop_spec (cfg : ScanEnv) :
    ∀ (l : List ShardData) (m : NonceMap),
      (∀ sd, sd ∈ l → ∃ h, cfg.GetShardHeaderFromStorage sd.HeaderHash = .ok h) →
      (maxNonceLoop cfg l m).2 = none ∧
      (∀ s, m.get s ≤ (maxNonceLoop cfg l m).1.get s) ∧
      (∀ sd, sd ∈ l → ∀ h, cfg.GetShardHeaderFromStorage sd.HeaderHash = .ok h →
        h.Nonce ≤ (maxNonceLoop cfg l m).1.get sd.ShardId) ∧
      (∀ s, (maxNonceLoop cfg l m).1 s = m s ∨
        ∃ sd, sd ∈ l ∧ sd.ShardId = s ∧
          ∃ h, cfg.GetShardHeaderFromStorage sd.HeaderHash = .ok h ∧
            h.Nonce = (maxNonceLoop cfg l m).1.get s) ∧
      ((∀ s v, m s = some v → 0 < v) →
        ∀ s v, (maxNonceLoop cfg l m).1 s = some v → 0 < v) := by
  intro l
  induction l with
  | nil =>
    intro m _
    exact ⟨rfl, fun s => Nat.le_refl _, fun sd hsd => by simp at hsd, fun s => Or.inl rfl,
      fun hp => hp⟩
  | cons sd rest ih =>
    intro m hload
    obtain ⟨h, hh⟩ := hload sd (List.mem_cons_self _ _)
    have hrest : ∀ x, x ∈ rest → ∃ h, cfg.GetShardHeaderFromStorage x.HeaderHash = .ok h :=
      fun x hx => hload x (List.mem_cons_of_mem _ hx)
    unfold maxNonceLoop
    rw [hh]
    simp only []
    by_cases hgt : h.Nonce > m.get sd.ShardId
    · rw [if_pos hgt]
      obtain ⟨i1, i2, i3, i4, i5⟩ := ih (m.set sd.ShardId h.Nonce) hrest
      have hset : ∀ s, m.get s ≤ (m.set sd.ShardId h.Nonce).get s := by
        intro s
        by_cases hs : s = sd.ShardId
        · subst hs
          rw [NonceMap.get_set_self]
          omega
        · simp [NonceMap.get, NonceMap.set, hs]
      refine ⟨i1, fun s => Nat.le_trans (hset s) (i2 s), ?_, ?_, ?_⟩
      · intro x hx hx2 hload2
        rcases List.mem_cons.mp hx with heq | hmem
        · subst heq
          rw [hh] at hload2
          simp only [Except.ok.injEq] at hload2
          subst hload2
          have := i2 x.ShardId
          rw [NonceMap.get_set_self] at this
          exact this
        · exact i3 x hmem hx2 hload2
      · intro s
        rcases i4 s with hkeep | ⟨x, hx, hxs, hx2, hl2, hn2⟩
        · by_cases hs : s = sd.ShardId
          · right
            refine ⟨sd, List.mem_cons_self _ _, hs.symm, h, hh, ?_⟩
            simp only [NonceMap.get, hkeep]
            simp [NonceMap.set, hs]
          · left
            rw [hkeep]
            simp [NonceMap.set, hs]
        · exact Or.inr ⟨x, List.mem_cons_of_mem _ hx, hxs, hx2, hl2, hn2⟩
      · intro hp
        apply i5
        intro s v hv
        by_cases hs : s = sd.ShardId
        · simp only [NonceMap.set, hs, if_true, Option.some.injEq] at hv
          omega
        · simp only [NonceMap.set, hs, if_false] at hv
          exact hp s v hv
    · rw [if_neg hgt]
      obtain ⟨i1, i2, i3, i4, i5⟩ := ih m hrest
      refine ⟨i1, i2, ?_, ?_, i5⟩
      · intro x hx hx2 hload2
        rcases List.mem_cons.mp hx with heq | hmem
        · subst heq
          rw [hh] at hload2
          simp only [Except.ok.injEq] at hload2
          subst hload2
          have := i2 x.ShardId
          omega
        · exact i3 x hmem hx2 hload2
      · intro s
        rcases i4 s with hkeep | ⟨x, hx, hxs, hx2, hl2, hn2⟩
        · exact Or.inl hkeep
        · exact Or.inr ⟨x, List.mem_cons_of_mem _ hx, hxs, hx2, hl2, hn2⟩

/-- Characterisation of the result of `getMaxNotarizedHeadersNoncesInMetaBlock`
when every referenced shard header can be loaded. -/
theorem getMax_spec (cfg : ScanEnv) (metaBlock : MetaBlock)
    (hload : ∀ sd, sd ∈ metaBlock.ShardInfo →
      ∃ h, cfg.GetShardHeaderFromStorage sd.HeaderHash = .ok h) :
    (getMaxNotarizedHeadersNoncesInMetaBlock cfg metaBlock).2 = none ∧
    (∀ s,
      (∀ sd, sd ∈ metaBlock.ShardInfo → sd.ShardId = s →
        ∀ h, cfg.GetShardHeaderFromStorage sd.HeaderHash = .ok h →
          h.Nonce ≤ (getMaxNotarizedHeadersNoncesInMetaBlock cfg metaBlock).1.get s) ∧
      ((getMaxNotarizedHeadersNoncesInMetaBlock cfg metaBlock).1.get s = 0 ∨
        ∃ sd, sd ∈ metaBlock.ShardInfo ∧ sd.ShardId = s ∧
          ∃ h, cfg.GetShardHeaderFromStorage sd.HeaderHash = .ok h ∧
            h.Nonce = (getMaxNotarizedHeadersNoncesInMetaBlock cfg metaBlock).1.get s) ∧
      ((getMaxNotarizedHeadersNoncesInMetaBlock cfg metaBlock).1 s = none ↔
        (getMaxNotarizedHeadersNoncesInMetaBlock cfg metaBlock).1.get s = 0)) := by
  obtain ⟨i1, _, i3, i4, i5⟩ := maxNonceLoop_spec cfg metaBlock.ShardInfo NonceMap.empty hload
  have hpos := i5 (fun s v hv => by simp [NonceMap.empty] at hv)
  refine ⟨i1, fun s => ⟨?_, ?_, ?_⟩⟩
  · intro sd hsd hs h hl
    subst hs
    exact i3 sd hsd h hl
  · rcases i4 s with hkeep | hex
    · left
      show (maxNonceLoop cfg metaBlock.ShardInfo NonceMap.empty).1.get s = 0
      simp [NonceMap.get, hkeep, NonceMap.empty]
    · exact Or.inr hex
  · show (maxNonceLoop cfg metaBlock.ShardInfo NonceMap.empty).1 s = none ↔
      (maxNonceLoop cfg metaBlock.ShardInfo NonceMap.empty).1.get s = 0
    constructor
    · intro hn
      simp [NonceMap.get, hn]
    · intro hz
      cases hv : (maxNonceLoop cfg metaBlock.ShardInfo NonceMap.empty).1 s with
      | none => rfl
      | some v =>
        have := hpos s v hv
        simp only [NonceMap.get, hv, Option.getD_some] at hz
        omega

/-- C16: when every shard header referenced by the metablock can be loaded,
`getMaxNotarizedHeadersNoncesInMetaBlock` returns no error and a map that
gives, for every shard id `s`, the maximum nonce of the shard headers
referenced by the `ShardInfo` records with `ShardId` `s`: an upper bound of
those nonces that is one of them, or 0 with no entry in the map when there is
no such record or all those headers have nonce 0.  The result is the same for
every reordering of the records. -/
theorem getMax_is_maximum_per_shard (cfg : ScanEnv) (metaBlock : MetaBlock)
    (hload : ∀ sd, sd ∈ metaBlock.ShardInfo →
      ∃ h, cfg.GetShardHeaderFromStorage sd.HeaderHash = .ok h) :
    (getMaxNotarizedHeadersNoncesInMetaBlock cfg metaBlock).2 = none ∧
    (∀ s,
      (∀ sd, sd ∈ metaBlock.ShardInfo → sd.ShardId = s →
        ∀ h, cfg.GetShardHeaderFromStorage sd.HeaderHash = .ok h →
          h.Nonce ≤ (getMaxNotarizedHeadersNoncesInMetaBlock cfg metaBlock).1.get s) ∧
      ((getMaxNotarizedHeadersNoncesInMetaBlock cfg metaBlock).1.get s = 0 ∨
        ∃ sd, sd ∈ metaBlock.ShardInfo ∧ sd.ShardId = s ∧
          ∃ h, cfg.GetShardHeaderFromStorage sd.HeaderHash = .ok h ∧
            h.Nonce = (getMaxNotarizedHeadersNoncesInMetaBlock cfg metaBlock).1.get s) ∧
      ((getMaxNotarizedHeadersNoncesInMetaBlock cfg metaBlock).1 s = none ↔
        (getMaxNotarizedHeadersNoncesInMetaBlock cfg metaBlock).1.get s = 0)) ∧
    (∀ records : List ShardData, records.Perm metaBlock.ShardInfo →
      getMaxNotarizedHeadersNoncesInMetaBlock cfg { metaBlock with ShardInfo := records } =
        getMaxNotarizedHeadersNoncesInMetaBlock cfg metaBlock) := by
  obtain ⟨herr, hchar⟩ := getMax_spec cfg metaBlock hload
  refine ⟨herr, hchar, fun records hperm => ?_⟩
  have hload2 : ∀ sd, sd ∈ ({ metaBlock with ShardInfo := records } : MetaBlock).ShardInfo →
      ∃ h, cfg.GetShardHeaderFromStorage sd.HeaderHash = .ok h :=
    fun sd hsd => hload sd (hperm.mem_iff.mp hsd)
  obtain ⟨herr2, hchar2⟩ := getMax_spec cfg { metaBlock with ShardInfo := records } hload2
  have hget : ∀ s,
      (getMaxNotarizedHeadersNoncesInMetaBlock cfg
        { metaBlock with ShardInfo := records }).1.get s =
      (getMaxNotarizedHeadersNoncesInMetaBlock cfg metaBlock).1.get s := by
    intro s
    obtain ⟨u1, a1, _⟩ := hchar s
    obtain ⟨u2, a2, _⟩ := hchar2 s
    apply Nat.le_antisymm
    · rcases a2 with hz | ⟨sd, hsd, hs, h, hl, hn⟩
      · omega
      · rw [← hn]
        exact u1 sd (hperm.mem_iff.mp hsd) hs h hl
    · rcases a1 with hz | ⟨sd, hsd, hs, h, hl, hn⟩
      · omega
      · rw [← hn]
        exact u2 sd (hperm.mem_iff.mpr hsd) hs h hl
  have hmap :
      (getMaxNotarizedHeadersNoncesInMetaBlock cfg { metaBlock with ShardInfo := records }).1 =
      (getMaxNotarizedHeadersNoncesInMetaBlock cfg metaBlock).1 := by
    funext s
    have hg := hget s
    have n1 := (hchar s).2.2
    have n2 := (hchar2 s).2.2
    cases hv1 : (getMaxNotarizedHeadersNoncesInMetaBlock cfg metaBlock).1 s with
    | none =>
      rw [n2, hg]
      exact n1.mp hv1
    | some v =>
      cases hv2 : (getMaxNotarizedHeadersNoncesInMetaBlock cfg
          { metaBlock with ShardInfo := records }).1 s with
      | none =>
        have hz := n2.mp hv2
        rw [hg] at hz
        have := n1.mpr hz
        rw [hv1] at this
        simp at this
      | some w =>
        simp only [NonceMap.get, hv1, hv2, Option.getD_some] at hg
        rw [hg]
  exact Prod.ext hmap (by rw [herr, herr2])

theorem getMax_is_maximum_per_shard_witness :
    (getMaxNotarizedHeadersNoncesInMetaBlock sampleScanEnv (sampleMeta 45)).2 = none ∧
    (∀ s,
      (∀ sd, sd ∈ (sampleMeta 45).ShardInfo → sd.ShardId = s →
        ∀ h, sampleScanEnv.GetShardHeaderFromStorage sd.HeaderHash = .ok h →
          h.Nonce ≤ (getMaxNotarizedHeadersNoncesInMetaBlock sampleScanEnv (sampleMeta 45)).1.get s) ∧
      ((getMaxNotarizedHeadersNoncesInMetaBlock sampleScanEnv (sampleMeta 45)).1.get s = 0 ∨
        ∃ sd, sd ∈ (sampleMeta 45).ShardInfo ∧ sd.ShardId = s ∧
          ∃ h, sampleScanEnv.GetShardHeaderFromStorage sd.HeaderHash = .ok h ∧
            h.Nonce =
              (getMaxNotarizedHeadersNoncesInMetaBlock sampleScanEnv (sampleMeta 45)).1.get s) ∧
      ((getMaxNotarizedHeadersNoncesInMetaBlock sampleScanEnv (sampleMeta 45)).1 s = none ↔
        (getMaxNotarizedHeadersNoncesInMetaBlock sampleScanEnv (sampleMeta 45)).1.get s = 0)) ∧
    (∀ records : List ShardData, records.Perm (sampleMeta 45).ShardInfo →
      getMaxNotarizedHeadersNoncesInMetaBlock sampleScanEnv
          { sampleMeta 45 with ShardInfo := records } =
        getMaxNotarizedHeadersNoncesInMetaBlock sampleScanEnv (sampleMeta 45)) :=
  getMax_is_maximum_per_shard sampleScanEnv (sampleMeta 45) (by
    intro sd hsd
    have hmem : sd = { ShardId := 0, HeaderHash := some [0, 3] } ∨
        sd = { ShardId := 0, HeaderHash := some [0, 5] } := by
      simpa [sampleMeta] using hsd
    rcases hmem with h | h <;> subst h <;> exact ⟨_, rfl⟩)

/-! ## Histories of one synchronization attempt -/

theorem Within.same (ek : List EventKind) (rk : List ReadKind) (ck : List CallKind)
    (s : MetaBootstrap) : Within ek rk ck s s :=
  { genesisHeader := rfl, isForkDetected := rfl, forkNonce := rfl, forkHash := rfl,
    trace := ⟨[], by simp⟩, reads := ⟨[], by simp⟩, calls := ⟨[], by simp⟩ }

theorem Within.append {ek1 ek2 : List EventKind} {rk1 rk2 : List ReadKind}
    {ck1 ck2 : List CallKind} {s t u : MetaBootstrap}
    (h1 : Within ek1 rk1 ck1 s t) (h2 : Within ek2 rk2 ck2 t u) :
    Within (ek1 ++ ek2) (rk1 ++ rk2) (ck1 ++ ck2) s u := by
  obtain ⟨es1, he1, hes1⟩ := h1.trace
  obtain ⟨es2, he2, hes2⟩ := h2.trace
  obtain ⟨rs1, hr1, hrs1⟩ := h1.reads
  obtain ⟨rs2, hr2, hrs2⟩ := h2.reads
  obtain ⟨cs1, hc1, hcs1⟩ := h1.calls
  obtain ⟨cs2, hc2, hcs2⟩ := h2.calls
  refine
    { genesisHeader := h2.genesisHeader.trans h1.genesisHeader
      isForkDetected := h2.isForkDetected.trans h1.isForkDetected
      forkNonce := h2.forkNonce.trans h1.forkNonce
      forkHash := h2.forkHash.trans h1.forkHash
      trace := ⟨es1 ++ es2, by rw [he2, he1, List.append_assoc], ?_⟩
      reads := ⟨rs1 ++ rs2, by rw [hr2, hr1, List.append_assoc], ?_⟩
      calls := ⟨cs1 ++ cs2, by rw [hc2, hc1, List.append_assoc], ?_⟩ }
  · intro e he
    rcases List.mem_append.mp he with h | h
    · exact List.mem_append_left _ (hes1 e h)
    · exact List.mem_append_right _ (hes2 e h)
  · intro e he
    rcases List.mem_append.mp he with h | h
    · exact List.mem_append_left _ (hrs1 e h)
    · exact List.mem_append_right _ (hrs2 e h)
  · intro e he
    rcases List.mem_append.mp he with h | h
    · exact List.mem_append_left _ (hcs1 e h)
    · exact List.mem_append_right _ (hcs2 e h)

theorem Within.mono {ek ek1 : List EventKind} {rk rk1 : List ReadKind}
    {ck ck1 : List CallKind} {s t : MetaBootstrap} (h : Within ek rk ck s t)
    (he : ∀ k, k ∈ ek → k ∈ ek1) (hr : ∀ k, k ∈ rk → k ∈ rk1) (hc : ∀ k, k ∈ ck → k ∈ ck1) :
    Within ek1 rk1 ck1 s t := by
  obtain ⟨es, h1, h2⟩ := h.trace
  obtain ⟨rs, h3, h4⟩ := h.reads
  obtain ⟨cs, h5, h6⟩ := h.calls
  exact
    { genesisHeader := h.genesisHeader, isForkDetected := h.isForkDetected,
      forkNonce := h.forkNonce, forkHash := h.forkHash,
      trace := ⟨es, h1, fun e hm => he _ (h2 e hm)⟩,
      reads := ⟨rs, h3, fun e hm => hr _ (h4 e hm)⟩,
      calls := ⟨cs, h5, fun e hm => hc _ (h6 e hm)⟩ }

theorem kind_of_isRollbackStep (e : Event) (h : e.isRollbackStep = true) :
    e.kind = EventKind.rollbackStep := by
  cases e <;> first | rfl | simp [Event.isRollbackStep] at h

theorem kind_of_isStorerGet (r : Read) (h : r.isStorerGet = true) :
    r.kind = ReadKind.storer := by
  cases r <;> first | rfl | simp [Read.isStorerGet] at h

theorem kind_of_isRollback (c : Call) (h : c.isRollback = true) :
    c.kind = CallKind.rollback := by
  cases c <;> first | rfl | simp [Call.isRollback] at h

theorem Within.of_rollbackFrame {s t : MetaBootstrap} (h : RollbackFrame s t) :
    Within [EventKind.rollbackStep] [ReadKind.storer] [CallKind.rollback] s t := by
  obtain ⟨es, h1, h2⟩ := h.trace
  obtain ⟨rs, h3, h4⟩ := h.reads
  obtain ⟨cs, h5, h6⟩ := h.calls
  exact
    { genesisHeader := h.genesisHeader, isForkDetected := h.isForkDetected,
      forkNonce := h.forkNonce, forkHash := h.forkHash,
      trace := ⟨es, h1, fun e hm => by simp [kind_of_isRollbackStep e (h2 e hm)]⟩,
      reads := ⟨rs, h3, fun e hm => by simp [kind_of_isStorerGet e (h4 e hm)]⟩,
      calls := ⟨cs, h5, fun e hm => by simp [kind_of_isRollback e (h6 e hm)]⟩ }

theorem Within.emit (s : MetaBootstrap) (e : Event) :
    Within [e.kind] [] [] s (s.emit e) :=
  { genesisHeader := rfl, isForkDetected := rfl, forkNonce := rfl, forkHash := rfl,
    trace := ⟨[e], rfl, by simp⟩, reads := ⟨[], by simp [MetaBootstrap.emit]⟩,
    calls := ⟨[], by simp [MetaBootstrap.emit]⟩ }

theorem Within.enter (s : MetaBootstrap) (c : Call) :
    Within [] [] [c.kind] s (s.enter c) :=
  { genesisHeader := rfl, isForkDetected := rfl, forkNonce := rfl, forkHash := rfl,
    trace := ⟨[], by simp [MetaBootstrap.enter]⟩, reads := ⟨[], by simp [MetaBootstrap.enter]⟩,
    calls := ⟨[c], rfl, by simp⟩ }

theorem forkChoice_within (env : Env) (rev : Bool) (fuel : Nat) (s t : MetaBootstrap)
    (r : Option Err) (h : forkChoice env rev fuel s = some (r, t)) :
    Within [EventKind.rollbackStep] [ReadKind.storer] [CallKind.forkChoice, CallKind.rollback]
      s t ∧
    t.headerNonce = s.headerNonce ∧ t.headerhash = s.headerhash := by
  have hfr := forkChoice_frame env rev fuel s t r h
  refine ⟨?_, hfr.headerNonce, hfr.headerhash⟩
  exact ((Within.enter s (Call.forkChoice rev)).append (Within.of_rollbackFrame hfr)).mono
    (by simp) (by simp) (by simp [Call.kind])

theorem getHeaderWithNonceRequestingIfMissing_state (env : Env) (nonce : Nat)
    (s : MetaBootstrap) :
    ∃ (mk : Option Nat) (es : List Event) (rs : List Read),
      (getHeaderWithNonceRequestingIfMissing env nonce s).2 =
        { s with headerNonce := mk
                 trace := s.trace ++ es
                 reads := s.reads ++ Read.GetMetaHeaderFromPoolWithNonce nonce :: rs } ∧
      (∀ e, e ∈ es → e.kind = EventKind.nonceRequest) ∧
      (∀ r, r ∈ rs → r.kind = ReadKind.poolByNonce) := by
  unfold getHeaderWithNonceRequestingIfMissing
  simp only []
  split
  · refine ⟨s.headerNonce, [], [], ?_, by simp, by simp⟩
    simp [MetaBootstrap.look]
  · split
    · refine ⟨(env.waitForHeaderNonce (requestHeaderWithNonce env nonce
        ((s.look (Read.GetMetaHeaderFromPoolWithNonce nonce)).emit
          Event.EmptyChannelRcvHdrNonce))).2, [Event.EmptyChannelRcvHdrNonce, Event.RequestDataFromNonce nonce,
        Event.waitForHeaderNonce], [], ?_, ?_, by simp⟩
      · simp [MetaBootstrap.look, MetaBootstrap.emit, requestHeaderWithNonce,
          setRequestedHeaderNonce]
      · intro e he
        simp only [List.mem_cons, List.mem_singleton, List.mem_nil_iff, or_false] at he
        rcases he with h | h | h <;> subst h <;> rfl
    · split
      · refine ⟨(env.waitForHeaderNonce (requestHeaderWithNonce env nonce
        ((s.look (Read.GetMetaHeaderFromPoolWithNonce nonce)).emit
          Event.EmptyChannelRcvHdrNonce))).2, [Event.EmptyChannelRcvHdrNonce, Event.RequestDataFromNonce nonce,
          Event.waitForHeaderNonce], [Read.GetMetaHeaderFromPoolWithNonce nonce], ?_, ?_, ?_⟩
        · simp [MetaBootstrap.look, MetaBootstrap.emit, requestHeaderWithNonce,
            setRequestedHeaderNonce]
        · intro e he
          simp only [List.mem_cons, List.mem_singleton, List.mem_nil_iff, or_false] at he
          rcases he with h | h | h <;> subst h <;> rfl
        · intro r hr
          simp only [List.mem_singleton] at hr
          subst hr
          rfl
      · refine ⟨(env.waitForHeaderNonce (requestHeaderWithNonce env nonce
        ((s.look (Read.GetMetaHeaderFromPoolWithNonce nonce)).emit
          Event.EmptyChannelRcvHdrNonce))).2, [Event.EmptyChannelRcvHdrNonce, Event.RequestDataFromNonce nonce,
          Event.waitForHeaderNonce], [Read.GetMetaHeaderFromPoolWithNonce nonce], ?_, ?_, ?_⟩
        · simp [MetaBootstrap.look, MetaBootstrap.emit, requestHeaderWithNonce,
            setRequestedHeaderNonce]
        · intro e he
          simp only [List.mem_cons, List.mem_singleton, List.mem_nil_iff, or_false] at he
          rcases he with h | h | h <;> subst h <;> rfl
        · intro r hr
          simp only [List.mem_singleton] at hr
          subst hr
          rfl

theorem getHeaderWithHashRequestingIfMissing_state (env : Env) (hash : ByteSlice)
    (s : MetaBootstrap) :
    ∃ (mk : ByteSlice) (es : List Event) (rs : List Read),
      (getHeaderWithHashRequestingIfMissing env hash s).2 =
        { s with headerhash := mk
                 trace := s.trace ++ es
                 reads := s.reads ++ Read.GetMetaHeader hash :: rs } ∧
      (∀ e, e ∈ es → e.kind = EventKind.hashRequest) ∧
      (∀ r, r ∈ rs → r.kind = ReadKind.byHash) := by
  unfold getHeaderWithHashRequestingIfMissing
  simp only []
  split
  · refine ⟨s.headerhash, [], [], ?_, by simp, by simp⟩
    simp [MetaBootstrap.look]
  · split
    · refine ⟨(env.waitForHeaderHash (requestHeaderWithHash env hash
        ((s.look (Read.GetMetaHeader hash)).emit Event.EmptyChannelRcvHdrHash))).2,
        [Event.EmptyChannelRcvHdrHash, Event.RequestDataFromHash hash,
        Event.waitForHeaderHash], [], ?_, ?_, by simp⟩
      · simp [MetaBootstrap.look, MetaBootstrap.emit, requestHeaderWithHash,
          setRequestedHeaderHash]
      · intro e he
        simp only [List.mem_cons, List.mem_singleton, List.mem_nil_iff, or_false] at he
        rcases he with h | h | h <;> subst h <;> rfl
    · split
      · refine ⟨(env.waitForHeaderHash (requestHeaderWithHash env hash
        ((s.look (Read.GetMetaHeader hash)).emit Event.EmptyChannelRcvHdrHash))).2,
        [Event.EmptyChannelRcvHdrHash, Event.RequestDataFromHash hash,
          Event.waitForHeaderHash], [Read.GetMetaHeaderFromPool hash], ?_, ?_, ?_⟩
        · simp [MetaBootstrap.look, MetaBootstrap.emit, requestHeaderWithHash,
            setRequestedHeaderHash]
        · intro e he
          simp only [List.mem_cons, List.mem_singleton, List.mem_nil_iff, or_false] at he
          rcases he with h | h | h <;> subst h <;> rfl
        · intro r hr
          simp only [List.mem_singleton] at hr
          subst hr
          rfl
      · refine ⟨(env.waitForHeaderHash (requestHeaderWithHash env hash
        ((s.look (Read.GetMetaHeader hash)).emit Event.EmptyChannelRcvHdrHash))).2,
        [Event.EmptyChannelRcvHdrHash, Event.RequestDataFromHash hash,
          Event.waitForHeaderHash], [Read.GetMetaHeaderFromPool hash], ?_, ?_, ?_⟩
        · simp [MetaBootstrap.look, MetaBootstrap.emit, requestHeaderWithHash,
            setRequestedHeaderHash]
        · intro e he
          simp only [List.mem_cons, List.mem_singleton, List.mem_nil_iff, or_false] at he
          rcases he with h | h | h <;> subst h <;> rfl
        · intro r hr
          simp only [List.mem_singleton] at hr
          subst hr
          rfl

theorem resolveHeader_state (env : Env) (nonce : Nat) (s : MetaBootstrap) :
    ∃ (mkN : Option Nat) (mkH : ByteSlice) (es : List Event) (first : Read) (rs : List Read),
      (resolveHeader env nonce s).2 =
        { s with headerNonce := mkN
                 headerhash := mkH
                 trace := s.trace ++ es
                 reads := s.reads ++ first :: rs } ∧
      (s.isForkDetected = true →
        first = Read.GetMetaHeader s.forkHash ∧ mkN = s.headerNonce ∧
        (∀ e, e ∈ es → e.kind = EventKind.hashRequest) ∧
        (∀ r, r ∈ rs → r.kind = ReadKind.byHash)) ∧
      (s.isForkDetected = false →
        first = Read.GetMetaHeaderFromPoolWithNonce nonce ∧ mkH = s.headerhash ∧
        (∀ e, e ∈ es → e.kind = EventKind.nonceRequest) ∧
        (∀ r, r ∈ rs → r.kind = ReadKind.poolByNonce)) := by
  unfold resolveHeader
  by_cases hf : s.isForkDetected = true
  · obtain ⟨mk, es, rs, h1, h2, h3⟩ :=
      getHeaderWithHashRequestingIfMissing_state env s.forkHash s
    refine ⟨s.headerNonce, mk, es, Read.GetMetaHeader s.forkHash, rs, ?_,
      fun _ => ⟨rfl, rfl, h2, h3⟩, fun h => by rw [h] at hf; simp at hf⟩
    rw [if_pos hf, h1]
  · obtain ⟨mk, es, rs, h1, h2, h3⟩ :=
      getHeaderWithNonceRequestingIfMissing_state env nonce s
    refine ⟨mk, s.headerhash, es, Read.GetMetaHeaderFromPoolWithNonce nonce, rs, ?_,
      fun h => absurd h hf, fun _ => ⟨rfl, rfl, h2, h3⟩⟩
    rw [if_neg hf, h1]

/-- The three calls after a successful header resolution, as far as they go. -/
theorem syncBlockAttempt_state (env : Env) (nonce : Nat) (s t : MetaBootstrap)
    (hdr : Option MetaBlock) (err : Option Err)
    (h : syncBlockAttempt env nonce s = (hdr, err, t)) :
    ∃ tail : List Event,
      t.trace = (resolveHeader env nonce s).2.trace ++ tail ∧
      t.reads = (resolveHeader env nonce s).2.reads ∧
      t.calls = (resolveHeader env nonce s).2.calls ∧
      t.headerNonce = (resolveHeader env nonce s).2.headerNonce ∧
      t.headerhash = (resolveHeader env nonce s).2.headerhash ∧
      t.isForkDetected = (resolveHeader env nonce s).2.isForkDetected ∧
      t.forkNonce = (resolveHeader env nonce s).2.forkNonce ∧
      t.forkHash = (resolveHeader env nonce s).2.forkHash ∧
      t.genesisHeader = (resolveHeader env nonce s).2.genesisHeader ∧
      ((∃ e, (resolveHeader env nonce s).1 = .error e ∧ hdr = none ∧ err = some e ∧
          tail = [Event.ResetProbableHighestNonceIfNeeded]) ∨
        (∃ b, (resolveHeader env nonce s).1 = .ok b ∧ hdr = some b ∧
          ((∃ e,
              env.ProcessBlock
                ((resolveHeader env nonce s).2.emit
                  (Event.goRequestHeadersFromNonceIfMissing ((b.Nonce + 1) % 2 ^ 64))).view b =
                some e ∧
              err = some e ∧
              tail = [Event.goRequestHeadersFromNonceIfMissing ((b.Nonce + 1) % 2 ^ 64),
                      Event.ProcessBlock b]) ∨
            (env.ProcessBlock
                ((resolveHeader env nonce s).2.emit
                  (Event.goRequestHeadersFromNonceIfMissing ((b.Nonce + 1) % 2 ^ 64))).view b =
                none ∧
              tail = [Event.goRequestHeadersFromNonceIfMissing ((b.Nonce + 1) % 2 ^ 64),
                      Event.ProcessBlock b, Event.CommitBlock b] ∧
              ((∃ e,
                  env.CommitBlock
                    (((resolveHeader env nonce s).2.emit
                      (Event.goRequestHeadersFromNonceIfMissing
                        ((b.Nonce + 1) % 2 ^ 64))).emit (Event.ProcessBlock b)).view b =
                    .error e ∧
                  err = some e) ∨
                (∃ x,
                  env.CommitBlock
                    (((resolveHeader env nonce s).2.emit
                      (Event.goRequestHeadersFromNonceIfMissing
                        ((b.Nonce + 1) % 2 ^ 64))).emit (Event.ProcessBlock b)).view b =
                    .ok x ∧
                  err = none)))))) := by
  have heq : syncBlockAttempt env nonce s =
      (match resolveHeader env nonce s with
      | (.error err, s1) => (none, some err, s1.emit Event.ResetProbableHighestNonceIfNeeded)
      | (.ok hdr, s1) =>
        match env.ProcessBlock
            (s1.emit (Event.goRequestHeadersFromNonceIfMissing
              ((hdr.Nonce + 1) % 2 ^ 64))).view hdr with
        | some err =>
          (some hdr, some err,
            (s1.emit (Event.goRequestHeadersFromNonceIfMissing
              ((hdr.Nonce + 1) % 2 ^ 64))).emit (Event.ProcessBlock hdr))
        | none =>
          match env.CommitBlock
              ((s1.emit (Event.goRequestHeadersFromNonceIfMissing
                ((hdr.Nonce + 1) % 2 ^ 64))).emit (Event.ProcessBlock hdr)).view hdr with
          | .error err =>
            (some hdr, some err,
              ((s1.emit (Event.goRequestHeadersFromNonceIfMissing
                ((hdr.Nonce + 1) % 2 ^ 64))).emit (Event.ProcessBlock hdr)).emit
                  (Event.CommitBlock hdr))
          | .ok (head, hash) =>
            (some hdr, none,
              { ((s1.emit (Event.goRequestHeadersFromNonceIfMissing
                  ((hdr.Nonce + 1) % 2 ^ 64))).emit (Event.ProcessBlock hdr)) with
                currentBlockHeader := head
                currentBlockHeaderHash := hash
                trace := ((s1.emit (Event.goRequestHeadersFromNonceIfMissing
                  ((hdr.Nonce + 1) % 2 ^ 64))).emit (Event.ProcessBlock hdr)).trace ++
                    [Event.CommitBlock hdr]
                requestsWithTimeout := 0 })) := rfl
  rw [heq] at h
  rcases hres : resolveHeader env nonce s with ⟨e | b, u⟩
  · rw [hres] at h
    simp only [Prod.mk.injEq] at h
    obtain ⟨h1, h2, h3⟩ := h
    subst h1 h2 h3
    exact ⟨_, rfl, rfl, rfl, rfl, rfl, rfl, rfl, rfl, rfl, Or.inl ⟨e, rfl, rfl, rfl, rfl⟩⟩
  · rw [hres] at h
    simp only [] at h
    cases hp : env.ProcessBlock
        (u.emit (Event.goRequestHeadersFromNonceIfMissing ((b.Nonce + 1) % 2 ^ 64))).view b with
    | some e =>
      rw [hp] at h
      simp only [Prod.mk.injEq] at h
      obtain ⟨h1, h2, h3⟩ := h
      subst h1 h2 h3
      refine ⟨[Event.goRequestHeadersFromNonceIfMissing ((b.Nonce + 1) % 2 ^ 64),
        Event.ProcessBlock b], by simp [MetaBootstrap.emit], rfl, rfl, rfl, rfl, rfl, rfl, rfl,
        rfl, Or.inr ⟨b, rfl, rfl, Or.inl ⟨e, hp, rfl, rfl⟩⟩⟩
    | none =>
      rw [hp] at h
      simp only [] at h
      cases hc : env.CommitBlock
          ((u.emit (Event.goRequestHeadersFromNonceIfMissing
            ((b.Nonce + 1) % 2 ^ 64))).emit (Event.ProcessBlock b)).view b with
      | error e =>
        rw [hc] at h
        simp only [Prod.mk.injEq] at h
        obtain ⟨h1, h2, h3⟩ := h
        subst h1 h2 h3
        refine ⟨[Event.goRequestHeadersFromNonceIfMissing ((b.Nonce + 1) % 2 ^ 64),
          Event.ProcessBlock b, Event.CommitBlock b], by simp [MetaBootstrap.emit], rfl, rfl,
          rfl, rfl, rfl, rfl, rfl, rfl,
          Or.inr ⟨b, rfl, rfl, Or.inr ⟨hp, rfl, Or.inl ⟨e, hc, rfl⟩⟩⟩⟩
      | ok x =>
        rw [hc] at h
        simp only [Prod.mk.injEq] at h
        obtain ⟨h1, h2, h3⟩ := h
        subst h1 h2 h3
        refine ⟨[Event.goRequestHeadersFromNonceIfMissing ((b.Nonce + 1) % 2 ^ 64),
          Event.ProcessBlock b, Event.CommitBlock b], by simp [MetaBootstrap.emit], rfl, rfl,
          rfl, rfl, rfl, rfl, rfl, rfl,
          Or.inr ⟨b, rfl, rfl, Or.inr ⟨hp, rfl, Or.inr ⟨x, hc, rfl⟩⟩⟩⟩

theorem syncBlockFork_cases (env : Env) (fuel : Nat) (s t : MetaBootstrap) (b : Bool)
    (h : syncBlockFork env fuel s = some (b, t)) :
    (s.isForkDetected = false ∧ b = false ∧ t = s) ∨
    (s.isForkDetected = true ∧ (s.forkNonce = MaxUint64 ∧ s.forkHash = none) ∧ b = true ∧
      ∃ e t2, forkChoice env false fuel (s.emit Event.IncrementNumTimesInForkChoice) =
          some (e, t2) ∧
        t = (t2.emit Event.ResetProbableHighestNonce).emit Event.ResetForcedFork) ∨
    (s.isForkDetected = true ∧ ¬ (s.forkNonce = MaxUint64 ∧ s.forkHash = none) ∧ b = false ∧
      ∃ e, forkChoice env true fuel (s.emit Event.IncrementNumTimesInForkChoice) =
        some (e, t)) := by
  unfold syncBlockFork at h
  by_cases hf : s.isForkDetected = true
  · rw [if_pos hf] at h
    simp only [] at h
    by_cases hforced : s.forkNonce = MaxUint64 ∧ s.forkHash = none
    · have hb : (decide (s.forkNonce = MaxUint64) && decide (s.forkHash = none)) = true := by
        simp [hforced.1, hforced.2]
      rw [hb] at h
      simp only [Bool.not_true, if_true] at h
      rcases hfc : forkChoice env false fuel (s.emit Event.IncrementNumTimesInForkChoice)
        with _ | ⟨e, t2⟩
      · rw [hfc] at h; simp at h
      · rw [hfc] at h
        simp only [Option.some.injEq, Prod.mk.injEq] at h
        exact Or.inr (Or.inl ⟨hf, hforced, h.1.symm, e, t2, rfl, h.2.symm⟩)
    · have hb : (decide (s.forkNonce = MaxUint64) && decide (s.forkHash = none)) = false := by
        rw [Bool.eq_false_iff]
        intro hc
        simp only [Bool.and_eq_true, decide_eq_true_eq] at hc
        exact hforced hc
      rw [hb] at h
      simp only [Bool.not_false, Bool.false_eq_true, if_false] at h
      rcases hfc : forkChoice env true fuel (s.emit Event.IncrementNumTimesInForkChoice)
        with _ | ⟨e, t2⟩
      · rw [hfc] at h; simp at h
      · rw [hfc] at h
        simp only [Option.some.injEq, Prod.mk.injEq] at h
        obtain ⟨h1, h2⟩ := h
        subst h2
        exact Or.inr (Or.inr ⟨hf, hforced, h1.symm, e, rfl⟩)
  · rw [if_neg hf] at h
    simp only [Option.some.injEq, Prod.mk.injEq] at h
    refine Or.inl ⟨by simpa using hf, h.1.symm, h.2.symm⟩

theorem SyncBlock_cases (env : Env) (fuel : Nat) (s s1 t : MetaBootstrap) (b : Bool)
    (r : Option Err) (hs : env.ShouldSync s = (b, s1))
    (h : SyncBlock env fuel s = some (r, t)) :
    (b = false ∧ r = none ∧ t = s1) ∨
    (b = true ∧ syncBlockFork env fuel s1 = some (true, t) ∧ r = none) ∨
    (b = true ∧ ∃ s2 hdr err s3,
      syncBlockFork env fuel s1 = some (false, s2) ∧
      syncBlockAttempt env (env.getNonceForNextBlock (stateAtResolution s2))
        (stateAtResolution s2) = (hdr, err, s3) ∧
      ((err = none ∧ r = none ∧ t = s3) ∨
        (∃ e, err = some e ∧ r = some e ∧
          doJobOnSyncBlockFail env fuel hdr e s3 = some t))) := by
  unfold SyncBlock at h
  rw [hs] at h
  cases b with
  | false =>
    simp only [Option.some.injEq, Prod.mk.injEq] at h
    exact Or.inl ⟨rfl, h.1.symm, h.2.symm⟩
  | true =>
    simp only [] at h
    rcases hfork : syncBlockFork env fuel s1 with _ | ⟨_ | _, s2⟩
    · rw [hfork] at h; simp at h
    · rw [hfork] at h
      simp only [] at h
      rcases hatt : syncBlockAttempt env
          (env.getNonceForNextBlock (setRequestedHeaderHash none
            (setRequestedHeaderNonce none s2)))
          (setRequestedHeaderHash none (setRequestedHeaderNonce none s2))
        with ⟨hdr, _ | e, s3⟩
      · rw [hatt] at h
        simp only [Option.some.injEq, Prod.mk.injEq] at h
        exact Or.inr (Or.inr ⟨rfl, s2, hdr, none, s3, rfl, hatt,
          Or.inl ⟨rfl, h.1.symm, h.2.symm⟩⟩)
      · rw [hatt] at h
        simp only [] at h
        rcases hjob : doJobOnSyncBlockFail env fuel hdr e s3 with _ | s4
        · rw [hjob] at h; simp at h
        · rw [hjob] at h
          simp only [Option.some.injEq, Prod.mk.injEq] at h
          refine Or.inr (Or.inr ⟨rfl, s2, hdr, some e, s3, rfl, hatt,
            Or.inr ⟨e, rfl, h.1.symm, ?_⟩⟩)
          rw [hjob, h.2]
    · rw [hfork] at h
      simp only [Option.some.injEq, Prod.mk.injEq] at h
      obtain ⟨h1, h2⟩ := h
      subst h2
      exact Or.inr (Or.inl ⟨rfl, rfl, h1.symm⟩)

theorem forkChoice_calls (env : Env) (rev : Bool) (fuel : Nat) (s t : MetaBootstrap)
    (r : Option Err) (h : forkChoice env rev fuel s = some (r, t)) :
    ∃ cs, t.calls = s.calls ++ Call.forkChoice rev :: cs ∧
      ∀ c, c ∈ cs → c.kind = CallKind.rollback := by
  obtain ⟨cs, h1, h2⟩ := (forkChoice_frame env rev fuel s t r h).calls
  refine ⟨cs, ?_, fun c hc => kind_of_isRollback c (h2 c hc)⟩
  rw [h1]
  simp [MetaBootstrap.enter]

theorem syncBlockFork_within (env : Env) (fuel : Nat) (s t : MetaBootstrap) (b : Bool)
    (h : syncBlockFork env fuel s = some (b, t)) :
    Within [EventKind.metric, EventKind.rollbackStep, EventKind.resetProbable,
        EventKind.resetForcedFork] [ReadKind.storer] [CallKind.forkChoice, CallKind.rollback]
      s t ∧
    t.headerNonce = s.headerNonce ∧ t.headerhash = s.headerhash := by
  rcases syncBlockFork_cases env fuel s t b h with
    ⟨_, _, ht⟩ | ⟨_, _, _, e, t2, hfc, ht⟩ | ⟨_, _, _, e, hfc⟩
  · subst ht
    exact ⟨Within.same _ _ _ _, rfl, rfl⟩
  · obtain ⟨hw, hn, hh⟩ := forkChoice_within env false fuel _ t2 e hfc
    subst ht
    refine ⟨?_, hn, hh⟩
    exact ((((Within.emit s Event.IncrementNumTimesInForkChoice).append hw).append
      (Within.emit t2 Event.ResetProbableHighestNonce)).append
      (Within.emit _ Event.ResetForcedFork)).mono
      (by simp [Event.kind]) (by simp) (by simp)
  · obtain ⟨hw, hn, hh⟩ := forkChoice_within env true fuel _ t e hfc
    refine ⟨?_, hn, hh⟩
    exact ((Within.emit s Event.IncrementNumTimesInForkChoice).append hw).mono
      (by simp [Event.kind]) (by simp) (by simp)

theorem stateBeforeForkChoice_within (env : Env) (hdr : Option MetaBlock) (err : Err)
    (force : Bool) (s : MetaBootstrap) :
    Within [EventKind.removal, EventKind.resetProbable] [] [CallKind.failurePolicy] s
      (stateBeforeForkChoice env hdr err force s) := by
  have htrace : ∀ e, e ∈ removalEvents env hdr s ++
      (if force = true then [Event.ResetProbableHighestNonce] else []) →
      e.kind ∈ [EventKind.removal, EventKind.resetProbable] := by
    intro e he
    rcases List.mem_append.mp he with h1 | h1
    · cases hdr with
      | none => simp [removalEvents] at h1
      | some hd =>
        simp only [removalEvents, List.mem_cons, List.mem_singleton,
          List.mem_nil_iff, or_false] at h1
        rcases h1 with h2 | h2 <;> subst h2 <;> simp [Event.kind]
    · cases force with
      | true =>
        simp only [if_true, List.mem_singleton] at h1
        subst h1
        simp [Event.kind]
      | false => simp at h1
  exact
    { genesisHeader := rfl, isForkDetected := rfl, forkNonce := rfl, forkHash := rfl,
      trace := ⟨removalEvents env hdr s ++
        (if force = true then [Event.ResetProbableHighestNonce] else []),
        by simp only [stateBeforeForkChoice, List.append_assoc], htrace⟩,
      reads := ⟨[], by simp [stateBeforeForkChoice]⟩,
      calls := ⟨[Call.doJobOnSyncBlockFail hdr err], rfl, by simp [Call.kind]⟩ }

theorem doJobOnSyncBlockFail_within (env : Env) (fuel : Nat) (hdr : Option MetaBlock)
    (err : Err) (s t : MetaBootstrap) (h : doJobOnSyncBlockFail env fuel hdr err s = some t) :
    Within [EventKind.removal, EventKind.resetProbable, EventKind.rollbackStep]
      [ReadKind.storer] [CallKind.failurePolicy, CallKind.forkChoice, CallKind.rollback] s t ∧
    t.headerNonce = s.headerNonce ∧ t.headerhash = s.headerhash ∧
    ∃ cs, t.calls = s.calls ++ Call.doJobOnSyncBlockFail hdr err :: cs ∧
      ∀ c, c ∈ cs → c = Call.forkChoice false ∨ c.kind = CallKind.rollback := by
  obtain ⟨c, hc⟩ : ∃ c, c = if err = Err.ErrTimeIsOut then
      (s.requestsWithTimeout + 1) % 2 ^ env.counterBits else s.requestsWithTimeout := ⟨_, rfl⟩
  rw [doJobOnSyncBlockFail_eq env fuel hdr err s c hc] at h
  by_cases hcond : err ≠ Err.ErrTimeIsOut ∨
      (env.MaxRequestsWithTimeoutAllowed ≤ c ∧
        env.IsInProperRound (env.rounderIndex s.view) = true)
  · rw [if_pos hcond] at h
    rcases hfc : forkChoice env false fuel (stateBeforeForkChoice env hdr err
        (decide (env.MaxRequestsWithTimeoutAllowed ≤ c) &&
          env.IsInProperRound (env.rounderIndex s.view)) s) with _ | ⟨r, t2⟩
    · rw [hfc] at h; simp at h
    · rw [hfc] at h
      simp only [Option.map_some', Option.some.injEq] at h
      subst h
      obtain ⟨hw, hn, hh⟩ := forkChoice_within env false fuel _ _ r hfc
      obtain ⟨cs, hcs, hkinds⟩ := forkChoice_calls env false fuel _ _ r hfc
      have hpre := stateBeforeForkChoice_within env hdr err
        (decide (env.MaxRequestsWithTimeoutAllowed ≤ c) &&
          env.IsInProperRound (env.rounderIndex s.view)) s
      refine ⟨(hpre.append hw).mono (by simp) (by simp) (by simp), hn, hh,
        Call.forkChoice false :: cs, ?_, ?_⟩
      · rw [hcs]
        simp [stateBeforeForkChoice]
      · intro c1 hc1
        rcases List.mem_cons.mp hc1 with h1 | h1
        · exact Or.inl h1
        · exact Or.inr (hkinds c1 h1)
  · rw [if_neg hcond] at h
    simp only [Option.some.injEq] at h
    subst h
    refine ⟨{ genesisHeader := rfl, isForkDetected := rfl, forkNonce := rfl, forkHash := rfl,
              trace := ⟨[], by simp⟩, reads := ⟨[], by simp⟩,
              calls := ⟨[Call.doJobOnSyncBlockFail hdr err], rfl, by simp [Call.kind]⟩ },
      rfl, rfl, [], rfl, by simp⟩

/-! ## Forced fork: the number of rollback steps -/

theorem forkChoice_refuses_behind_final_state (env : Env) (fuel : Nat) (s : MetaBootstrap)
    (header : MetaBlock)
    (hhead : s.currentBlockHeader = some (HeaderHandler.metaBlock header))
    (hfinal : header.Nonce ≤ env.GetHighestFinalBlockNonce s.view) :
    forkChoice env false (fuel + 1) s =
      some (some Err.ErrRollBackBehindFinalHeader, s.enter (Call.forkChoice false)) := by
  unfold forkChoice
  rw [forkChoiceLoop_false]
  have hc : getCurrentHeader (s.enter (Call.forkChoice false)) = .ok header := by
    simp [getCurrentHeader, MetaBootstrap.enter, hhead]
  rw [hc, view_enter]
  simp only [hfinal, if_true]

theorem rollbackApply_calls (env : Env) (header : MetaBlock) (newHeader : Option MetaBlock)
    (newHeaderHash newRootHash : ByteSlice) (s : MetaBootstrap) :
    (rollbackApply env header newHeader newHeaderHash newRootHash s).2.calls = s.calls := by
  cases h1 : env.SetCurrentBlockHeader s.view newHeader with
  | some e =>
    rw [rollbackApply_setHeader_fails env header newHeader newHeaderHash newRootHash s e h1]
  | none =>
    cases h2 : env.RecreateTrie (viewAtRecreateTrie s newHeader newHeaderHash) newRootHash with
    | some e =>
      rw [rollbackApply_recreateTrie_fails env header newHeader newHeaderHash newRootHash s e
        h1 h2]
    | none =>
      rw [rollbackApply_succeeds env header newHeader newHeaderHash newRootHash s h1 h2]

theorem rollback_calls (env : Env) (header : MetaBlock) (s : MetaBootstrap) :
    (rollback env header s).2.calls = s.calls ++ [Call.rollback header] := by
  unfold rollback
  simp only []
  split
  · rfl
  · split
    · rfl
    · split
      · rfl
      · split
        · split
          · rename_i hg
            have h := congrArg Prod.snd hg
            rw [getPrevHeader_state] at h
            simp only at h
            rw [← h]
            rfl
          · rename_i hg
            have h := congrArg Prod.snd hg
            rw [getPrevHeader_state] at h
            simp only at h
            rw [rollbackApply_calls, ← h]
            rfl
        · rw [rollbackApply_calls]
          rfl

theorem forkChoice_false_calls (env : Env) (fuel : Nat) (s t : MetaBootstrap) (r : Option Err)
    (h : forkChoice env false (fuel + 1) s = some (r, t)) :
    (∀ header, s.currentBlockHeader = some (HeaderHandler.metaBlock header) →
      env.GetHighestFinalBlockNonce s.view < header.Nonce →
      t.calls = s.calls ++ [Call.forkChoice false, Call.rollback header]) ∧
    (∀ header, s.currentBlockHeader = some (HeaderHandler.metaBlock header) →
      header.Nonce ≤ env.GetHighestFinalBlockNonce s.view →
      r = some Err.ErrRollBackBehindFinalHeader ∧
      t.calls = s.calls ++ [Call.forkChoice false]) ∧
    ((∀ header, s.currentBlockHeader ≠ some (HeaderHandler.metaBlock header)) →
      t.calls = s.calls ++ [Call.forkChoice false]) := by
  unfold forkChoice at h
  rw [forkChoiceLoop_false, view_enter] at h
  simp only [Option.some.injEq] at h
  refine ⟨fun header hhead hlt => ?_, fun header hhead hle => ?_, fun hno => ?_⟩
  · have hc : getCurrentHeader (s.enter (Call.forkChoice false)) = .ok header := by
      simp [getCurrentHeader, MetaBootstrap.enter, hhead]
    rw [hc] at h
    simp only [] at h
    rw [if_neg (by omega)] at h
    have := rollback_calls env header (s.enter (Call.forkChoice false))
    rw [h] at this
    rw [this]
    simp [MetaBootstrap.enter]
  · have hc : getCurrentHeader (s.enter (Call.forkChoice false)) = .ok header := by
      simp [getCurrentHeader, MetaBootstrap.enter, hhead]
    rw [hc] at h
    simp only [] at h
    rw [if_pos hle] at h
    simp only [Prod.mk.injEq] at h
    exact ⟨h.1.symm, by rw [← h.2]; rfl⟩
  · cases hc : getCurrentHeader (s.enter (Call.forkChoice false)) with
    | error e =>
      rw [hc] at h
      simp only [Prod.mk.injEq] at h
      rw [← h.2]
      rfl
    | ok header =>
      exfalso
      unfold getCurrentHeader at hc
      simp only [MetaBootstrap.enter] at hc
      split at hc
      · simp at hc
      · rename_i m hm
        exact hno m hm
      · simp at hc

/-- C11, as stated, fails: with a forced fork pending and a chain head (nonce 3)
that is not above the highest final nonce (4), the attempt executes no rollback
step at all, and still resets the probable highest nonce and the forced-fork
flag and returns nil. -/
theorem forced_fork_without_rollback :
    (SyncBlock sampleEnv 1 (forcedForkState 3 1)).map
        (fun r => (r.1, r.2.calls, r.2.trace, r.2.currentBlockHeader)) =
      some (none, [Call.forkChoice false],
        [Event.IncrementNumTimesInForkChoice, Event.ResetProbableHighestNonce,
          Event.ResetForcedFork],
        some (HeaderHandler.metaBlock (sampleBlock 3))) ∧
    (forcedForkState 3 1).isForkDetected = true ∧
    (forcedForkState 3 1).forkNonce = MaxUint64 ∧
    (forcedForkState 3 1).forkHash = none := by
  refine ⟨by rfl, by rfl, by rfl, by rfl⟩

/-- C11, amended: for every SyncBlock attempt that handles a forced fork
(`forkNonce == MaxUint64`, `forkHash == nil`), at most one rollback step is
executed on the chain head before the probable highest nonce and the
forced-fork flag are reset and the attempt returns nil: `rollback` is entered
exactly once when the chain head is a MetaBlock whose nonce is above the
highest final block nonce, and not at all when the head is a MetaBlock that is
not above it, is nil, or is not a MetaBlock. -/
theorem forced_fork_at_most_one_rollback (env : Env) (fuel : Nat) (s s1 : MetaBootstrap)
    (hs : env.ShouldSync s = (true, s1))
    (hf : s1.isForkDetected = true)
    (hn : s1.forkNonce = MaxUint64)
    (hh : s1.forkHash = none) :
    ∃ t es,
      SyncBlock env (fuel + 1) s = some (none, t) ∧
      t.trace = s1.trace ++ [Event.IncrementNumTimesInForkChoice] ++ es ++
        [Event.ResetProbableHighestNonce, Event.ResetForcedFork] ∧
      (∀ e ∈ es, e.isRollbackStep = true) ∧
      (∀ header, s1.currentBlockHeader = some (HeaderHandler.metaBlock header) →
        env.GetHighestFinalBlockNonce (s1.emit Event.IncrementNumTimesInForkChoice).view <
          header.Nonce →
        t.calls = s1.calls ++ [Call.forkChoice false, Call.rollback header]) ∧
      (∀ header, s1.currentBlockHeader = some (HeaderHandler.metaBlock header) →
        header.Nonce ≤
          env.GetHighestFinalBlockNonce (s1.emit Event.IncrementNumTimesInForkChoice).view →
        t.calls = s1.calls ++ [Call.forkChoice false] ∧ es = []) ∧
      ((∀ header, s1.currentBlockHeader ≠ some (HeaderHandler.metaBlock header)) →
        t.calls = s1.calls ++ [Call.forkChoice false]) := by
  obtain ⟨r, t2, hfc, hfr⟩ := forkChoice_false_total env fuel
    (s1.emit Event.IncrementNumTimesInForkChoice)
  obtain ⟨es, hes, hsteps⟩ := hfr.trace
  obtain ⟨c1, c2, c3⟩ := forkChoice_false_calls env fuel _ t2 r hfc
  refine ⟨(t2.emit Event.ResetProbableHighestNonce).emit Event.ResetForcedFork, es, ?_, ?_,
    hsteps, fun header hhead hlt => c1 header hhead hlt, fun header hhead hle => ?_,
    fun hno => c3 hno⟩
  · unfold SyncBlock
    rw [hs]
    simp only []
    unfold syncBlockFork
    simp only [hf, hn, hh, if_true, decide_True, Bool.and_self, Bool.not_true, hfc]
  · simp [MetaBootstrap.emit, hes, MetaBootstrap.enter]
  · refine ⟨(c2 header hhead hle).2, ?_⟩
    have h1 := forkChoice_refuses_behind_final_state env fuel
      (s1.emit Event.IncrementNumTimesInForkChoice) header hhead hle
    rw [hfc] at h1
    simp only [Option.some.injEq, Prod.mk.injEq] at h1
    rw [h1.2] at hes
    simpa [MetaBootstrap.enter, MetaBootstrap.emit] using hes

theorem forced_fork_at_most_one_rollback_witness :
    ∃ t es,
      SyncBlock sampleEnv 1 (forcedForkState 6 1) = some (none, t) ∧
      t.trace = (forcedForkState 6 1).trace ++ [Event.IncrementNumTimesInForkChoice] ++ es ++
        [Event.ResetProbableHighestNonce, Event.ResetForcedFork] ∧
      (∀ e ∈ es, e.isRollbackStep = true) ∧
      (∀ header,
        (forcedForkState 6 1).currentBlockHeader = some (HeaderHandler.metaBlock header) →
        sampleEnv.GetHighestFinalBlockNonce
            ((forcedForkState 6 1).emit Event.IncrementNumTimesInForkChoice).view <
          header.Nonce →
        t.calls = (forcedForkState 6 1).calls ++
          [Call.forkChoice false, Call.rollback header]) ∧
      (∀ header,
        (forcedForkState 6 1).currentBlockHeader = some (HeaderHandler.metaBlock header) →
        header.Nonce ≤
          sampleEnv.GetHighestFinalBlockNonce
            ((forcedForkState 6 1).emit Event.IncrementNumTimesInForkChoice).view →
        t.calls = (forcedForkState 6 1).calls ++ [Call.forkChoice false] ∧ es = []) ∧
      ((∀ header,
          (forcedForkState 6 1).currentBlockHeader ≠ some (HeaderHandler.metaBlock header)) →
        t.calls = (forcedForkState 6 1).calls ++ [Call.forkChoice false]) :=
  forced_fork_at_most_one_rollback sampleEnv 0 (forcedForkState 6 1) (forcedForkState 6 1)
    rfl rfl rfl rfl

/-! ## Header resolution: the request markers -/

theorem SyncBlock_attempt_shape (env : Env) (fuel : Nat) (s s1 s2 t : MetaBootstrap)
    (r : Option Err) (hs : env.ShouldSync s = (true, s1))
    (hfork : syncBlockFork env fuel s1 = some (false, s2))
    (h : SyncBlock env fuel s = some (r, t)) :
    ∃ hdr s3,
      syncBlockAttempt env (env.getNonceForNextBlock (stateAtResolution s2))
        (stateAtResolution s2) = (hdr, r, s3) ∧
      ((r = none ∧ t = s3) ∨
        (∃ e, r = some e ∧ doJobOnSyncBlockFail env fuel hdr e s3 = some t)) := by
  rcases SyncBlock_cases env fuel s s1 t true r hs h with
    ⟨hb, _⟩ | ⟨_, hf2, _⟩ | ⟨_, s2', hdr, err, s3, hf2, hatt, hafter⟩
  · simp at hb
  · rw [hfork] at hf2
    simp at hf2
  · rw [hfork] at hf2
    simp only [Option.some.injEq, Prod.mk.injEq, true_and] at hf2
    subst hf2
    rcases hafter with ⟨h1, h2, h3⟩ | ⟨e, h1, h2, h3⟩
    · subst h1 h2
      exact ⟨hdr, s3, hatt, Or.inl ⟨rfl, h3⟩⟩
    · subst h1 h2
      exact ⟨hdr, s3, hatt, Or.inr ⟨e, rfl, h3⟩⟩

/-- C13: every SyncBlock attempt that reaches header resolution (`s2` is the
state left by the fork handling) resolves the header in the state
`stateAtResolution s2`, in which the requested-header-nonce marker and the
requested-header-hash marker are both nil, whatever they were before; a
resolution by hash leaves the nonce marker nil and a resolution by nonce leaves
the hash marker nil; the rest of the attempt keeps both markers, so that at
most one of them is set when the attempt ends. -/
theorem SyncBlock_clears_request_markers (env : Env) (fuel : Nat) (s s1 s2 t : MetaBootstrap)
    (r : Option Err) (hs : env.ShouldSync s = (true, s1))
    (hfork : syncBlockFork env fuel s1 = some (false, s2))
    (h : SyncBlock env fuel s = some (r, t)) :
    stateAtResolution s2 = { s2 with headerNonce := none, headerhash := none } ∧
    (stateAtResolution s2).headerNonce = none ∧
    (stateAtResolution s2).headerhash = none ∧
    (s2.isForkDetected = true →
      (resolveHeader env (env.getNonceForNextBlock (stateAtResolution s2))
        (stateAtResolution s2)).2.headerNonce = none) ∧
    (s2.isForkDetected = false →
      (resolveHeader env (env.getNonceForNextBlock (stateAtResolution s2))
        (stateAtResolution s2)).2.headerhash = none) ∧
    t.headerNonce =
      (resolveHeader env (env.getNonceForNextBlock (stateAtResolution s2))
        (stateAtResolution s2)).2.headerNonce ∧
    t.headerhash =
      (resolveHeader env (env.getNonceForNextBlock (stateAtResolution s2))
        (stateAtResolution s2)).2.headerhash ∧
    (t.headerNonce = none ∨ t.headerhash = none) := by
  obtain ⟨hdr, s3, hatt, hafter⟩ := SyncBlock_attempt_shape env fuel s s1 s2 t r hs hfork h
  obtain ⟨tail, _, _, _, hN, hH, _⟩ := syncBlockAttempt_state env _ _ s3 hdr r hatt
  obtain ⟨mkN, mkH, es, first, rs, hu, hyes, hno⟩ :=
    resolveHeader_state env (env.getNonceForNextBlock (stateAtResolution s2))
      (stateAtResolution s2)
  have htN : t.headerNonce = s3.headerNonce := by
    rcases hafter with ⟨_, ht⟩ | ⟨e, _, hjob⟩
    · rw [ht]
    · exact (doJobOnSyncBlockFail_within env fuel hdr e s3 t hjob).2.1
  have htH : t.headerhash = s3.headerhash := by
    rcases hafter with ⟨_, ht⟩ | ⟨e, _, hjob⟩
    · rw [ht]
    · exact (doJobOnSyncBlockFail_within env fuel hdr e s3 t hjob).2.2.1
  have hfy : s2.isForkDetected = true →
      (resolveHeader env (env.getNonceForNextBlock (stateAtResolution s2))
        (stateAtResolution s2)).2.headerNonce = none := by
    intro hf
    rw [hu]
    exact (hyes hf).2.1
  have hfn : s2.isForkDetected = false →
      (resolveHeader env (env.getNonceForNextBlock (stateAtResolution s2))
        (stateAtResolution s2)).2.headerhash = none := by
    intro hf
    rw [hu]
    exact (hno hf).2.1
  refine ⟨rfl, rfl, rfl, hfy, hfn, htN.trans hN, htH.trans hH, ?_⟩
  cases hf : s2.isForkDetected with
  | true => exact Or.inl ((htN.trans hN).trans (hfy hf))
  | false => exact Or.inr ((htH.trans hH).trans (hfn hf))

theorem SyncBlock_clears_request_markers_witness :
    staleState.headerNonce = some 9 ∧ staleState.headerhash = some [9] ∧
    stateAtResolution staleState =
      { staleState with headerNonce := none, headerhash := none } ∧
    (stateAtResolution staleState).headerNonce = none ∧
    (stateAtResolution staleState).headerhash = none ∧
    (staleState.isForkDetected = true →
      (resolveHeader sampleEnv (sampleEnv.getNonceForNextBlock (stateAtResolution staleState))
        (stateAtResolution staleState)).2.headerNonce = none) ∧
    (staleState.isForkDetected = false →
      (resolveHeader sampleEnv (sampleEnv.getNonceForNextBlock (stateAtResolution staleState))
        (stateAtResolution staleState)).2.headerhash = none) ∧
    sampleTimedOut.headerNonce =
      (resolveHeader sampleEnv (sampleEnv.getNonceForNextBlock (stateAtResolution staleState))
        (stateAtResolution staleState)).2.headerNonce ∧
    sampleTimedOut.headerhash =
      (resolveHeader sampleEnv (sampleEnv.getNonceForNextBlock (stateAtResolution staleState))
        (stateAtResolution staleState)).2.headerhash ∧
    (sampleTimedOut.headerNonce = none ∨ sampleTimedOut.headerhash = none) :=
  ⟨rfl, rfl,
    SyncBlock_clears_request_markers sampleEnv 1 staleState staleState staleState
      sampleTimedOut (some Err.ErrTimeIsOut) (by rfl) (by rfl) (by rfl)⟩

/-! ## Histories of an attempt that reaches header resolution -/

theorem SyncBlock_attempt_histories (env : Env) (fuel nonce : Nat) (s1 s2 s3 t : MetaBootstrap)
    (hdr : Option MetaBlock) (r : Option Err) (tail : List Event)
    (hfork : syncBlockFork env fuel s1 = some (false, s2))
    (htrace : s3.trace = (resolveHeader env nonce (stateAtResolution s2)).2.trace ++ tail)
    (hreads : s3.reads = (resolveHeader env nonce (stateAtResolution s2)).2.reads)
    (hcalls : s3.calls = (resolveHeader env nonce (stateAtResolution s2)).2.calls)
    (hafter : (r = none ∧ t = s3) ∨
      (∃ e, r = some e ∧ doJobOnSyncBlockFail env fuel hdr e s3 = some t)) :
    ∃ (es1 es2 es3 : List Event) (rs1 : List Read) (first : Read) (rs2 rs3 : List Read)
      (cs1 cs3 : List Call),
      t.trace = s1.trace ++ (es1 ++ (es2 ++ (tail ++ es3))) ∧
      t.reads = s1.reads ++ (rs1 ++ (first :: rs2 ++ rs3)) ∧
      t.calls = s1.calls ++ (cs1 ++ cs3) ∧
      (resolveHeader env nonce (stateAtResolution s2)).2.trace = s1.trace ++ (es1 ++ es2) ∧
      s2.calls = s1.calls ++ cs1 ∧
      (∀ e, e ∈ es1 → e.kind ∈ [EventKind.metric, EventKind.rollbackStep,
        EventKind.resetProbable, EventKind.resetForcedFork]) ∧
      (∀ x, x ∈ rs1 → x.kind = ReadKind.storer) ∧
      (∀ c, c ∈ cs1 → c.kind ∈ [CallKind.forkChoice, CallKind.rollback]) ∧
      (s2.isForkDetected = true →
        first = Read.GetMetaHeader s2.forkHash ∧
        (∀ e, e ∈ es2 → e.kind = EventKind.hashRequest) ∧
        (∀ x, x ∈ rs2 → x.kind = ReadKind.byHash)) ∧
      (s2.isForkDetected = false →
        first = Read.GetMetaHeaderFromPoolWithNonce nonce ∧
        (∀ e, e ∈ es2 → e.kind = EventKind.nonceRequest) ∧
        (∀ x, x ∈ rs2 → x.kind = ReadKind.poolByNonce)) ∧
      (∀ e, e ∈ es3 → e.kind ∈ [EventKind.removal, EventKind.resetProbable,
        EventKind.rollbackStep]) ∧
      (∀ x, x ∈ rs3 → x.kind = ReadKind.storer) ∧
      ((r = none ∧ cs3 = []) ∨
        (∃ e cs, r = some e ∧ cs3 = Call.doJobOnSyncBlockFail hdr e :: cs ∧
          ∀ c, c ∈ cs → c = Call.forkChoice false ∨ c.kind = CallKind.rollback)) ∧
      s2.trace = s1.trace ++ es1 ∧ s2.reads = s1.reads ++ rs1 := by
  obtain ⟨hw, _, _⟩ := syncBlockFork_within env fuel s1 s2 false hfork
  obtain ⟨es1, hes1, hk1⟩ := hw.trace
  obtain ⟨rs1, hrs1, hr1⟩ := hw.reads
  obtain ⟨cs1, hcs1, hc1⟩ := hw.calls
  obtain ⟨mkN, mkH, es2, first, rs2, hu, hyes, hno⟩ :=
    resolveHeader_state env nonce (stateAtResolution s2)
  have hut : (resolveHeader env nonce (stateAtResolution s2)).2.trace =
      s1.trace ++ (es1 ++ es2) := by
    rw [hu]
    show s2.trace ++ es2 = _
    rw [hes1, List.append_assoc]
  have hur : (resolveHeader env nonce (stateAtResolution s2)).2.reads =
      s1.reads ++ (rs1 ++ first :: rs2) := by
    rw [hu]
    show s2.reads ++ first :: rs2 = _
    rw [hrs1, List.append_assoc]
  have huc : (resolveHeader env nonce (stateAtResolution s2)).2.calls = s1.calls ++ cs1 := by
    rw [hu]
    exact hcs1
  have hr1s : ∀ x, x ∈ rs1 → x.kind = ReadKind.storer := fun x hx => by
    simpa using hr1 x hx
  have hyes2 : s2.isForkDetected = true →
      first = Read.GetMetaHeader s2.forkHash ∧
      (∀ e, e ∈ es2 → e.kind = EventKind.hashRequest) ∧
      (∀ x, x ∈ rs2 → x.kind = ReadKind.byHash) :=
    fun hf => ⟨(hyes hf).1, (hyes hf).2.2.1, (hyes hf).2.2.2⟩
  have hno2 : s2.isForkDetected = false →
      first = Read.GetMetaHeaderFromPoolWithNonce nonce ∧
      (∀ e, e ∈ es2 → e.kind = EventKind.nonceRequest) ∧
      (∀ x, x ∈ rs2 → x.kind = ReadKind.poolByNonce) :=
    fun hf => ⟨(hno hf).1, (hno hf).2.2.1, (hno hf).2.2.2⟩
  rcases hafter with ⟨hr, ht⟩ | ⟨e, hr, hjob⟩
  · refine ⟨es1, es2, [], rs1, first, rs2, [], cs1, [], ?_, ?_, ?_, hut, hcs1, hk1, hr1s, hc1,
      hyes2, hno2, by simp, by simp, Or.inl ⟨hr, rfl⟩, hes1, hrs1⟩
    · rw [ht, htrace, hut]
      simp
    · rw [ht, hreads, hur]
      simp
    · rw [ht, hcalls, huc]
      simp
  · obtain ⟨hw3, _, _, cs, hcs, hck⟩ := doJobOnSyncBlockFail_within env fuel hdr e s3 t hjob
    obtain ⟨es3, hes3, hk3⟩ := hw3.trace
    obtain ⟨rs3, hrs3, hr3⟩ := hw3.reads
    refine ⟨es1, es2, es3, rs1, first, rs2, rs3, cs1, Call.doJobOnSyncBlockFail hdr e :: cs,
      ?_, ?_, ?_, hut, hcs1, hk1, hr1s, hc1, hyes2, hno2, hk3,
      fun x hx => by simpa using hr3 x hx, Or.inr ⟨e, cs, hr, rfl, hck⟩, hes1, hrs1⟩
    · rw [hes3, htrace, hut]
      simp
    · rw [hrs3, hreads, hur]
      simp
    · rw [hcs, hcalls, huc]
      simp

/-! ## Processing and commit -/

theorem not_executor_of_kind_mem {e : Event} {ks : List EventKind}
    (hp : EventKind.processBlock ∉ ks) (hc : EventKind.commitBlock ∉ ks) (h : e.kind ∈ ks) :
    e.kind ≠ EventKind.processBlock ∧ e.kind ≠ EventKind.commitBlock :=
  ⟨fun hk => hp (hk ▸ h), fun hk => hc (hk ▸ h)⟩

/-- C14: in one run of SyncBlock (`es` and `cs` are the calls to collaborators
and the entries into the bootstrapper's own functions made by the run),
CommitBlock is called only in an attempt that resolved a header for which
ProcessBlock returned nil, immediately after that call of ProcessBlock and for
the same header, and both are called at most once; if ProcessBlock fails,
SyncBlock returns that error and CommitBlock is not called; if ProcessBlock
returns nil, CommitBlock is called, and if it fails SyncBlock returns that
error, otherwise nil; SyncBlock returns a non-nil error exactly when
`doJobOnSyncBlockFail` is run, and it is run with that error. -/
theorem SyncBlock_commit_after_process (env : Env) (fuel : Nat) (s s1 t : MetaBootstrap)
    (b : Bool) (r : Option Err) (hs : env.ShouldSync s = (b, s1))
    (h : SyncBlock env fuel s = some (r, t)) :
    ∃ es cs, t.trace = s1.trace ++ es ∧ t.calls = s1.calls ++ cs ∧
      (∀ e, r = some e ↔ ∃ hdr, Call.doJobOnSyncBlockFail hdr e ∈ cs) ∧
      (r = none ↔ ∀ c, c ∈ cs → c.kind ≠ CallKind.failurePolicy) ∧
      (∀ hdr, Event.CommitBlock hdr ∈ es →
        ∃ s2 u pre post,
          b = true ∧ syncBlockFork env fuel s1 = some (false, s2) ∧
          resolveHeader env (env.getNonceForNextBlock (stateAtResolution s2))
            (stateAtResolution s2) = (.ok hdr, u) ∧
          env.ProcessBlock
            (u.emit (Event.goRequestHeadersFromNonceIfMissing
              ((hdr.Nonce + 1) % 2 ^ 64))).view hdr = none ∧
          u.trace = s1.trace ++ pre ∧
          es = pre ++ [Event.goRequestHeadersFromNonceIfMissing ((hdr.Nonce + 1) % 2 ^ 64),
            Event.ProcessBlock hdr, Event.CommitBlock hdr] ++ post ∧
          (∀ e, e ∈ pre ++ post →
            e.kind ≠ EventKind.processBlock ∧ e.kind ≠ EventKind.commitBlock)) ∧
      (∀ s2 hdr u, b = true → syncBlockFork env fuel s1 = some (false, s2) →
        resolveHeader env (env.getNonceForNextBlock (stateAtResolution s2))
          (stateAtResolution s2) = (.ok hdr, u) →
        (∀ e,
          env.ProcessBlock
            (u.emit (Event.goRequestHeadersFromNonceIfMissing
              ((hdr.Nonce + 1) % 2 ^ 64))).view hdr = some e →
          r = some e ∧ Event.ProcessBlock hdr ∈ es ∧ ∀ h2, Event.CommitBlock h2 ∉ es) ∧
        (env.ProcessBlock
            (u.emit (Event.goRequestHeadersFromNonceIfMissing
              ((hdr.Nonce + 1) % 2 ^ 64))).view hdr = none →
          Event.CommitBlock hdr ∈ es ∧
          (∀ e,
            env.CommitBlock
              ((u.emit (Event.goRequestHeadersFromNonceIfMissing
                ((hdr.Nonce + 1) % 2 ^ 64))).emit (Event.ProcessBlock hdr)).view hdr =
              .error e → r = some e) ∧
          (∀ x,
            env.CommitBlock
              ((u.emit (Event.goRequestHeadersFromNonceIfMissing
                ((hdr.Nonce + 1) % 2 ^ 64))).emit (Event.ProcessBlock hdr)).view hdr =
              .ok x → r = none))) := by
  rcases SyncBlock_cases env fuel s s1 t b r hs h with
    ⟨hb, hr, ht⟩ | ⟨hb, hfork, hr⟩ | ⟨hb, s2, hdr0, err, s3, hfork, hatt, hafter0⟩
  · subst hb hr ht
    refine ⟨[], [], by simp, by simp, by simp, by simp, by simp, ?_⟩
    intro s2 hdr u hb
    simp at hb
  · subst hr
    obtain ⟨hw, _, _⟩ := syncBlockFork_within env fuel s1 t true hfork
    obtain ⟨es, hes, hk⟩ := hw.trace
    obtain ⟨cs, hcs, hc⟩ := hw.calls
    refine ⟨es, cs, hes, hcs, ?_, ?_, ?_, ?_⟩
    · intro e
      constructor
      · intro he
        simp at he
      · rintro ⟨hdr, hmem⟩
        have := hc _ hmem
        simp [Call.kind] at this
    · constructor
      · intro _ c hmem hkind
        have := hc c hmem
        rw [hkind] at this
        simp at this
      · intro _
        rfl
    · intro hdr hmem
      have := hk _ hmem
      simp [Event.kind] at this
    · intro s2 hdr u _ hf2
      rw [hfork] at hf2
      simp at hf2
  · have hafter : (r = none ∧ t = s3) ∨
        (∃ e, r = some e ∧ doJobOnSyncBlockFail env fuel hdr0 e s3 = some t) := by
      rcases hafter0 with ⟨_, h2, h3⟩ | ⟨e, _, h2, h3⟩
      · exact Or.inl ⟨h2, h3⟩
      · exact Or.inr ⟨e, h2, h3⟩
    have herr : err = r := by
      rcases hafter0 with ⟨h1, h2, _⟩ | ⟨e, h1, h2, _⟩
      · rw [h1, h2]
      · rw [h1, h2]
    subst herr
    obtain ⟨tail, htrace, hreads, hcalls, _, _, _, _, _, _, htc⟩ :=
      syncBlockAttempt_state env _ _ s3 hdr0 err hatt
    obtain ⟨es1, es2, es3, rs1, first, rs2, rs3, cs1, cs3, htt, _, htcalls, hut, _, hk1, _, hc1,
        hyes, hno, hk3, _, hcs3, _, _⟩ :=
      SyncBlock_attempt_histories env fuel _ s1 s2 s3 t hdr0 err tail hfork htrace hreads
        hcalls hafter
    have hn1 : ∀ e, e ∈ es1 →
        e.kind ≠ EventKind.processBlock ∧ e.kind ≠ EventKind.commitBlock :=
      fun e he => not_executor_of_kind_mem (by simp) (by simp) (hk1 e he)
    have hn3 : ∀ e, e ∈ es3 →
        e.kind ≠ EventKind.processBlock ∧ e.kind ≠ EventKind.commitBlock :=
      fun e he => not_executor_of_kind_mem (by simp) (by simp) (hk3 e he)
    have hn2 : ∀ e, e ∈ es2 →
        e.kind ≠ EventKind.processBlock ∧ e.kind ≠ EventKind.commitBlock := by
      intro e he
      cases hf : s2.isForkDetected with
      | true =>
        have := (hyes hf).2.1 e he
        rw [this]
        simp
      | false =>
        have := (hno hf).2.1 e he
        rw [this]
        simp
    have hin : ∀ h2, Event.CommitBlock h2 ∈ es1 ++ (es2 ++ (tail ++ es3)) →
        Event.CommitBlock h2 ∈ tail := by
      intro h2 hmem
      simp only [List.mem_append] at hmem
      rcases hmem with h1 | h1 | h1 | h1
      · exact absurd rfl (hn1 _ h1).2
      · exact absurd rfl (hn2 _ h1).2
      · exact h1
      · exact absurd rfl (hn3 _ h1).2
    refine ⟨es1 ++ (es2 ++ (tail ++ es3)), cs1 ++ cs3, htt, htcalls, ?_, ?_, ?_, ?_⟩
    · intro e
      rcases hcs3 with ⟨hr, hnil⟩ | ⟨e0, cs, hr, hcons, hrest⟩
      · subst hr hnil
        constructor
        · intro he
          simp at he
        · rintro ⟨hdr, hmem⟩
          rw [List.append_nil] at hmem
          have := hc1 _ hmem
          simp [Call.kind] at this
      · subst hr hcons
        constructor
        · intro he
          simp only [Option.some.injEq] at he
          subst he
          exact ⟨hdr0, by simp⟩
        · rintro ⟨hdr, hmem⟩
          simp only [List.mem_append, List.mem_cons] at hmem
          rcases hmem with h1 | h1 | h1
          · have := hc1 _ h1
            simp [Call.kind] at this
          · simp only [Call.doJobOnSyncBlockFail.injEq] at h1
            rw [h1.2]
          · rcases hrest _ h1 with h2 | h2
            · simp at h2
            · simp [Call.kind] at h2
    · rcases hcs3 with ⟨hr, hnil⟩ | ⟨e0, cs, hr, hcons, hrest⟩
      · subst hr hnil
        refine ⟨fun _ c hmem hkind => ?_, fun _ => rfl⟩
        rw [List.append_nil] at hmem
        have := hc1 c hmem
        rw [hkind] at this
        simp at this
      · subst hr hcons
        refine ⟨fun he => by simp at he, fun hall => ?_⟩
        exact absurd rfl (hall (Call.doJobOnSyncBlockFail hdr0 e0) (by simp))
    · intro hdr hmem
      have hmt := hin hdr hmem
      rcases htc with ⟨e, _, _, _, htail⟩ | ⟨b0, hres, _, hpc⟩
      · rw [htail] at hmt
        simp at hmt
      · rcases hpc with ⟨e, _, _, htail⟩ | ⟨hp, htail, _⟩
        · rw [htail] at hmt
          simp at hmt
        · rw [htail] at hmt
          simp only [List.mem_cons, Event.CommitBlock.injEq, List.mem_singleton,
            List.mem_nil_iff, or_false, false_or, reduceCtorEq] at hmt
          subst hmt
          refine ⟨s2, _, es1 ++ es2, es3, hb, hfork, Prod.ext hres rfl, hp, hut, ?_, ?_⟩
          · rw [htail]
            simp
          · intro e he
            rcases List.mem_append.mp he with h1 | h1
            · rcases List.mem_append.mp h1 with h2 | h2
              · exact hn1 e h2
              · exact hn2 e h2
            · exact hn3 e h1
    · intro s2b hdr u _ hf2 hres
      rw [hfork] at hf2
      simp only [Option.some.injEq, Prod.mk.injEq, true_and] at hf2
      subst hf2
      rw [hres] at htc
      simp only [Prod.mk.injEq, reduceCtorEq, false_and, exists_false, false_or,
        Except.ok.injEq] at htc
      obtain ⟨b0, hb0, _, hpc⟩ := htc
      subst hb0
      rcases hpc with ⟨e0, hp, hr, htail⟩ | ⟨hp, htail, hcc⟩
      · constructor
        · intro e he
          rw [hp] at he
          simp only [Option.some.injEq] at he
          subst he
          refine ⟨hr, ?_, ?_⟩
          · rw [htail]
            simp
          · intro h2 hmem
            have := hin h2 hmem
            rw [htail] at this
            simp at this
        · intro hn
          rw [hp] at hn
          simp at hn
      · constructor
        · intro e he
          rw [hp] at he
          simp at he
        · intro _
          refine ⟨by rw [htail]; simp, ?_, ?_⟩
          · intro e he
            rcases hcc with ⟨e1, hc, hr⟩ | ⟨x, hc, _⟩
            · rw [hc] at he
              simp only [Except.error.injEq] at he
              rw [hr, he]
            · rw [hc] at he
              simp at he
          · intro x hx
            rcases hcc with ⟨e1, hc, _⟩ | ⟨x1, _, hr⟩
            · rw [hc] at hx
              simp at hx
            · exact hr

theorem SyncBlock_commit_after_process_witness :
    SyncBlock poolEnv 1 (sampleState 5) = some (none, sampleCommitted) ∧
    ∃ es cs, sampleCommitted.trace = (sampleState 5).trace ++ es ∧
      sampleCommitted.calls = (sampleState 5).calls ++ cs ∧
      (∀ e, (none : Option Err) = some e ↔ ∃ hdr, Call.doJobOnSyncBlockFail hdr e ∈ cs) ∧
      ((none : Option Err) = none ↔ ∀ c, c ∈ cs → c.kind ≠ CallKind.failurePolicy) ∧
      (∀ hdr, Event.CommitBlock hdr ∈ es →
        ∃ s2 u pre post,
          true = true ∧ syncBlockFork poolEnv 1 (sampleState 5) = some (false, s2) ∧
          resolveHeader poolEnv (poolEnv.getNonceForNextBlock (stateAtResolution s2))
            (stateAtResolution s2) = (.ok hdr, u) ∧
          poolEnv.ProcessBlock
            (u.emit (Event.goRequestHeadersFromNonceIfMissing
              ((hdr.Nonce + 1) % 2 ^ 64))).view hdr = none ∧
          u.trace = (sampleState 5).trace ++ pre ∧
          es = pre ++ [Event.goRequestHeadersFromNonceIfMissing ((hdr.Nonce + 1) % 2 ^ 64),
            Event.ProcessBlock hdr, Event.CommitBlock hdr] ++ post ∧
          (∀ e, e ∈ pre ++ post →
            e.kind ≠ EventKind.processBlock ∧ e.kind ≠ EventKind.commitBlock)) ∧
      (∀ s2 hdr u, true = true → syncBlockFork poolEnv 1 (sampleState 5) = some (false, s2) →
        resolveHeader poolEnv (poolEnv.getNonceForNextBlock (stateAtResolution s2))
          (stateAtResolution s2) = (.ok hdr, u) →
        (∀ e,
          poolEnv.ProcessBlock
            (u.emit (Event.goRequestHeadersFromNonceIfMissing
              ((hdr.Nonce + 1) % 2 ^ 64))).view hdr = some e →
          (none : Option Err) = some e ∧ Event.ProcessBlock hdr ∈ es ∧
            ∀ h2, Event.CommitBlock h2 ∉ es) ∧
        (poolEnv.ProcessBlock
            (u.emit (Event.goRequestHeadersFromNonceIfMissing
              ((hdr.Nonce + 1) % 2 ^ 64))).view hdr = none →
          Event.CommitBlock hdr ∈ es ∧
          (∀ e,
            poolEnv.CommitBlock
              ((u.emit (Event.goRequestHeadersFromNonceIfMissing
                ((hdr.Nonce + 1) % 2 ^ 64))).emit (Event.ProcessBlock hdr)).view hdr =
              .error e → (none : Option Err) = some e) ∧
          (∀ x,
            poolEnv.CommitBlock
              ((u.emit (Event.goRequestHeadersFromNonceIfMissing
                ((hdr.Nonce + 1) % 2 ^ 64))).emit (Event.ProcessBlock hdr)).view hdr =
              .ok x → (none : Option Err) = none))) :=
  ⟨by rfl,
    SyncBlock_commit_after_process poolEnv 1 (sampleState 5) (sampleState 5) sampleCommitted
      true none (by rfl) (by rfl)⟩

/-! ## Which lookup resolves the header -/

theorem syncBlockAttempt_tail (env : Env) (nonce : Nat) (s t : MetaBootstrap)
    (hdr : Option MetaBlock) (err : Option Err)
    (h : syncBlockAttempt env nonce s = (hdr, err, t)) :
    ∃ tail : List Event,
      t.trace = (resolveHeader env nonce s).2.trace ++ tail ∧
      t.reads = (resolveHeader env nonce s).2.reads ∧
      t.calls = (resolveHeader env nonce s).2.calls ∧
      ∀ e, e ∈ tail → e.kind ∈ [EventKind.resetIfNeeded, EventKind.nextHeaders,
        EventKind.processBlock, EventKind.commitBlock] := by
  obtain ⟨tail, h1, h2, h3, _, _, _, _, _, _, htc⟩ := syncBlockAttempt_state env nonce s t hdr err h
  refine ⟨tail, h1, h2, h3, ?_⟩
  intro e he
  rcases htc with ⟨_, _, _, _, htail⟩ | ⟨b0, _, _, hpc⟩
  · rw [htail] at he
    simp only [List.mem_singleton] at he
    subst he
    simp [Event.kind]
  · rcases hpc with ⟨_, _, _, htail⟩ | ⟨_, htail, _⟩
    · rw [htail] at he
      simp only [List.mem_cons, List.mem_singleton, List.mem_nil_iff, or_false] at he
      rcases he with h4 | h4 <;> subst h4 <;> simp [Event.kind]
    · rw [htail] at he
      simp only [List.mem_cons, List.mem_singleton, List.mem_nil_iff, or_false] at he
      rcases he with h4 | h4 | h4 <;> subst h4 <;> simp [Event.kind]

theorem SyncBlock_reaches_resolution (env : Env) (fuel : Nat) (s s1 t : MetaBootstrap)
    (r : Option Err) (hs : env.ShouldSync s = (true, s1))
    (h : SyncBlock env fuel s = some (r, t))
    (hnf : ¬ (s1.isForkDetected = true ∧ s1.forkNonce = MaxUint64 ∧ s1.forkHash = none)) :
    ∃ s2, syncBlockFork env fuel s1 = some (false, s2) ∧
      s2.isForkDetected = s1.isForkDetected ∧ s2.forkHash = s1.forkHash ∧
      (s1.isForkDetected = false → s2 = s1) ∧
      (s1.isForkDetected = true →
        ∃ e, forkChoice env true fuel (s1.emit Event.IncrementNumTimesInForkChoice) =
          some (e, s2)) := by
  have hex : ∃ b s2, syncBlockFork env fuel s1 = some (b, s2) := by
    rcases SyncBlock_cases env fuel s s1 t true r hs h with
      ⟨hb, _⟩ | ⟨_, hf2, _⟩ | ⟨_, s2, _, _, _, hf2, _⟩
    · simp at hb
    · exact ⟨true, t, hf2⟩
    · exact ⟨false, s2, hf2⟩
  obtain ⟨b, s2, hfork⟩ := hex
  obtain ⟨hw, _, _⟩ := syncBlockFork_within env fuel s1 s2 b hfork
  rcases syncBlockFork_cases env fuel s1 s2 b hfork with
    ⟨hf, hb, ht⟩ | ⟨hf, hforced, _⟩ | ⟨hf, _, hb, e, hfc⟩
  · subst hb
    refine ⟨s2, hfork, hw.isForkDetected, hw.forkHash, fun _ => ht, fun hf2 => ?_⟩
    rw [hf] at hf2
    simp at hf2
  · exact absurd ⟨hf, hforced⟩ hnf
  · subst hb
    refine ⟨s2, hfork, hw.isForkDetected, hw.forkHash, fun hf2 => ?_, fun _ => ⟨e, hfc⟩⟩
    rw [hf] at hf2
    simp at hf2

theorem calls_after_attempt_not_forkChoice_true (hdr : Option MetaBlock) (r : Option Err)
    (cs3 : List Call)
    (hcs3 : (r = none ∧ cs3 = []) ∨
      (∃ e cs, r = some e ∧ cs3 = Call.doJobOnSyncBlockFail hdr e :: cs ∧
        ∀ c, c ∈ cs → c = Call.forkChoice false ∨ c.kind = CallKind.rollback)) :
    ∀ c, c ∈ cs3 → c ≠ Call.forkChoice true := by
  intro c hc heq
  subst heq
  rcases hcs3 with ⟨_, hnil⟩ | ⟨e, cs, _, hcons, hrest⟩
  · rw [hnil] at hc
    simp at hc
  · rw [hcons] at hc
    simp only [List.mem_cons, reduceCtorEq, false_or] at hc
    rcases hrest _ hc with h1 | h1
    · simp at h1
    · simp [Call.kind] at h1

/-- C12: in a SyncBlock attempt that passes the guard with a specific
(non-forced) fork pending, `forkChoice(true)` is entered exactly once, the
attempt goes on to header resolution in the state left by it, the header is
resolved by `getHeaderWithHashRequestingIfMissing` with `boot.forkHash` (the
first lookup after the storer reads of the rollbacks is `GetMetaHeader forkHash`)
and no lookup by nonce and no nonce request is made; with no fork pending,
`forkChoice(true)` is not entered, the header is resolved by
`getHeaderWithNonceRequestingIfMissing` with the nonce of `getNonceForNextBlock`
(the first lookup is the pool lookup with that nonce) and no lookup by hash and
no hash request is made. -/
theorem SyncBlock_header_source (env : Env) (fuel : Nat) (s s1 t : MetaBootstrap)
    (r : Option Err) (hs : env.ShouldSync s = (true, s1))
    (h : SyncBlock env fuel s = some (r, t)) :
    (s1.isForkDetected = true → ¬ (s1.forkNonce = MaxUint64 ∧ s1.forkHash = none) →
      ∃ s2 e cs rs1 rs2 es,
        forkChoice env true fuel (s1.emit Event.IncrementNumTimesInForkChoice) = some (e, s2) ∧
        resolveHeader env (env.getNonceForNextBlock (stateAtResolution s2))
            (stateAtResolution s2) =
          getHeaderWithHashRequestingIfMissing env s1.forkHash (stateAtResolution s2) ∧
        t.calls = s1.calls ++ Call.forkChoice true :: cs ∧
        (∀ c, c ∈ cs → c ≠ Call.forkChoice true) ∧
        t.reads = s1.reads ++ (rs1 ++ Read.GetMetaHeader s1.forkHash :: rs2) ∧
        s2.reads = s1.reads ++ rs1 ∧
        (∀ x, x ∈ rs1 → x.kind = ReadKind.storer) ∧
        (∀ x, x ∈ rs2 → x.kind ≠ ReadKind.poolByNonce) ∧
        t.trace = s1.trace ++ es ∧
        (∀ x, x ∈ es → x.kind ≠ EventKind.nonceRequest)) ∧
    (s1.isForkDetected = false →
      ∃ cs rs es,
        resolveHeader env (env.getNonceForNextBlock (stateAtResolution s1))
            (stateAtResolution s1) =
          getHeaderWithNonceRequestingIfMissing env
            (env.getNonceForNextBlock (stateAtResolution s1)) (stateAtResolution s1) ∧
        t.calls = s1.calls ++ cs ∧
        (∀ c, c ∈ cs → c ≠ Call.forkChoice true) ∧
        t.reads = s1.reads ++
          Read.GetMetaHeaderFromPoolWithNonce
            (env.getNonceForNextBlock (stateAtResolution s1)) :: rs ∧
        (∀ x, x ∈ rs → x.kind ≠ ReadKind.byHash) ∧
        t.trace = s1.trace ++ es ∧
        (∀ x, x ∈ es → x.kind ≠ EventKind.hashRequest)) := by
  constructor
  · intro hf hnforced
    obtain ⟨s2, hfork, hfd, hfh, _, hfc⟩ :=
      SyncBlock_reaches_resolution env fuel s s1 t r hs h (fun hc => hnforced hc.2)
    obtain ⟨e, hfc⟩ := hfc hf
    obtain ⟨hdr, s3, hatt, hafter⟩ := SyncBlock_attempt_shape env fuel s s1 s2 t r hs hfork h
    obtain ⟨tail, htrace, hreads, hcalls, htk⟩ := syncBlockAttempt_tail env _ _ s3 hdr r hatt
    obtain ⟨es1, es2, es3, rs1, first, rs2, rs3, cs1, cs3, htt, htr, htcalls, _, hs2c, hk1, hr1,
        _, hyes, _, hk3, hr3, hcs3, _, hs2r⟩ :=
      SyncBlock_attempt_histories env fuel _ s1 s2 s3 t hdr r tail hfork htrace hreads
        hcalls hafter
    have hf2 : s2.isForkDetected = true := hfd.trans hf
    obtain ⟨hfirst, hk2, hr2⟩ := hyes hf2
    obtain ⟨cs0, hcs0, hck0⟩ := forkChoice_calls env true fuel _ s2 e hfc
    have hcs1 : cs1 = Call.forkChoice true :: cs0 := by
      have heq : s1.calls ++ cs1 = s1.calls ++ Call.forkChoice true :: cs0 := by
        rw [← hs2c]
        exact hcs0
      exact List.append_cancel_left heq
    refine ⟨s2, e, cs0 ++ cs3, rs1, rs2 ++ rs3, es1 ++ (es2 ++ (tail ++ es3)), hfc, ?_, ?_, ?_,
      ?_, hs2r, hr1, ?_, htt, ?_⟩
    · have hf3 : (stateAtResolution s2).isForkDetected = true := hf2
      have hfh3 : (stateAtResolution s2).forkHash = s1.forkHash := hfh
      unfold resolveHeader
      rw [if_pos hf3, hfh3]
    · rw [htcalls, hcs1]
      simp
    · intro c hc
      rcases List.mem_append.mp hc with h1 | h1
      · intro heq
        have := hck0 c h1
        rw [heq] at this
        simp [Call.kind] at this
      · exact calls_after_attempt_not_forkChoice_true hdr r cs3 hcs3 c h1
    · rw [htr, hfirst, hfh]
      simp
    · intro x hx hk
      rcases List.mem_append.mp hx with h1 | h1
      · have := hr2 x h1
        rw [hk] at this
        simp at this
      · have := hr3 x h1
        rw [hk] at this
        simp at this
    · intro x hx hk
      simp only [List.mem_append] at hx
      rcases hx with h1 | h1 | h1 | h1
      · have := hk1 x h1
        rw [hk] at this
        simp at this
      · have := hk2 x h1
        rw [hk] at this
        simp at this
      · have := htk x h1
        rw [hk] at this
        simp at this
      · have := hk3 x h1
        rw [hk] at this
        simp at this
  · intro hf
    obtain ⟨s2, hfork, _, _, hsame, _⟩ :=
      SyncBlock_reaches_resolution env fuel s s1 t r hs h
        (fun hc => by rw [hf] at hc; simp at hc)
    have hs2 := hsame hf
    subst hs2
    obtain ⟨hdr, s3, hatt, hafter⟩ := SyncBlock_attempt_shape env fuel s s2 s2 t r hs hfork h
    obtain ⟨tail, htrace, hreads, hcalls, htk⟩ := syncBlockAttempt_tail env _ _ s3 hdr r hatt
    obtain ⟨es1, es2, es3, rs1, first, rs2, rs3, cs1, cs3, htt, htr, htcalls, _, hs2c, _, _,
        _, _, hno, hk3, hr3, hcs3, hs2t, hs2r⟩ :=
      SyncBlock_attempt_histories env fuel _ s2 s2 s3 t hdr r tail hfork htrace hreads
        hcalls hafter
    obtain ⟨hfirst, hk2, hr2⟩ := hno hf
    have hes1 : es1 = [] := by simpa using hs2t
    have hrs1 : rs1 = [] := by simpa using hs2r
    have hcs1 : cs1 = [] := by simpa using hs2c
    subst hes1 hrs1 hcs1
    refine ⟨cs3, rs2 ++ rs3, es2 ++ (tail ++ es3), ?_, ?_,
      calls_after_attempt_not_forkChoice_true hdr r cs3 hcs3, ?_, ?_, ?_, ?_⟩
    · have hf3 : ¬ ((stateAtResolution s2).isForkDetected = true) := by
        intro hc
        have hc2 : s2.isForkDetected = true := hc
        rw [hf] at hc2
        simp at hc2
      unfold resolveHeader
      rw [if_neg hf3]
    · rw [htcalls]
      simp
    · rw [htr, hfirst]
      simp
    · intro x hx hk
      rcases List.mem_append.mp hx with h1 | h1
      · have := hr2 x h1
        rw [hk] at this
        simp at this
      · have := hr3 x h1
        rw [hk] at this
        simp at this
    · rw [htt]
      simp
    · intro x hx hk
      simp only [List.mem_append] at hx
      rcases hx with h1 | h1 | h1
      · have := hk2 x h1
        rw [hk] at this
        simp at this
      · have := htk x h1
        rw [hk] at this
        simp at this
      · have := hk3 x h1
        rw [hk] at this
        simp at this

theorem SyncBlock_header_source_witness :
    SyncBlock poolEnv 3 specificForkState = some (none, specificForkResolved) ∧
    (specificForkState.isForkDetected = true →
      ¬ (specificForkState.forkNonce = MaxUint64 ∧ specificForkState.forkHash = none) →
      ∃ s2 e cs rs1 rs2 es,
        forkChoice poolEnv true 3 (specificForkState.emit Event.IncrementNumTimesInForkChoice) =
          some (e, s2) ∧
        resolveHeader poolEnv (poolEnv.getNonceForNextBlock (stateAtResolution s2))
            (stateAtResolution s2) =
          getHeaderWithHashRequestingIfMissing poolEnv specificForkState.forkHash
            (stateAtResolution s2) ∧
        specificForkResolved.calls = specificForkState.calls ++ Call.forkChoice true :: cs ∧
        (∀ c, c ∈ cs → c ≠ Call.forkChoice true) ∧
        specificForkResolved.reads = specificForkState.reads ++
          (rs1 ++ Read.GetMetaHeader specificForkState.forkHash :: rs2) ∧
        s2.reads = specificForkState.reads ++ rs1 ∧
        (∀ x, x ∈ rs1 → x.kind = ReadKind.storer) ∧
        (∀ x, x ∈ rs2 → x.kind ≠ ReadKind.poolByNonce) ∧
        specificForkResolved.trace = specificForkState.trace ++ es ∧
        (∀ x, x ∈ es → x.kind ≠ EventKind.nonceRequest)) ∧
    (specificForkState.isForkDetected = false →
      ∃ cs rs es,
        resolveHeader poolEnv (poolEnv.getNonceForNextBlock (stateAtResolution specificForkState))
            (stateAtResolution specificForkState) =
          getHeaderWithNonceRequestingIfMissing poolEnv
            (poolEnv.getNonceForNextBlock (stateAtResolution specificForkState))
            (stateAtResolution specificForkState) ∧
        specificForkResolved.calls = specificForkState.calls ++ cs ∧
        (∀ c, c ∈ cs → c ≠ Call.forkChoice true) ∧
        specificForkResolved.reads = specificForkState.reads ++
          Read.GetMetaHeaderFromPoolWithNonce
            (poolEnv.getNonceForNextBlock (stateAtResolution specificForkState)) :: rs ∧
        (∀ x, x ∈ rs → x.kind ≠ ReadKind.byHash) ∧
        specificForkResolved.trace = specificForkState.trace ++ es ∧
        (∀ x, x ∈ es → x.kind ≠ EventKind.hashRequest)) :=
  ⟨by rfl,
    SyncBlock_header_source poolEnv 3 specificForkState specificForkState specificForkResolved
      none (by rfl) (by rfl)⟩

/-! ## Validity of a metablock -/

theorem isMetaBlockValid_eq_results (cfg : ScanEnv) (nonce : Nat) :
    isMetaBlockValid cfg nonce = (isMetaBlockValidResults cfg nonce).1 ∧
    (isMetaBlockValidResults cfg nonce).2 = (isMetaBlockValid cfg nonce).isSome := by
  unfold isMetaBlockValid isMetaBlockValidResults
  rcases getHeader cfg cfg.MetachainShardId nonce with e | ⟨hh, hash⟩
  · exact ⟨rfl, rfl⟩
  · cases hh with
    | shardHeader h => exact ⟨rfl, rfl⟩
    | metaBlock m =>
      simp only []
      by_cases hr : m.Round > cfg.bootstrapRoundIndex
      · rw [if_pos hr, if_pos hr]
        exact ⟨rfl, rfl⟩
      · rw [if_neg hr, if_neg hr]
        exact ⟨rfl, rfl⟩

/-- C26: `isMetaBlockValid(nonce)` returns `(block, true)` if and only if the
storage returns a header for the metachain at that nonce, the header is the
MetaBlock `block`, and its `Round` is `<= bootstrapRoundIndex`; a block whose
`Round` equals `bootstrapRoundIndex` is accepted, a block whose `Round` is
`bootstrapRoundIndex + 1` is rejected, on rejection the returned block is nil,
and no other pair of results is possible. -/
theorem isMetaBlockValid_accepts_iff (cfg : ScanEnv) (nonce : Nat) :
    (∀ b, isMetaBlockValidResults cfg nonce = (some b, true) ↔
      ∃ hash,
        cfg.getMetaHeaderFromStorage cfg.MetachainShardId nonce =
          .ok (HeaderHandler.metaBlock b, hash) ∧
        b.Round ≤ cfg.bootstrapRoundIndex) ∧
    ((isMetaBlockValidResults cfg nonce).2 = false →
      (isMetaBlockValidResults cfg nonce).1 = none) ∧
    ((isMetaBlockValidResults cfg nonce).2 = true →
      ∃ b, isMetaBlockValidResults cfg nonce = (some b, true)) ∧
    (∀ b hash,
      cfg.getMetaHeaderFromStorage cfg.MetachainShardId nonce =
        .ok (HeaderHandler.metaBlock b, hash) →
      b.Round = cfg.bootstrapRoundIndex →
      isMetaBlockValidResults cfg nonce = (some b, true)) ∧
    (∀ b hash,
      cfg.getMetaHeaderFromStorage cfg.MetachainShardId nonce =
        .ok (HeaderHandler.metaBlock b, hash) →
      b.Round = cfg.bootstrapRoundIndex + 1 →
      isMetaBlockValidResults cfg nonce = (none, false)) ∧
    (∀ e, cfg.getMetaHeaderFromStorage cfg.MetachainShardId nonce = .error e →
      isMetaBlockValidResults cfg nonce = (none, false)) ∧
    (∀ h hash,
      cfg.getMetaHeaderFromStorage cfg.MetachainShardId nonce =
        .ok (HeaderHandler.shardHeader h, hash) →
      isMetaBlockValidResults cfg nonce = (none, false)) ∧
    isMetaBlockValid cfg nonce = (isMetaBlockValidResults cfg nonce).1 := by
  have hcases : ∀ b hash,
      cfg.getMetaHeaderFromStorage cfg.MetachainShardId nonce =
        .ok (HeaderHandler.metaBlock b, hash) →
      isMetaBlockValidResults cfg nonce =
        if b.Round > cfg.bootstrapRoundIndex then (none, false) else (some b, true) := by
    intro b hash hst
    unfold isMetaBlockValidResults getHeader
    rw [hst]
  have herr : ∀ e, cfg.getMetaHeaderFromStorage cfg.MetachainShardId nonce = .error e →
      isMetaBlockValidResults cfg nonce = (none, false) := by
    intro e hst
    unfold isMetaBlockValidResults getHeader
    rw [hst]
  have hshard : ∀ h hash,
      cfg.getMetaHeaderFromStorage cfg.MetachainShardId nonce =
        .ok (HeaderHandler.shardHeader h, hash) →
      isMetaBlockValidResults cfg nonce = (none, false) := by
    intro h hash hst
    unfold isMetaBlockValidResults getHeader
    rw [hst]
  have hiff : ∀ b, isMetaBlockValidResults cfg nonce = (some b, true) ↔
      ∃ hash,
        cfg.getMetaHeaderFromStorage cfg.MetachainShardId nonce =
          .ok (HeaderHandler.metaBlock b, hash) ∧
        b.Round ≤ cfg.bootstrapRoundIndex := by
    intro b
    constructor
    · intro hres
      rcases hst : cfg.getMetaHeaderFromStorage cfg.MetachainShardId nonce with e | ⟨hh, hash⟩
      · rw [herr e hst] at hres
        simp at hres
      · cases hh with
        | shardHeader h =>
          rw [hshard h hash hst] at hres
          simp at hres
        | metaBlock m =>
          rw [hcases m hash hst] at hres
          by_cases hr : m.Round > cfg.bootstrapRoundIndex
          · rw [if_pos hr] at hres
            simp at hres
          · rw [if_neg hr] at hres
            simp only [Prod.mk.injEq, Option.some.injEq, and_true] at hres
            subst hres
            exact ⟨hash, rfl, by omega⟩
    · rintro ⟨hash, hst, hr⟩
      rw [hcases b hash hst, if_neg (by omega)]
  refine ⟨hiff, ?_, ?_, ?_, ?_, herr, hshard, (isMetaBlockValid_eq_results cfg nonce).1⟩
  · intro hfalse
    rcases hst : cfg.getMetaHeaderFromStorage cfg.MetachainShardId nonce with e | ⟨hh, hash⟩
    · rw [herr e hst]
    · cases hh with
      | shardHeader h => rw [hshard h hash hst]
      | metaBlock m =>
        rw [hcases m hash hst] at hfalse ⊢
        by_cases hr : m.Round > cfg.bootstrapRoundIndex
        · rw [if_pos hr]
        · rw [if_neg hr] at hfalse
          simp at hfalse
  · intro htrue
    rcases hst : cfg.getMetaHeaderFromStorage cfg.MetachainShardId nonce with e | ⟨hh, hash⟩
    · rw [herr e hst] at htrue
      simp at htrue
    · cases hh with
      | shardHeader h =>
        rw [hshard h hash hst] at htrue
        simp at htrue
      | metaBlock m =>
        rw [hcases m hash hst] at htrue ⊢
        by_cases hr : m.Round > cfg.bootstrapRoundIndex
        · rw [if_pos hr] at htrue
          simp at htrue
        · rw [if_neg hr]
          exact ⟨m, rfl⟩
  · intro b hash hst hr
    rw [hcases b hash hst, if_neg (by omega)]
  · intro b hash hst hr
    rw [hcases b hash hst, if_pos (by omega)]

/-! ## Notarization tracker: a block whose shard headers cannot be loaded -/

theorem maxNonceLoop_error (cfg : ScanEnv) :
    ∀ (l : List ShardData) (m : NonceMap),
      (∃ sd, sd ∈ l ∧ ∃ e, cfg.GetShardHeaderFromStorage sd.HeaderHash = .error e) →
      ∃ e, (maxNonceLoop cfg l m).2 = some e := by
  intro l
  induction l with
  | nil =>
    rintro m ⟨sd, hsd, _⟩
    simp at hsd
  | cons x rest ih =>
    rintro m ⟨sd, hsd, e, he⟩
    unfold maxNonceLoop
    rcases hx : cfg.GetShardHeaderFromStorage x.HeaderHash with e1 | h
    · exact ⟨e1, rfl⟩
    · have hrest : ∃ sd, sd ∈ rest ∧ ∃ e, cfg.GetShardHeaderFromStorage sd.HeaderHash = .error e := by
        rcases List.mem_cons.mp hsd with h1 | h1
        · subst h1
          rw [hx] at he
          simp at he
        · exact ⟨sd, h1, e, he⟩
      simp only []
      split
      · exact ih _ hrest
      · exact ih _ hrest

theorem scanStep_unloadable (cfg : ScanEnv) (cur : Nat) (m : MetaBlock)
    (hvalid : isMetaBlockValid cfg cur = some m) (hne : m.ShardInfo.length ≠ 0)
    (hfail : ∃ sd, sd ∈ m.ShardInfo ∧
      ∃ e, cfg.GetShardHeaderFromStorage sd.HeaderHash = .error e)
    (ni : notarizedInfo) : scanStep cfg cur ni = (false, notarizedInfo.reset) := by
  obtain ⟨e, he⟩ := maxNonceLoop_error cfg m.ShardInfo NonceMap.empty hfail
  unfold scanStep
  rw [hvalid]
  simp only []
  rw [if_neg hne]
  rcases hg : getMaxNotarizedHeadersNoncesInMetaBlock cfg m with ⟨mx, _ | e1⟩
  · unfold getMaxNotarizedHeadersNoncesInMetaBlock at hg
    rw [hg] at he
    simp at he
  · rfl

/-- C30: a valid metablock with a non-empty `ShardInfo` one of whose referenced
shard headers cannot be loaded resets the tracker exactly like an invalid
block.  Its scan step leaves the reset state whatever was accumulated from the
blocks above it, nothing of the block itself included (not even `startNonce`),
and does not stop the scan; so for `N >= 1` whose metablock is of that kind the
scan of `getNonceWithLastNotarized(N)` leaves the tracker state that the scan
of `getNonceWithLastNotarized(N-1)` leaves, and the two calls return the same
`startNonce` and the same `lastNotarized` map. -/
theorem unloadable_block_resets (cfg : ScanEnv) (N : Nat) (m : MetaBlock) (hN : 1 ≤ N)
    (hvalid : isMetaBlockValid cfg N = some m) (hne : m.ShardInfo.length ≠ 0)
    (hfail : ∃ sd, sd ∈ m.ShardInfo ∧
      ∃ e, cfg.GetShardHeaderFromStorage sd.HeaderHash = .error e) :
    (∀ ni, scanStep cfg N ni = (false, notarizedInfo.reset)) ∧
    (∀ ni, scanStep cfg N ni = scanStep cfg N notarizedInfo.reset) ∧
    scanResult cfg N = scanResult cfg (N - 1) ∧
    (getNonceWithLastNotarized cfg N).1 = (getNonceWithLastNotarized cfg (N - 1)).1 ∧
    (getNonceWithLastNotarized cfg N).2.2 = (getNonceWithLastNotarized cfg (N - 1)).2.2 := by
  have hstep := scanStep_unloadable cfg N m hvalid hne hfail
  obtain ⟨k, rfl⟩ : ∃ k, N = k + 1 := ⟨N - 1, by omega⟩
  have hsr : scanResult cfg (k + 1) = scanResult cfg k := by
    unfold scanResult
    conv => lhs; unfold scanLoop
    rw [hstep]
    exact scanLoop_fst cfg k notarizedInfo.reset _ _
  simp only [Nat.add_sub_cancel]
  refine ⟨hstep, fun ni => by rw [hstep, hstep], hsr, ?_, ?_⟩
  · show (notarizedAtReturn cfg (k + 1)).startNonce = (notarizedAtReturn cfg k).startNonce
    rw [(notarizedAtReturn_entry cfg (k + 1) 0).2.2, (notarizedAtReturn_entry cfg k 0).2.2, hsr]
  · show (notarizedAtReturn cfg (k + 1)).lastNotarized = (notarizedAtReturn cfg k).lastNotarized
    rw [notarizedAtReturn_lastNotarized, notarizedAtReturn_lastNotarized, hsr]

theorem unloadable_block_resets_witness :
    (∀ ni, scanStep brokenScanEnv 48 ni = (false, notarizedInfo.reset)) ∧
    (∀ ni, scanStep brokenScanEnv 48 ni = scanStep brokenScanEnv 48 notarizedInfo.reset) ∧
    scanResult brokenScanEnv 48 = scanResult brokenScanEnv (48 - 1) ∧
    (getNonceWithLastNotarized brokenScanEnv 48).1 =
      (getNonceWithLastNotarized brokenScanEnv (48 - 1)).1 ∧
    (getNonceWithLastNotarized brokenScanEnv 48).2.2 =
      (getNonceWithLastNotarized brokenScanEnv (48 - 1)).2.2 :=
  unloadable_block_resets brokenScanEnv 48
    { sampleBlock 48 with ShardInfo := [{ ShardId := 0, HeaderHash := none }] }
    (by decide) (by rfl) (by decide)
    ⟨{ ShardId := 0, HeaderHash := none }, by simp, Err.other 6, by rfl⟩

/-! ## Header source: resolution by nonce -/

/-- C23: for every nonce for which the pool lookup succeeds,
`getHeaderWithNonceRequestingIfMissing(nonce)` returns that pooled header with
a nil error and leaves the bootstrapper as it was, the lookup apart: no call is
made to any collaborator (no `RequestDataFromNonce`, no drain of the signal
channel, no wait) and the requested-nonce marker keeps its value. -/
theorem pooled_header_without_request (env : Env) (nonce : Nat) (s : MetaBootstrap)
    (hdr : MetaBlock) (hpool : env.GetMetaHeaderFromPoolWithNonce s.view nonce = .ok hdr) :
    getHeaderWithNonceRequestingIfMissing env nonce s =
      (.ok hdr, s.look (Read.GetMetaHeaderFromPoolWithNonce nonce)) ∧
    (getHeaderWithNonceRequestingIfMissing env nonce s).2.trace = s.trace ∧
    (getHeaderWithNonceRequestingIfMissing env nonce s).2.headerNonce = s.headerNonce ∧
    (getHeaderWithNonceRequestingIfMissing env nonce s).2.headerhash = s.headerhash ∧
    (getHeaderWithNonceRequestingIfMissing env nonce s).2.reads =
      s.reads ++ [Read.GetMetaHeaderFromPoolWithNonce nonce] ∧
    (∀ n, Event.RequestDataFromNonce n ∉
      ((getHeaderWithNonceRequestingIfMissing env nonce s).2.trace.drop s.trace.length)) ∧
    Event.EmptyChannelRcvHdrNonce ∉
      ((getHeaderWithNonceRequestingIfMissing env nonce s).2.trace.drop s.trace.length) ∧
    Event.waitForHeaderNonce ∉
      ((getHeaderWithNonceRequestingIfMissing env nonce s).2.trace.drop s.trace.length) := by
  have heq : getHeaderWithNonceRequestingIfMissing env nonce s =
      (.ok hdr, s.look (Read.GetMetaHeaderFromPoolWithNonce nonce)) := by
    unfold getHeaderWithNonceRequestingIfMissing
    simp only [hpool]
  rw [heq]
  refine ⟨rfl, rfl, rfl, rfl, rfl, ?_, ?_, ?_⟩ <;> simp [MetaBootstrap.look]

theorem pooled_header_without_request_witness :
    getHeaderWithNonceRequestingIfMissing poolEnv 6 (sampleState 5) =
      (.ok (sampleBlock 6), (sampleState 5).look (Read.GetMetaHeaderFromPoolWithNonce 6)) ∧
    (getHeaderWithNonceRequestingIfMissing poolEnv 6 (sampleState 5)).2.trace =
      (sampleState 5).trace ∧
    (getHeaderWithNonceRequestingIfMissing poolEnv 6 (sampleState 5)).2.headerNonce =
      (sampleState 5).headerNonce ∧
    (getHeaderWithNonceRequestingIfMissing poolEnv 6 (sampleState 5)).2.headerhash =
      (sampleState 5).headerhash ∧
    (getHeaderWithNonceRequestingIfMissing poolEnv 6 (sampleState 5)).2.reads =
      (sampleState 5).reads ++ [Read.GetMetaHeaderFromPoolWithNonce 6] ∧
    (∀ n, Event.RequestDataFromNonce n ∉
      ((getHeaderWithNonceRequestingIfMissing poolEnv 6 (sampleState 5)).2.trace.drop
        (sampleState 5).trace.length)) ∧
    Event.EmptyChannelRcvHdrNonce ∉
      ((getHeaderWithNonceRequestingIfMissing poolEnv 6 (sampleState 5)).2.trace.drop
        (sampleState 5).trace.length) ∧
    Event.waitForHeaderNonce ∉
      ((getHeaderWithNonceRequestingIfMissing poolEnv 6 (sampleState 5)).2.trace.drop
        (sampleState 5).trace.length) :=
  pooled_header_without_request poolEnv 6 (sampleState 5) (sampleBlock 6) rfl

theorem getHeaderWithNonceRequestingIfMissing_missing (env : Env) (nonce : Nat)
    (s : MetaBootstrap) (e0 : Err)
    (hpool : env.GetMetaHeaderFromPoolWithNonce s.view nonce = .error e0)
    (s3 s4 : MetaBootstrap)
    (hs3 : s3 = (setRequestedHeaderNonce (some nonce)
      ((s.look (Read.GetMetaHeaderFromPoolWithNonce nonce)).emit
        Event.EmptyChannelRcvHdrNonce)).emit (Event.RequestDataFromNonce nonce))
    (hs4 : s4 = { s3 with headerNonce := (env.waitForHeaderNonce s3).2
                          trace := s3.trace ++ [Event.waitForHeaderNonce] }) :
    (∀ e, (env.waitForHeaderNonce s3).1 = some e →
      getHeaderWithNonceRequestingIfMissing env nonce s = (.error e, s4)) ∧
    ((env.waitForHeaderNonce s3).1 = none →
      getHeaderWithNonceRequestingIfMissing env nonce s =
        (env.GetMetaHeaderFromPoolWithNonce s4.view nonce,
          s4.look (Read.GetMetaHeaderFromPoolWithNonce nonce))) := by
  subst hs3 hs4
  constructor
  · intro e hw
    unfold getHeaderWithNonceRequestingIfMissing
    simp only [hpool, requestHeaderWithNonce]
    rw [hw]
  · intro hw
    unfold getHeaderWithNonceRequestingIfMissing
    simp only [hpool, requestHeaderWithNonce]
    rw [hw]
    simp only []
    split
    · rename_i e he
      rw [he]
    · rename_i h he
      rw [he]

/-- C24: when the pool lookup for a nonce fails,
`getHeaderWithNonceRequestingIfMissing` goes through these states in this
order: `s1`, in which the nonce-received channel has been drained; `s2`, in
which the nonce is recorded as the requested nonce; `s3`, in which
`RequestDataFromNonce(nonce)` has been dispatched (`requestHeaderWithNonce`
leads from `s1` to `s3`); `s4`, after the wait, which ran in `s3` with the
marker set and the request dispatched.  The pool is looked up a second time,
in `s4`, exactly when the wait returned no error.  The calls made to
collaborators are the drain, the dispatch and the wait, once each and in this
order. -/
theorem missing_header_request_order (env : Env) (nonce : Nat) (s : MetaBootstrap) (e0 : Err)
    (hpool : env.GetMetaHeaderFromPoolWithNonce s.view nonce = .error e0) :
    ∃ s1 s2 s3 s4 : MetaBootstrap,
      s1 = (s.look (Read.GetMetaHeaderFromPoolWithNonce nonce)).emit
        Event.EmptyChannelRcvHdrNonce ∧
      s2 = setRequestedHeaderNonce (some nonce) s1 ∧
      s3 = s2.emit (Event.RequestDataFromNonce nonce) ∧
      requestHeaderWithNonce env nonce s1 = s3 ∧
      s4 = { s3 with headerNonce := (env.waitForHeaderNonce s3).2
                     trace := s3.trace ++ [Event.waitForHeaderNonce] } ∧
      s1.headerNonce = s.headerNonce ∧
      s1.trace = s.trace ++ [Event.EmptyChannelRcvHdrNonce] ∧
      s2.headerNonce = some nonce ∧
      s2.trace = s.trace ++ [Event.EmptyChannelRcvHdrNonce] ∧
      s3.headerNonce = some nonce ∧
      s3.trace = s.trace ++ [Event.EmptyChannelRcvHdrNonce, Event.RequestDataFromNonce nonce] ∧
      s3.reads = s.reads ++ [Read.GetMetaHeaderFromPoolWithNonce nonce] ∧
      (∀ e, (env.waitForHeaderNonce s3).1 = some e →
        getHeaderWithNonceRequestingIfMissing env nonce s = (.error e, s4) ∧
        (getHeaderWithNonceRequestingIfMissing env nonce s).2.reads =
          s.reads ++ [Read.GetMetaHeaderFromPoolWithNonce nonce]) ∧
      ((env.waitForHeaderNonce s3).1 = none →
        getHeaderWithNonceRequestingIfMissing env nonce s =
          (env.GetMetaHeaderFromPoolWithNonce s4.view nonce,
            s4.look (Read.GetMetaHeaderFromPoolWithNonce nonce)) ∧
        (getHeaderWithNonceRequestingIfMissing env nonce s).2.reads =
          s.reads ++ [Read.GetMetaHeaderFromPoolWithNonce nonce,
            Read.GetMetaHeaderFromPoolWithNonce nonce]) ∧
      (getHeaderWithNonceRequestingIfMissing env nonce s).2.trace =
        s.trace ++ [Event.EmptyChannelRcvHdrNonce, Event.RequestDataFromNonce nonce,
          Event.waitForHeaderNonce] := by
  obtain ⟨hyes, hno⟩ := getHeaderWithNonceRequestingIfMissing_missing env nonce s e0 hpool
    _ _ rfl rfl
  refine ⟨_, _, _, _, rfl, rfl, rfl, rfl, rfl, rfl, ?_, rfl, ?_, rfl, ?_, ?_, ?_, ?_, ?_⟩
  · simp [MetaBootstrap.emit, MetaBootstrap.look]
  · simp [MetaBootstrap.emit, MetaBootstrap.look, setRequestedHeaderNonce]
  · simp [MetaBootstrap.emit, MetaBootstrap.look, setRequestedHeaderNonce]
  · simp [MetaBootstrap.emit, MetaBootstrap.look, setRequestedHeaderNonce]
  · intro e hw
    rw [hyes e hw]
    refine ⟨rfl, ?_⟩
    simp [MetaBootstrap.emit, MetaBootstrap.look, setRequestedHeaderNonce]
  · intro hw
    rw [hno hw]
    refine ⟨rfl, ?_⟩
    simp [MetaBootstrap.emit, MetaBootstrap.look, setRequestedHeaderNonce]
  · cases hw : (env.waitForHeaderNonce
        ((setRequestedHeaderNonce (some nonce)
          ((s.look (Read.GetMetaHeaderFromPoolWithNonce nonce)).emit
            Event.EmptyChannelRcvHdrNonce)).emit (Event.RequestDataFromNonce nonce))).1 with
    | some e =>
      rw [hyes e hw]
      simp [MetaBootstrap.emit, MetaBootstrap.look, setRequestedHeaderNonce]
    | none =>
      rw [hno hw]
      simp [MetaBootstrap.emit, MetaBootstrap.look, setRequestedHeaderNonce]

theorem missing_header_request_order_witness :
    (getHeaderWithNonceRequestingIfMissing arrivingEnv 6 (sampleState 5)).1 =
      .ok (sampleBlock 6) ∧
    ∃ s1 s2 s3 s4 : MetaBootstrap,
      s1 = ((sampleState 5).look (Read.GetMetaHeaderFromPoolWithNonce 6)).emit
        Event.EmptyChannelRcvHdrNonce ∧
      s2 = setRequestedHeaderNonce (some 6) s1 ∧
      s3 = s2.emit (Event.RequestDataFromNonce 6) ∧
      requestHeaderWithNonce arrivingEnv 6 s1 = s3 ∧
      s4 = { s3 with headerNonce := (arrivingEnv.waitForHeaderNonce s3).2
                     trace := s3.trace ++ [Event.waitForHeaderNonce] } ∧
      s1.headerNonce = (sampleState 5).headerNonce ∧
      s1.trace = (sampleState 5).trace ++ [Event.EmptyChannelRcvHdrNonce] ∧
      s2.headerNonce = some 6 ∧
      s2.trace = (sampleState 5).trace ++ [Event.EmptyChannelRcvHdrNonce] ∧
      s3.headerNonce = some 6 ∧
      s3.trace = (sampleState 5).trace ++
        [Event.EmptyChannelRcvHdrNonce, Event.RequestDataFromNonce 6] ∧
      s3.reads = (sampleState 5).reads ++ [Read.GetMetaHeaderFromPoolWithNonce 6] ∧
      (∀ e, (arrivingEnv.waitForHeaderNonce s3).1 = some e →
        getHeaderWithNonceRequestingIfMissing arrivingEnv 6 (sampleState 5) = (.error e, s4) ∧
        (getHeaderWithNonceRequestingIfMissing arrivingEnv 6 (sampleState 5)).2.reads =
          (sampleState 5).reads ++ [Read.GetMetaHeaderFromPoolWithNonce 6]) ∧
      ((arrivingEnv.waitForHeaderNonce s3).1 = none →
        getHeaderWithNonceRequestingIfMissing arrivingEnv 6 (sampleState 5) =
          (arrivingEnv.GetMetaHeaderFromPoolWithNonce s4.view 6,
            s4.look (Read.GetMetaHeaderFromPoolWithNonce 6)) ∧
        (getHeaderWithNonceRequestingIfMissing arrivingEnv 6 (sampleState 5)).2.reads =
          (sampleState 5).reads ++ [Read.GetMetaHeaderFromPoolWithNonce 6,
            Read.GetMetaHeaderFromPoolWithNonce 6]) ∧
      (getHeaderWithNonceRequestingIfMissing arrivingEnv 6 (sampleState 5)).2.trace =
        (sampleState 5).trace ++ [Event.EmptyChannelRcvHdrNonce, Event.RequestDataFromNonce 6,
          Event.waitForHeaderNonce] :=
  ⟨by rfl,
    missing_header_request_order arrivingEnv 6 (sampleState 5) (Err.other 2) (by rfl)⟩

/-- C25: when the pool lookup for a nonce fails, the result of
`getHeaderWithNonceRequestingIfMissing` is decided by the wait and the re-check
only (`s3` is the state in which the wait runs, `s4` the state after it): if
the wait returns an error, the result is a nil header and that error; if it
returns nil, the result is the one of the second pool lookup, its header with a
nil error or a nil header with its error.  What `RequestDataFromNonce` returns
never changes the result: the function is the same for every behaviour of the
dispatch. -/
theorem missing_header_result (env : Env) (nonce : Nat) (s : MetaBootstrap) (e0 : Err)
    (hpool : env.GetMetaHeaderFromPoolWithNonce s.view nonce = .error e0) :
    ∃ s3 s4 : MetaBootstrap,
      s3 = (setRequestedHeaderNonce (some nonce)
        ((s.look (Read.GetMetaHeaderFromPoolWithNonce nonce)).emit
          Event.EmptyChannelRcvHdrNonce)).emit (Event.RequestDataFromNonce nonce) ∧
      s4 = { s3 with headerNonce := (env.waitForHeaderNonce s3).2
                     trace := s3.trace ++ [Event.waitForHeaderNonce] } ∧
      (∀ e, (env.waitForHeaderNonce s3).1 = some e →
        (getHeaderWithNonceRequestingIfMissing env nonce s).1 = .error e) ∧
      ((env.waitForHeaderNonce s3).1 = none →
        (getHeaderWithNonceRequestingIfMissing env nonce s).1 =
          env.GetMetaHeaderFromPoolWithNonce s4.view nonce) ∧
      (∀ hdr, (env.waitForHeaderNonce s3).1 = none →
        env.GetMetaHeaderFromPoolWithNonce s4.view nonce = .ok hdr →
        (getHeaderWithNonceRequestingIfMissing env nonce s).1 = .ok hdr) ∧
      (∀ e, (env.waitForHeaderNonce s3).1 = none →
        env.GetMetaHeaderFromPoolWithNonce s4.view nonce = .error e →
        (getHeaderWithNonceRequestingIfMissing env nonce s).1 = .error e) ∧
      (∀ f : View → Nat → Option Err,
        getHeaderWithNonceRequestingIfMissing { env with RequestDataFromNonce := f } nonce s =
          getHeaderWithNonceRequestingIfMissing env nonce s) := by
  obtain ⟨hyes, hno⟩ := getHeaderWithNonceRequestingIfMissing_missing env nonce s e0 hpool
    _ _ rfl rfl
  refine ⟨_, _, rfl, rfl, ?_, ?_, ?_, ?_, fun f => rfl⟩
  · intro e hw
    rw [hyes e hw]
  · intro hw
    rw [hno hw]
  · intro hdr hw hl
    rw [hno hw, hl]
  · intro e hw hl
    rw [hno hw, hl]

theorem missing_header_result_witness :
    (getHeaderWithNonceRequestingIfMissing sampleEnv 6 (sampleState 5)).1 =
      .error Err.ErrTimeIsOut ∧
    ∃ s3 s4 : MetaBootstrap,
      s3 = (setRequestedHeaderNonce (some 6)
        (((sampleState 5).look (Read.GetMetaHeaderFromPoolWithNonce 6)).emit
          Event.EmptyChannelRcvHdrNonce)).emit (Event.RequestDataFromNonce 6) ∧
      s4 = { s3 with headerNonce := (sampleEnv.waitForHeaderNonce s3).2
                     trace := s3.trace ++ [Event.waitForHeaderNonce] } ∧
      (∀ e, (sampleEnv.waitForHeaderNonce s3).1 = some e →
        (getHeaderWithNonceRequestingIfMissing sampleEnv 6 (sampleState 5)).1 = .error e) ∧
      ((sampleEnv.waitForHeaderNonce s3).1 = none →
        (getHeaderWithNonceRequestingIfMissing sampleEnv 6 (sampleState 5)).1 =
          sampleEnv.GetMetaHeaderFromPoolWithNonce s4.view 6) ∧
      (∀ hdr, (sampleEnv.waitForHeaderNonce s3).1 = none →
        sampleEnv.GetMetaHeaderFromPoolWithNonce s4.view 6 = .ok hdr →
        (getHeaderWithNonceRequestingIfMissing sampleEnv 6 (sampleState 5)).1 = .ok hdr) ∧
      (∀ e, (sampleEnv.waitForHeaderNonce s3).1 = none →
        sampleEnv.GetMetaHeaderFromPoolWithNonce s4.view 6 = .error e →
        (getHeaderWithNonceRequestingIfMissing sampleEnv 6 (sampleState 5)).1 = .error e) ∧
      (∀ f : View → Nat → Option Err,
        getHeaderWithNonceRequestingIfMissing
            { sampleEnv with RequestDataFromNonce := f } 6 (sampleState 5) =
          getHeaderWithNonceRequestingIfMissing sampleEnv 6 (sampleState 5)) :=
  ⟨by rfl, missing_header_result sampleEnv 6 (sampleState 5) (Err.other 2) rfl⟩

/-! ## Fork choice on a chain head with nonce 0 -/

theorem forkChoice_true_at_nonce_zero (env : Env) (fuel : Nat) (s : MetaBootstrap)
    (header : MetaBlock)
    (hhead : s.currentBlockHeader = some (HeaderHandler.metaBlock header))
    (h0 : header.Nonce = 0) :
    forkChoice env true (fuel + 1) s =
      some (some Err.ErrRollbackFromGenesis,
        (s.enter (Call.forkChoice true)).enter (Call.rollback header)) := by
  have hc : getCurrentHeader (s.enter (Call.forkChoice true)) = .ok header := by
    simp [getCurrentHeader, MetaBootstrap.enter, hhead]
  have hr : rollback env header (s.enter (Call.forkChoice true)) =
      (some Err.ErrRollbackFromGenesis,
        (s.enter (Call.forkChoice true)).enter (Call.rollback header)) := by
    unfold rollback
    simp only [h0, if_true]
  unfold forkChoice forkChoiceLoop
  rw [hc]
  simp only [Bool.not_true, Bool.false_and, Bool.false_eq_true, if_false]
  rw [hr]

/-- C29: when the current chain head is a MetaBlock with nonce 0,
`forkChoice(false)` returns `ErrRollBackBehindFinalHeader` whatever the highest
final nonce is, and `forkChoice(true)` returns `ErrRollbackFromGenesis`; so on
such a head `forkChoice` returns `ErrRollbackFromGenesis` exactly when
`revertUsingForkNonce` is true.  In both cases the chain head, the head hash,
the calls made to collaborators and the lookups are left as they were.  On
every state, `forkChoice(false)` enters `rollback` only with a header whose
nonce is above the highest final nonce, hence not 0, so the genesis guard of
`rollback` is out of its reach. -/
theorem forkChoice_at_nonce_zero (env : Env) (fuel : Nat) (s : MetaBootstrap)
    (header : MetaBlock)
    (hhead : s.currentBlockHeader = some (HeaderHandler.metaBlock header))
    (h0 : header.Nonce = 0) :
    forkChoice env false (fuel + 1) s =
      some (some Err.ErrRollBackBehindFinalHeader, s.enter (Call.forkChoice false)) ∧
    forkChoice env true (fuel + 1) s =
      some (some Err.ErrRollbackFromGenesis,
        (s.enter (Call.forkChoice true)).enter (Call.rollback header)) ∧
    (∀ rev r t, forkChoice env rev (fuel + 1) s = some (r, t) →
      (r = some Err.ErrRollbackFromGenesis ↔ rev = true) ∧
      t.currentBlockHeader = s.currentBlockHeader ∧
      t.currentBlockHeaderHash = s.currentBlockHeaderHash ∧
      t.trace = s.trace ∧ t.reads = s.reads) ∧
    (∀ (s0 t : MetaBootstrap) (r : Option Err) (hdr : MetaBlock) (cs : List Call),
      forkChoice env false (fuel + 1) s0 = some (r, t) →
      t.calls = s0.calls ++ cs → Call.rollback hdr ∈ cs →
      env.GetHighestFinalBlockNonce s0.view < hdr.Nonce ∧ hdr.Nonce ≠ 0) := by
  have hfalse := forkChoice_refuses_behind_final_state env fuel s header hhead
    (by rw [h0]; exact Nat.zero_le _)
  have htrue := forkChoice_true_at_nonce_zero env fuel s header hhead h0
  refine ⟨hfalse, htrue, ?_, ?_⟩
  · intro rev r t h
    cases rev with
    | false =>
      rw [hfalse] at h
      simp only [Option.some.injEq, Prod.mk.injEq] at h
      obtain ⟨h1, h2⟩ := h
      subst h1 h2
      exact ⟨by simp, rfl, rfl, rfl, rfl⟩
    | true =>
      rw [htrue] at h
      simp only [Option.some.injEq, Prod.mk.injEq] at h
      obtain ⟨h1, h2⟩ := h
      subst h1 h2
      exact ⟨by simp, rfl, rfl, rfl, rfl⟩
  · intro s0 t r hdr cs h hcs hmem
    obtain ⟨c1, c2, c3⟩ := forkChoice_false_calls env fuel s0 t r h
    cases hh : s0.currentBlockHeader with
    | none =>
      have := c3 (fun x hx => by rw [hh] at hx; simp at hx)
      rw [hcs] at this
      have hcs2 := List.append_cancel_left this
      rw [hcs2] at hmem
      simp at hmem
    | some hd =>
      cases hd with
      | shardHeader x =>
        have := c3 (fun y hy => by rw [hh] at hy; simp at hy)
        rw [hcs] at this
        have hcs2 := List.append_cancel_left this
        rw [hcs2] at hmem
        simp at hmem
      | metaBlock x =>
        by_cases hle : x.Nonce ≤ env.GetHighestFinalBlockNonce s0.view
        · have := (c2 x hh hle).2
          rw [hcs] at this
          have hcs2 := List.append_cancel_left this
          rw [hcs2] at hmem
          simp at hmem
        · have := c1 x hh (by omega)
          rw [hcs] at this
          have hcs2 := List.append_cancel_left this
          rw [hcs2] at hmem
          simp only [List.mem_cons, reduceCtorEq, Call.rollback.injEq, List.mem_singleton,
            List.mem_nil_iff, or_false, false_or] at hmem
          subst hmem
          omega

theorem forkChoice_at_nonce_zero_witness :
    forkChoice sampleEnv false 1 genesisHeadState =
      some (some Err.ErrRollBackBehindFinalHeader,
        genesisHeadState.enter (Call.forkChoice false)) ∧
    forkChoice sampleEnv true 1 genesisHeadState =
      some (some Err.ErrRollbackFromGenesis,
        (genesisHeadState.enter (Call.forkChoice true)).enter
          (Call.rollback (sampleBlock 0))) ∧
    (∀ rev r t, forkChoice sampleEnv rev 1 genesisHeadState = some (r, t) →
      (r = some Err.ErrRollbackFromGenesis ↔ rev = true) ∧
      t.currentBlockHeader = genesisHeadState.currentBlockHeader ∧
      t.currentBlockHeaderHash = genesisHeadState.currentBlockHeaderHash ∧
      t.trace = genesisHeadState.trace ∧ t.reads = genesisHeadState.reads) ∧
    (∀ (s0 t : MetaBootstrap) (r : Option Err) (hdr : MetaBlock) (cs : List Call),
      forkChoice sampleEnv false 1 s0 = some (r, t) →
      t.calls = s0.calls ++ cs → Call.rollback hdr ∈ cs →
      sampleEnv.GetHighestFinalBlockNonce s0.view < hdr.Nonce ∧ hdr.Nonce ≠ 0) :=
  forkChoice_at_nonce_zero sampleEnv 0 genesisHeadState (sampleBlock 0) rfl rfl

/-! ## Registration of the recovered shard headers -/

theorem registerInOrder_cons_error (cfg : ScanEnv) (q : Nat × Nat) (rest : List (Nat × Nat))
    (regs : Registrations) (e : Err) (hq : cfg.getShardHeaderFromStorage q.1 q.2 = .error e) :
    registerInOrder cfg (q :: rest) regs = (some e, regs) := by
  simp only [registerInOrder, hq]

theorem registerInOrder_cons_ok (cfg : ScanEnv) (q : Nat × Nat) (rest : List (Nat × Nat))
    (regs : Registrations) (hh : HeaderHandler) (hash : ByteSlice)
    (hq : cfg.getShardHeaderFromStorage q.1 q.2 = .ok (hh, hash)) :
    registerInOrder cfg (q :: rest) regs = registerInOrder cfg rest (regs ++ [(q.1, hh)]) := by
  simp only [registerInOrder, hq]

theorem registerInOrder_append (cfg : ScanEnv) :
    ∀ (a b : List (Nat × Nat)) (regs : Registrations),
      registerInOrder cfg (a ++ b) regs =
        match registerInOrder cfg a regs with
        | (some err, regs1) => (some err, regs1)
        | (none, regs1) => registerInOrder cfg b regs1 := by
  intro a
  induction a with
  | nil => intro b regs; rfl
  | cons q rest ih =>
    intro b regs
    rw [List.cons_append]
    rcases hq : cfg.getShardHeaderFromStorage q.1 q.2 with e | ⟨hh, hash⟩
    · rw [registerInOrder_cons_error cfg q _ regs e hq,
        registerInOrder_cons_error cfg q _ regs e hq]
    · rw [registerInOrder_cons_ok cfg q _ regs hh hash hq,
        registerInOrder_cons_ok cfg q _ regs hh hash hq]
      exact ih b _

theorem applyNotarizedShard_eq (cfg : ScanEnv) (finalNotarized lastNotarized : NonceMap)
    (i : Nat) (regs : Registrations) :
    applyNotarizedShard cfg finalNotarized lastNotarized i regs =
      registerInOrder cfg (shardRequests finalNotarized lastNotarized i) regs := by
  unfold applyNotarizedShard shardRequests
  rw [registerInOrder_append]
  simp only []
  have hlast : ∀ regs1 : Registrations,
      (if lastNotarized.get i > 0 then
        match cfg.getShardHeaderFromStorage i (lastNotarized.get i) with
        | .error err => ((some err, regs1) : Option Err × Registrations)
        | .ok (headerHandler, _) => (none, regs1 ++ [(i, headerHandler)])
      else (none, regs1)) =
      registerInOrder cfg (if lastNotarized.get i > 0 then [(i, lastNotarized.get i)] else [])
        regs1 := by
    intro regs1
    by_cases hl : lastNotarized.get i > 0
    · rw [if_pos hl, if_pos hl]
      rcases hq2 : cfg.getShardHeaderFromStorage i (lastNotarized.get i) with e | ⟨hh2, hash2⟩
      · rw [registerInOrder_cons_error cfg (i, lastNotarized.get i) [] regs1 e hq2]
      · rw [registerInOrder_cons_ok cfg (i, lastNotarized.get i) [] regs1 hh2 hash2 hq2]
        rfl
    · rw [if_neg hl, if_neg hl]
      rfl
  by_cases hf : finalNotarized.get i > 0
  · rw [if_pos hf, if_pos hf]
    rcases hq : cfg.getShardHeaderFromStorage i (finalNotarized.get i) with e | ⟨hh, hash⟩
    · rw [registerInOrder_cons_error cfg (i, finalNotarized.get i) [] regs e hq]
    · rw [registerInOrder_cons_ok cfg (i, finalNotarized.get i) [] regs hh hash hq]
      exact hlast _
  · rw [if_neg hf, if_neg hf]
    exact hlast _

theorem applyNotarizedLoop_eq (cfg : ScanEnv) (finalNotarized lastNotarized : NonceMap) :
    ∀ (shards : List Nat) (regs : Registrations),
      applyNotarizedLoop cfg finalNotarized lastNotarized shards regs =
        registerInOrder cfg (shards.flatMap (shardRequests finalNotarized lastNotarized)) regs := by
  intro shards
  induction shards with
  | nil => intro regs; rfl
  | cons i rest ih =>
    intro regs
    rw [List.flatMap_cons, registerInOrder_append]
    unfold applyNotarizedLoop
    rw [applyNotarizedShard_eq]
    rcases registerInOrder cfg (shardRequests finalNotarized lastNotarized i) regs with
      ⟨_ | e, regs1⟩
    · exact ih regs1
    · rfl

theorem registerInOrder_all_loaded (cfg : ScanEnv) :
    ∀ (reqs : List (Nat × Nat)) (regs : Registrations),
      (∀ q, q ∈ reqs → ∃ hh hash, cfg.getShardHeaderFromStorage q.1 q.2 = .ok (hh, hash)) →
      registerInOrder cfg reqs regs = (none, regs ++ reqs.filterMap (registration cfg)) ∧
      (reqs.filterMap (registration cfg)).length = reqs.length := by
  intro reqs
  induction reqs with
  | nil => intro regs _; simp [registerInOrder]
  | cons q rest ih =>
    intro regs hall
    obtain ⟨hh, hash, hq⟩ := hall q (List.mem_cons_self _ _)
    obtain ⟨h1, h2⟩ := ih (regs ++ [(q.1, hh)]) (fun x hx => hall x (List.mem_cons_of_mem _ hx))
    have hreg : registration cfg q = some (q.1, hh) := by
      unfold registration
      rw [hq]
    constructor
    · unfold registerInOrder
      rw [hq]
      simp only []
      rw [h1, List.filterMap_cons, hreg]
      simp
    · rw [List.filterMap_cons, hreg]
      simp [h2]

theorem registerInOrder_first_failure (cfg : ScanEnv) :
    ∀ (pre : List (Nat × Nat)) (q : Nat × Nat) (post : List (Nat × Nat)) (e : Err)
      (regs : Registrations),
      (∀ p, p ∈ pre → ∃ hh hash, cfg.getShardHeaderFromStorage p.1 p.2 = .ok (hh, hash)) →
      cfg.getShardHeaderFromStorage q.1 q.2 = .error e →
      registerInOrder cfg (pre ++ q :: post) regs =
        (some e, regs ++ pre.filterMap (registration cfg)) := by
  intro pre q post e regs hpre hq
  rw [registerInOrder_append, (registerInOrder_all_loaded cfg pre regs hpre).1]
  simp only []
  unfold registerInOrder
  rw [hq]

theorem registerInOrder_take (cfg : ScanEnv) :
    ∀ (reqs : List (Nat × Nat)) (regs : Registrations),
      ∃ k, (registerInOrder cfg reqs regs).2 =
          regs ++ (reqs.take k).filterMap (registration cfg) ∧
        (∀ p, p ∈ reqs.take k →
          ∃ hh hash, cfg.getShardHeaderFromStorage p.1 p.2 = .ok (hh, hash)) ∧
        (∀ e, (registerInOrder cfg reqs regs).1 = some e →
          ∃ q post, reqs = reqs.take k ++ q :: post ∧
            cfg.getShardHeaderFromStorage q.1 q.2 = .error e) ∧
        ((registerInOrder cfg reqs regs).1 = none → reqs.take k = reqs) := by
  intro reqs
  induction reqs with
  | nil =>
    intro regs
    exact ⟨0, by simp [registerInOrder], by simp, by simp [registerInOrder], by simp⟩
  | cons q rest ih =>
    intro regs
    rcases hq : cfg.getShardHeaderFromStorage q.1 q.2 with e | ⟨hh, hash⟩
    · refine ⟨0, ?_, by simp, ?_, ?_⟩
      · unfold registerInOrder
        rw [hq]
        simp
      · intro e1 he1
        unfold registerInOrder at he1
        rw [hq] at he1
        simp only [Option.some.injEq] at he1
        subst he1
        exact ⟨q, rest, by simp, hq⟩
      · intro hnone
        unfold registerInOrder at hnone
        rw [hq] at hnone
        simp at hnone
    · obtain ⟨k, h1, h2, h3, h4⟩ := ih (regs ++ [(q.1, hh)])
      have hreg : registration cfg q = some (q.1, hh) := by
        unfold registration
        rw [hq]
      have hstep : registerInOrder cfg (q :: rest) regs =
          registerInOrder cfg rest (regs ++ [(q.1, hh)]) := by
        conv => lhs; unfold registerInOrder
        rw [hq]
      refine ⟨k + 1, ?_, ?_, ?_, ?_⟩
      · rw [hstep, h1, List.take_succ_cons, List.filterMap_cons, hreg]
        simp
      · intro p hp
        rw [List.take_succ_cons] at hp
        rcases List.mem_cons.mp hp with h5 | h5
        · subst h5
          exact ⟨hh, hash, hq⟩
        · exact h2 p h5
      · intro e he
        rw [hstep] at he
        obtain ⟨q1, post, hsplit, hfail⟩ := h3 e he
        refine ⟨q1, post, ?_, hfail⟩
        rw [List.take_succ_cons, List.cons_append, ← hsplit]
      · intro hnone
        rw [hstep] at hnone
        rw [List.take_succ_cons, h4 hnone]

theorem mem_shardRequests (finalNotarized lastNotarized : NonceMap) (i : Nat) (q : Nat × Nat) :
    q ∈ shardRequests finalNotarized lastNotarized i ↔
      q.1 = i ∧ 0 < q.2 ∧ (q.2 = finalNotarized.get i ∨ q.2 = lastNotarized.get i) := by
  obtain ⟨a, b⟩ := q
  unfold shardRequests
  by_cases hf : finalNotarized.get i > 0 <;> by_cases hl : lastNotarized.get i > 0
  · rw [if_pos hf, if_pos hl]
    simp only [List.singleton_append, List.mem_cons, Prod.mk.injEq, List.mem_singleton,
      List.mem_nil_iff, or_false]
    constructor
    · rintro (⟨h1, h2⟩ | ⟨h1, h2⟩)
      · exact ⟨h1, by omega, Or.inl h2⟩
      · exact ⟨h1, by omega, Or.inr h2⟩
    · rintro ⟨h1, _, h3 | h3⟩
      · exact Or.inl ⟨h1, h3⟩
      · exact Or.inr ⟨h1, h3⟩
  · rw [if_pos hf, if_neg hl]
    simp only [List.append_nil, List.mem_singleton, Prod.mk.injEq]
    constructor
    · rintro ⟨h1, h2⟩
      exact ⟨h1, by omega, Or.inl h2⟩
    · rintro ⟨h1, h2, h3 | h3⟩
      · exact ⟨h1, h3⟩
      · omega
  · rw [if_neg hf, if_pos hl]
    simp only [List.nil_append, List.mem_singleton, Prod.mk.injEq]
    constructor
    · rintro ⟨h1, h2⟩
      exact ⟨h1, by omega, Or.inr h2⟩
    · rintro ⟨h1, h2, h3 | h3⟩
      · omega
      · exact ⟨h1, h3⟩
  · rw [if_neg hf, if_neg hl]
    simp only [List.append_nil, List.not_mem_nil, false_iff, not_and]
    rintro _ h2 (h3 | h3) <;> omega

theorem mem_loadRequests (cfg : ScanEnv) (finalNotarized lastNotarized : NonceMap)
    (q : Nat × Nat) :
    q ∈ loadRequests cfg finalNotarized lastNotarized ↔
      q.1 < cfg.NumberOfShards ∧ 0 < q.2 ∧
        (q.2 = finalNotarized.get q.1 ∨ q.2 = lastNotarized.get q.1) := by
  unfold loadRequests
  rw [List.mem_flatMap]
  constructor
  · rintro ⟨i, hi, hq⟩
    rw [mem_shardRequests] at hq
    obtain ⟨h1, h2, h3⟩ := hq
    rw [List.mem_range] at hi
    rw [h1]
    exact ⟨hi, h2, h3⟩
  · rintro ⟨h1, h2, h3⟩
    exact ⟨q.1, List.mem_range.mpr h1, (mem_shardRequests _ _ _ _).mpr ⟨rfl, h2, h3⟩⟩

theorem loadRequests_ascending (cfg : ScanEnv) (finalNotarized lastNotarized : NonceMap) :
    (loadRequests cfg finalNotarized lastNotarized).Pairwise (fun a b => a.1 ≤ b.1) := by
  unfold loadRequests
  rw [List.pairwise_flatMap]
  constructor
  · intro i _
    have hall : ∀ q, q ∈ shardRequests finalNotarized lastNotarized i → q.1 = i :=
      fun q hq => ((mem_shardRequests _ _ _ _).mp hq).1
    generalize shardRequests finalNotarized lastNotarized i = l at hall
    induction l with
    | nil => exact List.Pairwise.nil
    | cons x rest ih =>
      refine List.Pairwise.cons ?_ (ih (fun q hq => hall q (List.mem_cons_of_mem _ hq)))
      intro y hy
      rw [hall x (List.mem_cons_self _ _), hall y (List.mem_cons_of_mem _ hy)]
  · refine List.Pairwise.imp ?_ (List.pairwise_lt_range cfg.NumberOfShards)
    intro a b hab x hx y hy
    rw [((mem_shardRequests _ _ _ _).mp hx).1, ((mem_shardRequests _ _ _ _).mp hy).1]
    omega

theorem registration_fst (cfg : ScanEnv) (q : Nat × Nat) (r : Nat × HeaderHandler)
    (h : r ∈ registration cfg q) : r.1 = q.1 := by
  unfold registration at h
  rcases hq : cfg.getShardHeaderFromStorage q.1 q.2 with e | ⟨hh, hash⟩
  · rw [hq] at h
    simp at h
  · rw [hq] at h
    simp only [Option.mem_def, Option.some.injEq] at h
    rw [← h]

/-- C22: `applyNotarizedBlocks(finalNotarized, lastNotarized)` does what the
contract says.  The loads it asks for are, shard by shard in ascending order
of the shards `0 .. NumberOfShards - 1`, the shard header at nonce
`finalNotarized[i]` when that nonce is `> 0` and then the one at nonce
`lastNotarized[i]` when that nonce is `> 0` (`loadRequests`); it loads them in
this order and registers each loaded header with `AddLastNotarizedHdr(i, .)`.
When every load succeeds it returns nil and has made one registration per
request; the first load that fails makes it return that error, the
registrations made being those of the requests before it; an error is returned
in no other case.  A shard whose two nonces are 0 gets no registration, no
registration is made for a shard `>= NumberOfShards`, and the registrations are
in ascending order of shards. -/
theorem applyNotarizedBlocks_registers_in_order (cfg : ScanEnv)
    (finalNotarized lastNotarized : NonceMap) :
    applyNotarizedBlocks cfg finalNotarized lastNotarized =
      registerInOrder cfg (loadRequests cfg finalNotarized lastNotarized) [] ∧
    (∀ q, q ∈ loadRequests cfg finalNotarized lastNotarized ↔
      q.1 < cfg.NumberOfShards ∧ 0 < q.2 ∧
        (q.2 = finalNotarized.get q.1 ∨ q.2 = lastNotarized.get q.1)) ∧
    ((∀ q, q ∈ loadRequests cfg finalNotarized lastNotarized →
        ∃ hh hash, cfg.getShardHeaderFromStorage q.1 q.2 = .ok (hh, hash)) →
      applyNotarizedBlocks cfg finalNotarized lastNotarized =
        (none, (loadRequests cfg finalNotarized lastNotarized).filterMap (registration cfg)) ∧
      (applyNotarizedBlocks cfg finalNotarized lastNotarized).2.length =
        (loadRequests cfg finalNotarized lastNotarized).length) ∧
    (∀ pre q post e,
      loadRequests cfg finalNotarized lastNotarized = pre ++ q :: post →
      (∀ p, p ∈ pre → ∃ hh hash, cfg.getShardHeaderFromStorage p.1 p.2 = .ok (hh, hash)) →
      cfg.getShardHeaderFromStorage q.1 q.2 = .error e →
      applyNotarizedBlocks cfg finalNotarized lastNotarized =
        (some e, pre.filterMap (registration cfg)) ∧
      (applyNotarizedBlocks cfg finalNotarized lastNotarized).2.length = pre.length) ∧
    (∀ e, (applyNotarizedBlocks cfg finalNotarized lastNotarized).1 = some e →
      ∃ pre q post,
        loadRequests cfg finalNotarized lastNotarized = pre ++ q :: post ∧
        (∀ p, p ∈ pre → ∃ hh hash, cfg.getShardHeaderFromStorage p.1 p.2 = .ok (hh, hash)) ∧
        cfg.getShardHeaderFromStorage q.1 q.2 = .error e) ∧
    (∀ i, finalNotarized.get i = 0 → lastNotarized.get i = 0 →
      ∀ r, r ∈ (applyNotarizedBlocks cfg finalNotarized lastNotarized).2 → r.1 ≠ i) ∧
    (∀ r, r ∈ (applyNotarizedBlocks cfg finalNotarized lastNotarized).2 →
      r.1 < cfg.NumberOfShards) ∧
    ((applyNotarizedBlocks cfg finalNotarized lastNotarized).2.map Prod.fst).Pairwise
      (fun a b => a ≤ b) := by
  have heq : applyNotarizedBlocks cfg finalNotarized lastNotarized =
      registerInOrder cfg (loadRequests cfg finalNotarized lastNotarized) [] :=
    applyNotarizedLoop_eq cfg finalNotarized lastNotarized _ []
  obtain ⟨k, hk1, hk2, hk3, _⟩ :=
    registerInOrder_take cfg (loadRequests cfg finalNotarized lastNotarized) []
  rw [← heq] at hk1 hk3
  simp only [List.nil_append] at hk1
  have hfrom : ∀ r, r ∈ (applyNotarizedBlocks cfg finalNotarized lastNotarized).2 →
      ∃ q, q ∈ loadRequests cfg finalNotarized lastNotarized ∧ r.1 = q.1 := by
    intro r hr
    rw [hk1, List.mem_filterMap] at hr
    obtain ⟨q, hq, hreg⟩ := hr
    exact ⟨q, List.mem_of_mem_take hq, registration_fst cfg q r hreg⟩
  refine ⟨heq, mem_loadRequests cfg finalNotarized lastNotarized, ?_, ?_, ?_, ?_, ?_, ?_⟩
  · intro hall
    obtain ⟨h1, h2⟩ := registerInOrder_all_loaded cfg _ [] hall
    rw [heq, h1, List.nil_append]
    exact ⟨rfl, h2⟩
  · intro pre q post e hsplit hpre hq
    have h1 := registerInOrder_first_failure cfg pre q post e [] hpre hq
    rw [heq, hsplit, h1, List.nil_append]
    exact ⟨rfl, (registerInOrder_all_loaded cfg pre [] hpre).2⟩
  · intro e he
    obtain ⟨q, post, hsplit, hfail⟩ := hk3 e he
    exact ⟨_, q, post, hsplit, hk2, hfail⟩
  · intro i hf hl r hr heq2
    obtain ⟨q, hq, hfst⟩ := hfrom r hr
    obtain ⟨_, hpos, hval⟩ := (mem_loadRequests cfg finalNotarized lastNotarized q).mp hq
    rw [← hfst, heq2] at hval
    omega
  · intro r hr
    obtain ⟨q, hq, hfst⟩ := hfrom r hr
    rw [hfst]
    exact ((mem_loadRequests cfg finalNotarized lastNotarized q).mp hq).1
  · rw [List.pairwise_map, hk1]
    have hp := (loadRequests_ascending cfg finalNotarized lastNotarized).sublist
      (List.take_sublist k _)
    refine List.Pairwise.filterMap (registration cfg) ?_ hp
    intro a a1 hle b hb b1 hb1
    rw [registration_fst cfg a b hb, registration_fst cfg a1 b1 hb1]
    exact hle

/-! ## Fork choice with the fork nonce: termination -/

theorem forkChoiceLoop_error (env : Env) (rev : Bool) (fuel : Nat) (s : MetaBootstrap) (e : Err)
    (hc : getCurrentHeader s = .error e) :
    forkChoiceLoop env rev (fuel + 1) s = some (some e, s) := by
  unfold forkChoiceLoop
  rw [hc]

theorem forkChoiceLoop_true_step (env : Env) (fuel : Nat) (s : MetaBootstrap) (hdr : MetaBlock)
    (hc : getCurrentHeader s = .ok hdr) :
    forkChoiceLoop env true (fuel + 1) s =
      match rollback env hdr s with
      | (some e, s1) => some (some e, s1)
      | (none, s1) =>
        if hdr.Nonce > s1.forkNonce then forkChoiceLoop env true fuel s1 else some (none, s1) := by
  conv => lhs; unfold forkChoiceLoop
  rw [hc]
  simp only [Bool.not_true, Bool.false_and, Bool.false_eq_true, if_false, Bool.true_and,
    decide_eq_true_eq]

theorem getCurrentHeader_of_head (s : MetaBootstrap) (hdr : MetaBlock)
    (h : s.currentBlockHeader = some (HeaderHandler.metaBlock hdr)) :
    getCurrentHeader s = .ok hdr := by
  unfold getCurrentHeader
  rw [h]

theorem getCurrentHeader_error_of_no_head (s : MetaBootstrap)
    (h : ∀ hdr, s.currentBlockHeader ≠ some (HeaderHandler.metaBlock hdr)) :
    ∃ e, getCurrentHeader s = .error e := by
  unfold getCurrentHeader
  cases hh : s.currentBlockHeader with
  | none => exact ⟨_, rfl⟩
  | some x =>
    cases x with
    | metaBlock m => exact absurd hh (h m)
    | shardHeader y => exact ⟨_, rfl⟩

/-- Head left by a successful rollback on a chain whose stored predecessors
have a smaller nonce. -/
theorem rollback_head_decreases (env : Env) (chain : MetaBlock → Prop)
    (hdec : ∀ store v hdr buff newHeader,
      env.GetStorer UnitType.MetaBlockUnit = some store → chain hdr → 1 < hdr.Nonce →
      store.Get v hdr.PrevHash = .ok buff → env.Unmarshal buff = .ok newHeader →
      newHeader.Nonce < hdr.Nonce ∧ chain newHeader)
    (hdr : MetaBlock) (s t : MetaBootstrap) (hchain : chain hdr)
    (h : rollback env hdr s = (none, t)) :
    t.forkNonce = s.forkNonce ∧ t.calls = s.calls ++ [Call.rollback hdr] ∧
    (t.currentBlockHeader = none ∨
      ∃ nh, t.currentBlockHeader = some (HeaderHandler.metaBlock nh) ∧
        nh.Nonce < hdr.Nonce ∧ chain nh) := by
  have hfr := rollback_frame env hdr s
  have hcalls := rollback_calls env hdr s
  rw [h] at hfr hcalls
  obtain ⟨hn0, hgt, h1⟩ := rollback_success env hdr s t h
  refine ⟨hfr.forkNonce, hcalls, ?_⟩
  by_cases hn : 1 < hdr.Nonce
  · obtain ⟨store, buff, nh, hs, hg, hu, ht⟩ := hgt hn
    obtain ⟨hlt, hch⟩ := hdec store s.view hdr buff nh hs hchain hn hg hu
    right
    exact ⟨nh, by rw [ht], hlt, hch⟩
  · left
    rw [h1 (by omega)]

theorem forkChoiceLoop_true_terminates (env : Env) (chain : MetaBlock → Prop)
    (hdec : ∀ store v hdr buff newHeader,
      env.GetStorer UnitType.MetaBlockUnit = some store → chain hdr → 1 < hdr.Nonce →
      store.Get v hdr.PrevHash = .ok buff → env.Unmarshal buff = .ok newHeader →
      newHeader.Nonce < hdr.Nonce ∧ chain newHeader) :
    ∀ (fuel : Nat) (s : MetaBootstrap) (hdr : MetaBlock),
      s.currentBlockHeader = some (HeaderHandler.metaBlock hdr) → chain hdr →
      hdr.Nonce - s.forkNonce + 1 ≤ fuel →
      ∃ r t cs, forkChoiceLoop env true fuel s = some (r, t) ∧
        t.calls = s.calls ++ cs ∧ cs.length ≤ hdr.Nonce - s.forkNonce + 1 ∧
        ∀ c, c ∈ cs → c.isRollback = true := by
  intro fuel
  induction fuel with
  | zero => intro s hdr _ _ hb; omega
  | succ n ih =>
    intro s hdr hhead hchain hb
    rw [forkChoiceLoop_true_step env n s hdr (getCurrentHeader_of_head s hdr hhead)]
    rcases hr : rollback env hdr s with ⟨_ | e, s1⟩
    · obtain ⟨hfn, hcalls, hnew⟩ := rollback_head_decreases env chain hdec hdr s s1 hchain hr
      simp only []
      by_cases hgt : hdr.Nonce > s1.forkNonce
      · rw [if_pos hgt]
        rcases hnew with hnil | ⟨nh, hnh, hlt, hch⟩
        · obtain ⟨k, rfl⟩ : ∃ k, n = k + 1 := ⟨n - 1, by omega⟩
          have hc : getCurrentHeader s1 = .error Err.ErrNilBlockHeader := by
            unfold getCurrentHeader
            rw [hnil]
          rw [forkChoiceLoop_error env true k s1 _ hc]
          exact ⟨_, s1, [Call.rollback hdr], rfl, hcalls, by simp, by simp [Call.isRollback]⟩
        · obtain ⟨r, t, cs, hloop, hcs, hlen, hall⟩ := ih s1 nh hnh hch (by omega)
          refine ⟨r, t, Call.rollback hdr :: cs, hloop, ?_, ?_, ?_⟩
          · rw [hcs, hcalls]
            simp
          · simp only [List.length_cons]
            omega
          · intro c hc
            rcases List.mem_cons.mp hc with h1 | h1
            · subst h1; rfl
            · exact hall c h1
      · rw [if_neg hgt]
        exact ⟨none, s1, [Call.rollback hdr], rfl, hcalls, by simp, by simp [Call.isRollback]⟩
    · have hcalls := rollback_calls env hdr s
      rw [hr] at hcalls
      exact ⟨some e, s1, [Call.rollback hdr], rfl, hcalls, by simp, by simp [Call.isRollback]⟩

/-- C28: `forkChoice` terminates for both values of `revertUsingForkNonce` on
every chain whose stored predecessor of a header has a strictly smaller nonce
(the predecessor is read for headers with a nonce above 1 only).
One unit of fuel is one run of the loop body.  With `revertUsingForkNonce =
false` one run is enough, on every chain, and `rollback` is entered at most
once.  With `revertUsingForkNonce = true`, a successful rollback leaves a nil
head or a head with a strictly smaller nonce, and `head nonce - fork nonce + 1`
runs are enough (the difference counted as 0 when the head nonce is below the
fork nonce) for the function to return, with nil or with an error, `rollback`
having been entered at most that many times; on a nil head or a head that is
not a MetaBlock one run returns the error of `getCurrentHeader`. -/
theorem forkChoice_terminates (env : Env) (chain : MetaBlock → Prop)
    (hdec : ∀ store v hdr buff newHeader,
      env.GetStorer UnitType.MetaBlockUnit = some store → chain hdr → 1 < hdr.Nonce →
      store.Get v hdr.PrevHash = .ok buff → env.Unmarshal buff = .ok newHeader →
      newHeader.Nonce < hdr.Nonce ∧ chain newHeader)
    (s : MetaBootstrap)
    (hhead : ∀ hdr, s.currentBlockHeader = some (HeaderHandler.metaBlock hdr) → chain hdr) :
    (∀ fuel, ∃ r t cs, forkChoice env false (fuel + 1) s = some (r, t) ∧
      t.calls = s.calls ++ Call.forkChoice false :: cs ∧ cs.length ≤ 1 ∧
      ∀ c, c ∈ cs → c.isRollback = true) ∧
    (∀ hdr, s.currentBlockHeader = some (HeaderHandler.metaBlock hdr) →
      ∀ fuel, hdr.Nonce - s.forkNonce + 1 ≤ fuel →
      ∃ r t cs, forkChoice env true fuel s = some (r, t) ∧
        t.calls = s.calls ++ Call.forkChoice true :: cs ∧
        cs.length ≤ hdr.Nonce - s.forkNonce + 1 ∧
        ∀ c, c ∈ cs → c.isRollback = true) ∧
    ((∀ hdr, s.currentBlockHeader ≠ some (HeaderHandler.metaBlock hdr)) →
      ∀ fuel, ∃ e, forkChoice env true (fuel + 1) s =
        some (some e, s.enter (Call.forkChoice true))) ∧
    (∀ hdr s0 t, chain hdr → rollback env hdr s0 = (none, t) →
      t.currentBlockHeader = none ∨
        ∃ nh, t.currentBlockHeader = some (HeaderHandler.metaBlock nh) ∧
          nh.Nonce < hdr.Nonce ∧ chain nh) := by
  refine ⟨fun fuel => ?_, fun hdr hh fuel hb => ?_, fun hno fuel => ?_,
    fun hdr s0 t hch hr => (rollback_head_decreases env chain hdec hdr s0 t hch hr).2.2⟩
  · obtain ⟨r, t, hfc⟩ : ∃ r t, forkChoice env false (fuel + 1) s = some (r, t) := by
      obtain ⟨r, t, h, _⟩ := forkChoice_false_total env fuel s
      exact ⟨r, t, h⟩
    obtain ⟨c1, c2, c3⟩ := forkChoice_false_calls env fuel s t r hfc
    cases hcur : s.currentBlockHeader with
    | none =>
      refine ⟨r, t, [], hfc, c3 (fun x hx => by rw [hcur] at hx; simp at hx), by simp, by simp⟩
    | some hd =>
      cases hd with
      | shardHeader x =>
        refine ⟨r, t, [], hfc, c3 (fun y hy => by rw [hcur] at hy; simp at hy), by simp,
          by simp⟩
      | metaBlock x =>
        by_cases hle : x.Nonce ≤ env.GetHighestFinalBlockNonce s.view
        · exact ⟨r, t, [], hfc, (c2 x hcur hle).2, by simp, by simp⟩
        · exact ⟨r, t, [Call.rollback x], hfc, c1 x hcur (by omega), by simp,
            by simp [Call.isRollback]⟩
  · obtain ⟨r, t, cs, hloop, hcs, hlen, hall⟩ :=
      forkChoiceLoop_true_terminates env chain hdec fuel (s.enter (Call.forkChoice true)) hdr
        hh (hhead hdr hh) hb
    refine ⟨r, t, cs, hloop, ?_, hlen, hall⟩
    rw [hcs]
    simp [MetaBootstrap.enter]
  · obtain ⟨e, he⟩ := getCurrentHeader_error_of_no_head (s.enter (Call.forkChoice true)) hno
    exact ⟨e, forkChoiceLoop_error env true fuel _ e he⟩

theorem sampleEnv_predecessor (store : Storer) (v : View) (hdr : MetaBlock) (buff : ByteSlice)
    (newHeader : MetaBlock)
    (hstore : sampleEnv.GetStorer UnitType.MetaBlockUnit = some store)
    (hchain : onSampleChain hdr)
    (hget : store.Get v hdr.PrevHash = .ok buff)
    (hun : sampleEnv.Unmarshal buff = .ok newHeader) :
    newHeader.Nonce = hdr.Nonce - 1 ∧ onSampleChain newHeader := by
  have hs : store = sampleStorer := by
    have h1 : some sampleStorer = some store := hstore
    simp only [Option.some.injEq] at h1
    exact h1.symm
  subst hs
  have hb : buff = hdr.PrevHash := by
    have h1 : Except.ok hdr.PrevHash = Except.ok buff := hget
    simp only [Except.ok.injEq] at h1
    exact h1.symm
  subst hb
  unfold onSampleChain at hchain
  rw [hchain] at hun
  have h2 : Except.ok (sampleBlock (hdr.Nonce - 1)) = Except.ok newHeader := hun
  simp only [Except.ok.injEq] at h2
  subst h2
  exact ⟨rfl, rfl⟩

theorem forkChoice_terminates_witness :
    (∀ fuel, ∃ r t cs, forkChoice sampleEnv false (fuel + 1) specificForkState = some (r, t) ∧
      t.calls = specificForkState.calls ++ Call.forkChoice false :: cs ∧ cs.length ≤ 1 ∧
      ∀ c, c ∈ cs → c.isRollback = true) ∧
    (∀ hdr, specificForkState.currentBlockHeader = some (HeaderHandler.metaBlock hdr) →
      ∀ fuel, hdr.Nonce - specificForkState.forkNonce + 1 ≤ fuel →
      ∃ r t cs, forkChoice sampleEnv true fuel specificForkState = some (r, t) ∧
        t.calls = specificForkState.calls ++ Call.forkChoice true :: cs ∧
        cs.length ≤ hdr.Nonce - specificForkState.forkNonce + 1 ∧
        ∀ c, c ∈ cs → c.isRollback = true) ∧
    ((∀ hdr, specificForkState.currentBlockHeader ≠ some (HeaderHandler.metaBlock hdr)) →
      ∀ fuel, ∃ e, forkChoice sampleEnv true (fuel + 1) specificForkState =
        some (some e, specificForkState.enter (Call.forkChoice true))) ∧
    (∀ hdr s0 t, onSampleChain hdr → rollback sampleEnv hdr s0 = (none, t) →
      t.currentBlockHeader = none ∨
        ∃ nh, t.currentBlockHeader = some (HeaderHandler.metaBlock nh) ∧
          nh.Nonce < hdr.Nonce ∧ onSampleChain nh) :=
  forkChoice_terminates sampleEnv onSampleChain
    (fun store v hdr buff newHeader hstore hchain hn hget hun =>
      have h := sampleEnv_predecessor store v hdr buff newHeader hstore hchain hget hun
      ⟨by omega, h.2⟩)
    specificForkState
    (fun hdr hh => by
      have h1 : some (HeaderHandler.metaBlock (sampleBlock 8)) =
          some (HeaderHandler.metaBlock hdr) := hh
      simp only [Option.some.injEq, HeaderHandler.metaBlock.injEq] at h1
      subst h1
      rfl)

/-! ## Fork choice with the fork nonce: how far it rolls back -/

/-- One rollback on a chain whose stored predecessors are one nonce below, with
collaborators that do not fail. -/
theorem rollback_on_chain (env : Env) (chain : MetaBlock → Prop) (store store2 : Storer)
    (hstore : env.GetStorer UnitType.MetaBlockUnit = some store)
    (hstore2 : env.GetStorer UnitType.MetaHdrNonceHashDataUnit = some store2)
    (hpred : ∀ v hdr, chain hdr → 1 < hdr.Nonce →
      ∃ buff newHeader, store.Get v hdr.PrevHash = .ok buff ∧
        env.Unmarshal buff = .ok newHeader ∧ newHeader.Nonce = hdr.Nonce - 1 ∧ chain newHeader)
    (hset : ∀ v h, env.SetCurrentBlockHeader v h = none)
    (htrie : ∀ v r, env.RecreateTrie v r = none)
    (hdr : MetaBlock) (s : MetaBootstrap) (hchain : chain hdr) (hn : 1 ≤ hdr.Nonce) :
    ∃ t es, rollback env hdr s = (none, t) ∧
      t.forkNonce = s.forkNonce ∧
      t.calls = s.calls ++ [Call.rollback hdr] ∧
      t.trace = s.trace ++ es ∧ es.length = 5 ∧ (∀ e, e ∈ es → e.isRollbackStep = true) ∧
      (hdr.Nonce = 1 → t.currentBlockHeader = none) ∧
      (1 < hdr.Nonce →
        ∃ nh, t.currentBlockHeader = some (HeaderHandler.metaBlock nh) ∧
          nh.Nonce = hdr.Nonce - 1 ∧ chain nh) := by
  have hnone : (rollback env hdr s).1 = none := by
    unfold rollback
    simp only []
    rw [if_neg (by omega), hstore, hstore2]
    simp only []
    by_cases hgt : hdr.Nonce > 1
    · rw [if_pos hgt]
      obtain ⟨buff, nh, hget, hun, _, _⟩ := hpred (s.enter (Call.rollback hdr)).view hdr hchain hgt
      have hprev : getPrevHeader env store hdr (s.enter (Call.rollback hdr)) =
          (.ok nh, (s.enter (Call.rollback hdr)).look
            (Read.StorerGet UnitType.MetaBlockUnit hdr.PrevHash)) := by
        unfold getPrevHeader
        simp only [hget, hun]
      rw [hprev]
      simp only []
      rw [rollbackApply_succeeds env hdr _ _ _ _ (hset _ _) (htrie _ _)]
    · rw [if_neg hgt]
      rw [rollbackApply_succeeds env hdr _ _ _ _ (hset _ _) (htrie _ _)]
  have heq : rollback env hdr s = (none, (rollback env hdr s).2) := by
    rw [← hnone]
  obtain ⟨_, hgt, h1⟩ := rollback_success env hdr s _ heq
  have hfr := rollback_frame env hdr s
  obtain ⟨es, hes, hsteps⟩ := hfr.trace
  have hlen : es.length = 5 := by
    by_cases hn1 : 1 < hdr.Nonce
    · obtain ⟨st, buff, nh, _, _, _, ht⟩ := hgt hn1
      rw [ht] at hes
      have := List.append_cancel_left hes
      rw [← this]
      rfl
    · have ht := h1 (by omega)
      rw [ht] at hes
      have := List.append_cancel_left hes
      rw [← this]
      rfl
  refine ⟨(rollback env hdr s).2, es, heq, hfr.forkNonce, rollback_calls env hdr s, hes, hlen,
    hsteps, ?_, ?_⟩
  · intro hone
    rw [h1 hone]
  · intro hn1
    obtain ⟨st, buff, nh, hs1, hget, hun, ht⟩ := hgt hn1
    obtain ⟨buff2, nh2, hget2, hun2, hnonce, hch⟩ := hpred s.view hdr hchain hn1
    have hst : st = store := by
      rw [hstore] at hs1
      simp only [Option.some.injEq] at hs1
      exact hs1.symm
    subst hst
    rw [hget2] at hget
    simp only [Except.ok.injEq] at hget
    subst hget
    rw [hun2] at hun
    simp only [Except.ok.injEq] at hun
    subst hun
    exact ⟨nh2, by rw [ht], hnonce, hch⟩

theorem forkChoiceLoop_true_exact (env : Env) (chain : MetaBlock → Prop) (store store2 : Storer)
    (hstore : env.GetStorer UnitType.MetaBlockUnit = some store)
    (hstore2 : env.GetStorer UnitType.MetaHdrNonceHashDataUnit = some store2)
    (hpred : ∀ v hdr, chain hdr → 1 < hdr.Nonce →
      ∃ buff newHeader, store.Get v hdr.PrevHash = .ok buff ∧
        env.Unmarshal buff = .ok newHeader ∧ newHeader.Nonce = hdr.Nonce - 1 ∧ chain newHeader)
    (hset : ∀ v h, env.SetCurrentBlockHeader v h = none)
    (htrie : ∀ v r, env.RecreateTrie v r = none) :
    ∀ (k fuel : Nat) (s : MetaBootstrap) (hdr : MetaBlock),
      s.currentBlockHeader = some (HeaderHandler.metaBlock hdr) → chain hdr →
      1 ≤ s.forkNonce → hdr.Nonce = s.forkNonce + k → k + 1 ≤ fuel →
      ∃ t cs es, forkChoiceLoop env true fuel s = some (none, t) ∧
        t.calls = s.calls ++ cs ∧ cs.length = k + 1 ∧ (∀ c, c ∈ cs → c.isRollback = true) ∧
        t.trace = s.trace ++ es ∧ es.length = 5 * (k + 1) ∧
        (∀ e, e ∈ es → e.isRollbackStep = true) ∧
        (s.forkNonce = 1 → t.currentBlockHeader = none) ∧
        (1 < s.forkNonce →
          ∃ nh, t.currentBlockHeader = some (HeaderHandler.metaBlock nh) ∧
            nh.Nonce = s.forkNonce - 1 ∧ chain nh) := by
  intro k
  induction k with
  | zero =>
    intro fuel s hdr hhead hchain hf hnonce hfuel
    obtain ⟨n, rfl⟩ : ∃ n, fuel = n + 1 := ⟨fuel - 1, by omega⟩
    obtain ⟨t, es, hr, hfn, hcalls, htrace, hlen, hsteps, hone, hmore⟩ :=
      rollback_on_chain env chain store store2 hstore hstore2 hpred hset htrie hdr s hchain
        (by omega)
    rw [forkChoiceLoop_true_step env n s hdr (getCurrentHeader_of_head s hdr hhead), hr]
    simp only []
    rw [if_neg (by rw [hfn]; omega)]
    refine ⟨t, [Call.rollback hdr], es, rfl, hcalls, rfl, by simp [Call.isRollback], htrace,
      by rw [hlen], hsteps, fun h1 => hone (by omega), fun h1 => ?_⟩
    obtain ⟨nh, h2, h3, h4⟩ := hmore (by omega)
    exact ⟨nh, h2, by omega, h4⟩
  | succ j ih =>
    intro fuel s hdr hhead hchain hf hnonce hfuel
    obtain ⟨n, rfl⟩ : ∃ n, fuel = n + 1 := ⟨fuel - 1, by omega⟩
    obtain ⟨t1, es1, hr, hfn, hcalls, htrace, hlen, hsteps, _, hmore⟩ :=
      rollback_on_chain env chain store store2 hstore hstore2 hpred hset htrie hdr s hchain
        (by omega)
    obtain ⟨nh, hnh, hnonce1, hch1⟩ := hmore (by omega)
    rw [forkChoiceLoop_true_step env n s hdr (getCurrentHeader_of_head s hdr hhead), hr]
    simp only []
    rw [if_pos (by rw [hfn]; omega)]
    obtain ⟨t, cs, es, hloop, hcs, hcslen, hall, hes, heslen, hessteps, hone, hgt⟩ :=
      ih n t1 nh hnh hch1 (by rw [hfn]; exact hf) (by rw [hfn]; omega) (by omega)
    refine ⟨t, Call.rollback hdr :: cs, es1 ++ es, hloop, ?_, by simp [hcslen], ?_, ?_, ?_, ?_,
      fun h1 => hone (by rw [hfn]; exact h1), fun h1 => ?_⟩
    · rw [hcs, hcalls]
      simp
    · intro c hc
      rcases List.mem_cons.mp hc with h1 | h1
      · subst h1; rfl
      · exact hall c h1
    · rw [hes, htrace]
      simp
    · rw [List.length_append, hlen, heslen]
      omega
    · intro e he
      rcases List.mem_append.mp he with h1 | h1
      · exact hsteps e h1
      · exact hessteps e h1
    · obtain ⟨nh2, h2, h3, h4⟩ := hgt (by rw [hfn]; exact h1)
      exact ⟨nh2, h2, by rw [h3, hfn], h4⟩

theorem forkChoiceLoop_true_ignores_final (env : Env) (g : View → Nat) :
    ∀ (fuel : Nat) (s : MetaBootstrap),
      forkChoiceLoop { env with GetHighestFinalBlockNonce := g } true fuel s =
        forkChoiceLoop env true fuel s := by
  intro fuel
  induction fuel with
  | zero => intro s; rfl
  | succ n ih =>
    intro s
    rcases hc : getCurrentHeader s with e | hdr
    · rw [forkChoiceLoop_error _ true n s e hc, forkChoiceLoop_error _ true n s e hc]
    · rw [forkChoiceLoop_true_step _ n s hdr hc, forkChoiceLoop_true_step _ n s hdr hc]
      have hr : rollback { env with GetHighestFinalBlockNonce := g } hdr s =
          rollback env hdr s := rfl
      rw [hr]
      rcases rollback env hdr s with ⟨_ | e, s1⟩
      · simp only []
        rw [ih s1]
      · rfl

theorem sampleEnv_has_predecessor (v : View) (hdr : MetaBlock) (hchain : onSampleChain hdr) :
    ∃ buff newHeader, sampleStorer.Get v hdr.PrevHash = .ok buff ∧
      sampleEnv.Unmarshal buff = .ok newHeader ∧ newHeader.Nonce = hdr.Nonce - 1 ∧
      onSampleChain newHeader := by
  refine ⟨hdr.PrevHash, sampleBlock (hdr.Nonce - 1), rfl, ?_, rfl, rfl⟩
  unfold onSampleChain at hchain
  rw [hchain]
  rfl

/-- C27, as stated, fails when the head nonce is 0: on the sample chain (the
stored predecessor of the header with nonce `n` has nonce `n - 1`, no
collaborator fails), with a head of nonce 0 and the fork nonce 5,
`forkChoice(true)` performs no rollback step: `rollback` refuses the header
with `ErrRollbackFromGenesis`, no call is made to any collaborator and the
chain head is kept. -/
theorem forkChoice_true_from_nonce_zero :
    genesisForkState.currentBlockHeader = some (HeaderHandler.metaBlock (sampleBlock 0)) ∧
    (sampleBlock 0).Nonce = 0 ∧ (sampleBlock 0).Nonce < genesisForkState.forkNonce ∧
    (forkChoice sampleEnv true 1 genesisForkState).map
        (fun r => (r.1, r.2.trace, r.2.reads, r.2.calls, r.2.currentBlockHeader)) =
      some (some Err.ErrRollbackFromGenesis, [], [],
        [Call.forkChoice true, Call.rollback (sampleBlock 0)],
        some (HeaderHandler.metaBlock (sampleBlock 0))) ∧
    (∀ fuel, forkChoice sampleEnv true (fuel + 1) genesisForkState =
      forkChoice sampleEnv true 1 genesisForkState) ∧
    (∀ v h, sampleEnv.SetCurrentBlockHeader v h = none) ∧
    (∀ v r, sampleEnv.RecreateTrie v r = none) ∧
    (∀ v n, 1 ≤ n → ∃ buff,
      sampleStorer.Get v (sampleBlock n).PrevHash = .ok buff ∧
      sampleEnv.Unmarshal buff = .ok (sampleBlock (n - 1))) := by
  refine ⟨rfl, rfl, by decide, by rfl, fun fuel => ?_, fun _ _ => rfl, fun _ _ => rfl,
    fun v n _ => ⟨_, rfl, rfl⟩⟩
  rw [forkChoice_true_at_nonce_zero sampleEnv fuel genesisForkState (sampleBlock 0) rfl rfl,
    forkChoice_true_at_nonce_zero sampleEnv 0 genesisForkState (sampleBlock 0) rfl rfl]

/-- C27, amended: for a chain whose stored predecessor of every header with
nonce `n > 1` has nonce `n - 1`, and collaborators that do not fail,
`forkChoice(true)` with head nonce `h` and fork nonce `f`: where `1 <= f <= h`,
returns nil after exactly `h - f + 1` rollback steps (`h - f + 1` runs of the
loop body are enough) and leaves the chain head at nonce `f - 1` (nil head when
`f = 1`), so the header at the fork nonce itself is rolled back; when
`1 <= h < f` it performs exactly one rollback step and returns nil, the head
being left at nonce `h - 1` (nil when `h = 1`); when `h = 0` it performs no
rollback step and returns `ErrRollbackFromGenesis`.  The result is the same
whatever `GetHighestFinalBlockNonce()` returns. -/
theorem forkChoice_true_rolls_back_to_fork (env : Env) (chain : MetaBlock → Prop)
    (store store2 : Storer)
    (hstore : env.GetStorer UnitType.MetaBlockUnit = some store)
    (hstore2 : env.GetStorer UnitType.MetaHdrNonceHashDataUnit = some store2)
    (hpred : ∀ v hdr, chain hdr → 1 < hdr.Nonce →
      ∃ buff newHeader, store.Get v hdr.PrevHash = .ok buff ∧
        env.Unmarshal buff = .ok newHeader ∧ newHeader.Nonce = hdr.Nonce - 1 ∧ chain newHeader)
    (hset : ∀ v h, env.SetCurrentBlockHeader v h = none)
    (htrie : ∀ v r, env.RecreateTrie v r = none)
    (s : MetaBootstrap) (hd : MetaBlock)
    (hhead : s.currentBlockHeader = some (HeaderHandler.metaBlock hd)) (hchain : chain hd) :
    (1 ≤ s.forkNonce → s.forkNonce ≤ hd.Nonce →
      ∀ fuel, hd.Nonce - s.forkNonce + 1 ≤ fuel →
      ∃ t cs es, forkChoice env true fuel s = some (none, t) ∧
        t.calls = s.calls ++ Call.forkChoice true :: cs ∧
        cs.length = hd.Nonce - s.forkNonce + 1 ∧ (∀ c, c ∈ cs → c.isRollback = true) ∧
        t.trace = s.trace ++ es ∧ es.length = 5 * (hd.Nonce - s.forkNonce + 1) ∧
        (∀ e, e ∈ es → e.isRollbackStep = true) ∧
        (s.forkNonce = 1 → t.currentBlockHeader = none) ∧
        (1 < s.forkNonce →
          ∃ nh, t.currentBlockHeader = some (HeaderHandler.metaBlock nh) ∧
            nh.Nonce = s.forkNonce - 1 ∧ chain nh)) ∧
    (1 ≤ hd.Nonce → hd.Nonce < s.forkNonce →
      ∀ fuel, ∃ t es, forkChoice env true (fuel + 1) s = some (none, t) ∧
        t.calls = s.calls ++ [Call.forkChoice true, Call.rollback hd] ∧
        t.trace = s.trace ++ es ∧ es.length = 5 ∧
        (∀ e, e ∈ es → e.isRollbackStep = true) ∧
        (hd.Nonce = 1 → t.currentBlockHeader = none) ∧
        (1 < hd.Nonce →
          ∃ nh, t.currentBlockHeader = some (HeaderHandler.metaBlock nh) ∧
            nh.Nonce = hd.Nonce - 1 ∧ chain nh)) ∧
    (hd.Nonce = 0 →
      ∀ fuel, forkChoice env true (fuel + 1) s =
        some (some Err.ErrRollbackFromGenesis,
          (s.enter (Call.forkChoice true)).enter (Call.rollback hd))) ∧
    (∀ (g : View → Nat) fuel,
      forkChoice { env with GetHighestFinalBlockNonce := g } true fuel s =
        forkChoice env true fuel s) := by
  refine ⟨fun hf hle fuel hfuel => ?_, fun hn hlt fuel => ?_,
    fun h0 fuel => forkChoice_true_at_nonce_zero env fuel s hd hhead h0,
    fun g fuel => forkChoiceLoop_true_ignores_final env g fuel _⟩
  · obtain ⟨t, cs, es, hloop, hcs, hlen, hall, hes, heslen, hsteps, hone, hgt⟩ :=
      forkChoiceLoop_true_exact env chain store store2 hstore hstore2 hpred hset htrie
        (hd.Nonce - s.forkNonce) fuel (s.enter (Call.forkChoice true)) hd hhead hchain hf
        (by show hd.Nonce = s.forkNonce + (hd.Nonce - s.forkNonce); omega) hfuel
    refine ⟨t, cs, es, hloop, ?_, hlen, hall, hes, heslen, hsteps, hone, hgt⟩
    rw [hcs]
    simp [MetaBootstrap.enter]
  · obtain ⟨t, es, hr, hfn, hcalls, htrace, hlen, hsteps, hone, hmore⟩ :=
      rollback_on_chain env chain store store2 hstore hstore2 hpred hset htrie hd
        (s.enter (Call.forkChoice true)) hchain hn
    refine ⟨t, es, ?_, ?_, htrace, hlen, hsteps, hone, hmore⟩
    · unfold forkChoice
      rw [forkChoiceLoop_true_step env fuel _ hd
        (getCurrentHeader_of_head (s.enter (Call.forkChoice true)) hd hhead), hr]
      simp only []
      rw [if_neg]
      rw [hfn]
      show ¬ (hd.Nonce > s.forkNonce)
      omega
    · rw [hcalls]
      simp [MetaBootstrap.enter]

theorem forkChoice_true_rolls_back_to_fork_witness :
    (1 ≤ specificForkState.forkNonce → specificForkState.forkNonce ≤ (sampleBlock 8).Nonce →
      ∀ fuel, (sampleBlock 8).Nonce - specificForkState.forkNonce + 1 ≤ fuel →
      ∃ t cs es, forkChoice sampleEnv true fuel specificForkState = some (none, t) ∧
        t.calls = specificForkState.calls ++ Call.forkChoice true :: cs ∧
        cs.length = (sampleBlock 8).Nonce - specificForkState.forkNonce + 1 ∧
        (∀ c, c ∈ cs → c.isRollback = true) ∧
        t.trace = specificForkState.trace ++ es ∧
        es.length = 5 * ((sampleBlock 8).Nonce - specificForkState.forkNonce + 1) ∧
        (∀ e, e ∈ es → e.isRollbackStep = true) ∧
        (specificForkState.forkNonce = 1 → t.currentBlockHeader = none) ∧
        (1 < specificForkState.forkNonce →
          ∃ nh, t.currentBlockHeader = some (HeaderHandler.metaBlock nh) ∧
            nh.Nonce = specificForkState.forkNonce - 1 ∧ onSampleChain nh)) ∧
    (1 ≤ (sampleBlock 8).Nonce → (sampleBlock 8).Nonce < specificForkState.forkNonce →
      ∀ fuel, ∃ t es, forkChoice sampleEnv true (fuel + 1) specificForkState = some (none, t) ∧
        t.calls = specificForkState.calls ++
          [Call.forkChoice true, Call.rollback (sampleBlock 8)] ∧
        t.trace = specificForkState.trace ++ es ∧ es.length = 5 ∧
        (∀ e, e ∈ es → e.isRollbackStep = true) ∧
        ((sampleBlock 8).Nonce = 1 → t.currentBlockHeader = none) ∧
        (1 < (sampleBlock 8).Nonce →
          ∃ nh, t.currentBlockHeader = some (HeaderHandler.metaBlock nh) ∧
            nh.Nonce = (sampleBlock 8).Nonce - 1 ∧ onSampleChain nh)) ∧
    ((sampleBlock 8).Nonce = 0 →
      ∀ fuel, forkChoice sampleEnv true (fuel + 1) specificForkState =
        some (some Err.ErrRollbackFromGenesis,
          (specificForkState.enter (Call.forkChoice true)).enter
            (Call.rollback (sampleBlock 8)))) ∧
    (∀ (g : View → Nat) fuel,
      forkChoice { sampleEnv with GetHighestFinalBlockNonce := g } true fuel specificForkState =
        forkChoice sampleEnv true fuel specificForkState) :=
  forkChoice_true_rolls_back_to_fork sampleEnv onSampleChain sampleStorer sampleStorer rfl rfl
    (fun v hdr hchain _ => sampleEnv_has_predecessor v hdr hchain)
    (fun _ _ => rfl) (fun _ _ => rfl) specificForkState (sampleBlock 8) rfl rfl

/-! ## Notarization tracker: what the scan records for one shard -/

theorem markStart_entry (cur : Nat) (ni : notarizedInfo) :
    (markStart cur ni).lastNotarized = ni.lastNotarized ∧
    (markStart cur ni).finalNotarized = ni.finalNotarized ∧
    (markStart cur ni).blockWithLastNotarized = ni.blockWithLastNotarized ∧
    (markStart cur ni).blockWithFinalNotarized = ni.blockWithFinalNotarized ∧
    (markStart cur ni).startNonce = (if ni.startNonce = 0 then cur else ni.startNonce) := by
  unfold markStart
  split <;> exact ⟨rfl, rfl, rfl, rfl, rfl⟩

theorem scanStep_cases (cfg : ScanEnv) (cur : Nat) (ni : notarizedInfo) :
    (scanStep cfg cur ni = (false, notarizedInfo.reset) ∧
      ∀ s, observation cfg cur s = Observation.reset) ∨
    (scanStep cfg cur ni = (false, markStart cur ni) ∧
      ∀ s, observation cfg cur s = Observation.skipped) ∨
    (∃ nn, scanStep cfg cur ni = areNotarizedShardHeadersFound cfg (markStart cur ni) nn cur ∧
      ∀ s, observation cfg cur s = Observation.value (nn.get s)) := by
  unfold scanStep observation markStart
  cases hv : isMetaBlockValid cfg cur with
  | none => exact Or.inl ⟨rfl, fun _ => rfl⟩
  | some m =>
    simp only []
    by_cases hlen : m.ShardInfo.length = 0
    · rw [if_pos hlen]
      exact Or.inr (Or.inl ⟨rfl, fun _ => by rw [if_pos hlen]⟩)
    · rw [if_neg hlen]
      rcases hg : getMaxNotarizedHeadersNoncesInMetaBlock cfg m with ⟨mx, _ | e⟩
      · exact Or.inr (Or.inr ⟨mx, rfl, fun _ => by rw [if_neg hlen]⟩)
      · exact Or.inl ⟨rfl, fun _ => by rw [if_neg hlen]⟩

/-- Entries of a shard below `NumberOfShards` after one call of
`areNotarizedShardHeadersFound`. -/
theorem fill_entries (cfg : ScanEnv) (ni : notarizedInfo) (nn : NonceMap) (nonce j : Nat)
    (hj : j < cfg.NumberOfShards) :
    (ni.lastNotarized.get j = 0 →
      (areNotarizedShardHeadersFound cfg ni nn nonce).2.entry j =
        (some (nn.get j), ni.finalNotarized j, some nonce, ni.blockWithFinalNotarized j)) ∧
    (ni.lastNotarized.get j ≠ 0 → ni.finalNotarized.get j = 0 →
      (areNotarizedShardHeadersFound cfg ni nn nonce).2.entry j =
        (ni.lastNotarized j, some (nn.get j), ni.blockWithLastNotarized j, some nonce)) ∧
    (ni.lastNotarized.get j ≠ 0 → ni.finalNotarized.get j ≠ 0 →
      (areNotarizedShardHeadersFound cfg ni nn nonce).2.entry j = ni.entry j) := by
  have he := (areNotarizedShardHeadersFound_entry cfg ni nn nonce j).1 hj
  rw [he]
  unfold fillShard
  refine ⟨fun h1 => ?_, fun h1 h2 => ?_, fun h1 h2 => ?_⟩
  · rw [if_pos h1]
    simp [notarizedInfo.entry, NonceMap.set]
  · rw [if_neg h1, if_pos h2]
    simp [notarizedInfo.entry, NonceMap.set]
  · rw [if_neg h1, if_neg h2]

theorem scanStep_true_filled (cfg : ScanEnv) (cur : Nat) (ni : notarizedInfo)
    (h : (scanStep cfg cur ni).1 = true) :
    ∀ i, i < cfg.NumberOfShards →
      (scanStep cfg cur ni).2.lastNotarized.get i ≠ 0 ∧
      (scanStep cfg cur ni).2.finalNotarized.get i ≠ 0 := by
  rcases scanStep_cases cfg cur ni with ⟨h1, _⟩ | ⟨h1, _⟩ | ⟨nn, h1, _⟩
  · rw [h1] at h
    simp at h
  · rw [h1] at h
    simp at h
  · rw [h1] at h ⊢
    exact (areNotarizedShardHeadersFound_true_iff cfg _ nn cur).mp h

theorem scanLoop_invariant_at (cfg : ScanEnv) (P : Nat → notarizedInfo → Prop)
    (hstep : ∀ ni cur, 1 ≤ cur → P cur ni →
      (scanStep cfg cur ni).1 = false ∧ P (cur - 1) (scanStep cfg cur ni).2) :
    ∀ (n : Nat) (ni : notarizedInfo) (v : List Nat), P n ni →
      P 0 (scanLoop cfg n ni v).1 ∧ (scanLoop cfg n ni v).2 = v ++ descending n n := by
  intro n
  induction n with
  | zero =>
    intro ni v h
    exact ⟨h, by simp [scanLoop, descending]⟩
  | succ m ih =>
    intro ni v h
    obtain ⟨hflag, hP⟩ := hstep ni (m + 1) (by omega) h
    unfold scanLoop
    rcases hr : scanStep cfg (m + 1) ni with ⟨_ | _, ni1⟩
    · rw [hr] at hP
      simp only [Nat.add_sub_cancel] at hP
      obtain ⟨h1, h2⟩ := ih ni1 (v ++ [m + 1]) hP
      refine ⟨h1, ?_⟩
      simp only []
      rw [h2, descending_succ m m]
      simp
    · rw [hr] at hflag
      simp at hflag

theorem get_zero_of_none {m : NonceMap} {j : Nat} (h : m j = none) : m.get j = 0 := by
  simp [NonceMap.get, h]

theorem get_of_some {m : NonceMap} {j v : Nat} (h : m j = some v) : m.get j = v := by
  simp [NonceMap.get, h]

/-- A shard for which no scanned block gives a non-zero value keeps the value
0 in the last and the final map throughout the scan. -/
theorem scanResult_unnotarized (cfg : ScanEnv) (N s : Nat)
    (hquiet : ∀ cur v, 1 ≤ cur → cur ≤ N → observation cfg cur s = Observation.value v → v = 0) :
    (scanResult cfg N).lastNotarized.get s = 0 ∧ (scanResult cfg N).finalNotarized.get s = 0 := by
  unfold scanResult
  refine scanLoop_invariant cfg N
    (fun ni => ni.lastNotarized.get s = 0 ∧ ni.finalNotarized.get s = 0) ?_ N
    notarizedInfo.reset [] (Nat.le_refl _) ⟨rfl, rfl⟩
  intro ni cur h1 h2 ⟨hl, hf⟩
  rcases scanStep_cases cfg cur ni with ⟨hs, _⟩ | ⟨hs, _⟩ | ⟨nn, hs, hobs⟩
  · rw [hs]
    exact ⟨rfl, rfl⟩
  · rw [hs]
    obtain ⟨m1, m2, _⟩ := markStart_entry cur ni
    simp only []
    rw [m1, m2]
    exact ⟨hl, hf⟩
  · rw [hs]
    have hv : nn.get s = 0 := hquiet cur (nn.get s) h1 h2 (hobs s)
    obtain ⟨m1, m2, m3, m4, _⟩ := markStart_entry cur ni
    by_cases hj : s < cfg.NumberOfShards
    · have hl2 : (markStart cur ni).lastNotarized.get s = 0 := by rw [m1]; exact hl
      have he := (fill_entries cfg (markStart cur ni) nn cur s hj).1 hl2
      simp only [notarizedInfo.entry, Prod.mk.injEq] at he
      refine ⟨?_, ?_⟩
      · rw [get_of_some he.1, hv]
      · rw [get_eq_of_entry_eq he.2.1, m2]
        exact hf
    · have he := (areNotarizedShardHeadersFound_entry cfg (markStart cur ni) nn cur s).2.1
        (by omega)
      simp only [notarizedInfo.entry, Prod.mk.injEq] at he
      refine ⟨?_, ?_⟩
      · rw [get_eq_of_entry_eq he.1, m1]
        exact hl
      · rw [get_eq_of_entry_eq he.2.1, m2]
        exact hf

theorem getNonceWithLastNotarized_unnotarized (cfg : ScanEnv) (N s : Nat)
    (hquiet : ∀ cur v, 1 ≤ cur → cur ≤ N → observation cfg cur s = Observation.value v → v = 0) :
    (getNonceWithLastNotarized cfg N).2.1.get s = 0 ∧
    (getNonceWithLastNotarized cfg N).2.2.get s = 0 := by
  obtain ⟨hl, hf⟩ := scanResult_unnotarized cfg N s hquiet
  have h := notarizedAtReturn_entry cfg N s
  show (notarizedAtReturn cfg N).finalNotarized.get s = 0 ∧
    (notarizedAtReturn cfg N).lastNotarized.get s = 0
  by_cases hj : s < cfg.NumberOfShards
  · have h1 := h.1 hj
    simp only [notarizedInfo.entry, Prod.mk.injEq] at h1
    refine ⟨?_, ?_⟩
    · by_cases hgt : N > (scanResult cfg N).blockWithLastNotarized.get s
      · have h2 := h1.2.1
        rw [if_pos hgt] at h2
        rw [get_of_some h2]
        exact hl
      · have h2 := h1.2.1
        rw [if_neg hgt] at h2
        rw [get_eq_of_entry_eq h2]
        exact hf
    · rw [get_eq_of_entry_eq h1.1]
      exact hl
  · have h1 := h.2.1 (by omega)
    simp only [notarizedInfo.entry, Prod.mk.injEq] at h1
    refine ⟨?_, ?_⟩
    · rw [get_eq_of_entry_eq h1.2.1]
      exact hf
    · rw [get_eq_of_entry_eq h1.1]
      exact hl

/-- State in which the scan loop of `getNonceWithLastNotarized(N)` is left in
the two-shard scenario: shard 0 observed at block `N` (value `a`) and next at
block `M` (value `b`), shard 1 never observed with a non-zero value, no reset. -/
theorem scanResult_two_shards (cfg : ScanEnv) (N M a b : Nat)
    (h2 : cfg.NumberOfShards = 2) (hM1 : 1 ≤ M) (hMN : M < N)
    (hN : observation cfg N 0 = Observation.value a) (ha : a ≠ 0)
    (hmid : ∀ cur, M < cur → cur < N →
      observation cfg cur 0 = Observation.skipped ∨
        observation cfg cur 0 = Observation.value 0)
    (hM : observation cfg M 0 = Observation.value b) (hb : b ≠ 0)
    (hlow : ∀ cur, 1 ≤ cur → cur < M → observation cfg cur 0 ≠ Observation.reset)
    (h1 : ∀ cur v, 1 ≤ cur → cur ≤ N → observation cfg cur 1 = Observation.value v → v = 0) :
    (scanResult cfg N).startNonce = N ∧
    (scanResult cfg N).lastNotarized 0 = some a ∧
    (scanResult cfg N).finalNotarized 0 = some b ∧
    (scanResult cfg N).blockWithLastNotarized 0 = some N ∧
    (scanResult cfg N).lastNotarized 1 = some 0 ∧
    (scanResult cfg N).finalNotarized 1 = none ∧
    (scanResult cfg N).blockWithLastNotarized.get 1 < N ∧
    (scanLoop cfg N notarizedInfo.reset []).2 = descending N N := by
  have hinv := scanLoop_invariant_at cfg
    (fun cur ni => cur ≤ N ∧
      ni.lastNotarized.get 1 = 0 ∧ ni.finalNotarized 1 = none ∧
      (cur = N → ni.lastNotarized.get 0 = 0 ∧ ni.finalNotarized.get 0 = 0 ∧
        ni.startNonce = 0) ∧
      (cur < N → ni.startNonce = N ∧ ni.lastNotarized 0 = some a ∧
        ni.blockWithLastNotarized 0 = some N ∧ ni.lastNotarized 1 = some 0) ∧
      (M ≤ cur → ni.finalNotarized.get 0 = 0) ∧
      (cur < M → ni.finalNotarized 0 = some b ∧ ni.blockWithLastNotarized.get 1 < N)) ?_
    N notarizedInfo.reset []
    ⟨Nat.le_refl _, rfl, rfl, fun _ => ⟨rfl, rfl, rfl⟩, fun h => absurd h (Nat.lt_irrefl _),
      fun _ => rfl, fun h => by omega⟩
  · obtain ⟨⟨_, _, p3, _, p5, _, p7⟩, hvis⟩ := hinv
    obtain ⟨q1, q2, q3, q4⟩ := p5 (by omega)
    obtain ⟨q5, q6⟩ := p7 (by omega)
    refine ⟨q1, q2, q5, q3, q4, p3, q6, ?_⟩
    simpa using hvis
  · intro ni cur hcur ⟨hle, hl1, hf1, pN, pltN, pM, pltM⟩
    obtain ⟨m1, m2, m3, m4, m5⟩ := markStart_entry cur ni
    rcases scanStep_cases cfg cur ni with ⟨_, hobs⟩ | ⟨hs, hobs⟩ | ⟨nn, hs, hobs⟩
    · exfalso
      have h0 := hobs 0
      by_cases c1 : cur = N
      · rw [c1, hN] at h0
        simp at h0
      · by_cases c2 : M < cur
        · rcases hmid cur c2 (by omega) with h3 | h3
          · rw [h3] at h0
            simp at h0
          · rw [h3] at h0
            simp at h0
        · by_cases c3 : cur = M
          · rw [c3, hM] at h0
            simp at h0
          · exact hlow cur hcur (by omega) h0
    · have h0 := hobs 0
      have c1 : cur ≠ N := by
        intro c
        rw [c, hN] at h0
        simp at h0
      have c3 : cur ≠ M := by
        intro c
        rw [c, hM] at h0
        simp at h0
      obtain ⟨q1, q2, q3, q4⟩ := pltN (by omega)
      rw [hs]
      refine ⟨rfl, by omega, ?_, ?_, fun c => by omega, fun _ => ⟨?_, ?_, ?_, ?_⟩,
        fun c => ?_, fun c => ?_⟩
      · show (markStart cur ni).lastNotarized.get 1 = 0
        rw [m1]; exact hl1
      · show (markStart cur ni).finalNotarized 1 = none
        rw [m2]; exact hf1
      · show (markStart cur ni).startNonce = N
        rw [m5, q1, if_neg (by omega)]
      · show (markStart cur ni).lastNotarized 0 = some a
        rw [m1]; exact q2
      · show (markStart cur ni).blockWithLastNotarized 0 = some N
        rw [m3]; exact q3
      · show (markStart cur ni).lastNotarized 1 = some 0
        rw [m1]; exact q4
      · show (markStart cur ni).finalNotarized.get 0 = 0
        rw [m2]; exact pM (by omega)
      · obtain ⟨q5, q6⟩ := pltM (by omega)
        constructor
        · show (markStart cur ni).finalNotarized 0 = some b
          rw [m2]; exact q5
        · show (markStart cur ni).blockWithLastNotarized.get 1 < N
          rw [m3]; exact q6
    · have hnn1 : nn.get 1 = 0 := h1 cur (nn.get 1) hcur hle (hobs 1)
      have hl1m : (markStart cur ni).lastNotarized.get 1 = 0 := by rw [m1]; exact hl1
      have he1 := (fill_entries cfg (markStart cur ni) nn cur 1 (by omega)).1 hl1m
      simp only [notarizedInfo.entry, Prod.mk.injEq] at he1
      obtain ⟨e1l, e1f, e1b, _⟩ := he1
      rw [hnn1] at e1l
      rw [m2, hf1] at e1f
      have hflag : (scanStep cfg cur ni).1 = false := by
        cases hfl : (scanStep cfg cur ni).1 with
        | false => rfl
        | true =>
          exfalso
          have := (scanStep_true_filled cfg cur ni hfl 1 (by omega)).1
          rw [hs, get_of_some e1l] at this
          exact this rfl
      have hstart : (areNotarizedShardHeadersFound cfg (markStart cur ni) nn cur).2.startNonce =
          (if ni.startNonce = 0 then cur else ni.startNonce) := by
        rw [(areNotarizedShardHeadersFound_entry cfg (markStart cur ni) nn cur 0).2.2, m5]
      have h0 := hobs 0
      refine ⟨hflag, ?_⟩
      rw [hs]
      by_cases c1 : cur = N
      · subst c1
        rw [hN] at h0
        simp only [Observation.value.injEq] at h0
        obtain ⟨r1, r2, r3⟩ := pN rfl
        have hl0m : (markStart cur ni).lastNotarized.get 0 = 0 := by rw [m1]; exact r1
        have he0 := (fill_entries cfg (markStart cur ni) nn cur 0 (by omega)).1 hl0m
        simp only [notarizedInfo.entry, Prod.mk.injEq] at he0
        obtain ⟨e0l, e0f, e0b, _⟩ := he0
        rw [← h0] at e0l
        refine ⟨by omega, get_of_some e1l, e1f, fun c => by omega,
          fun _ => ⟨?_, e0l, e0b, e1l⟩, fun _ => ?_, fun c => by omega⟩
        · rw [hstart, r3, if_pos rfl]
        · rw [get_eq_of_entry_eq e0f, m2]
          exact r2
      · obtain ⟨q1, q2, q3, q4⟩ := pltN (by omega)
        have hl0m : (markStart cur ni).lastNotarized.get 0 ≠ 0 := by
          rw [m1, get_of_some q2]
          exact ha
        have hst : (areNotarizedShardHeadersFound cfg (markStart cur ni) nn cur).2.startNonce
            = N := by
          rw [hstart, q1, if_neg (by omega)]
        by_cases c2 : M ≤ cur
        · have hf0m : (markStart cur ni).finalNotarized.get 0 = 0 := by
            rw [m2]; exact pM c2
          have he0 := (fill_entries cfg (markStart cur ni) nn cur 0 (by omega)).2.1 hl0m hf0m
          simp only [notarizedInfo.entry, Prod.mk.injEq] at he0
          obtain ⟨e0l, e0f, e0b, _⟩ := he0
          rw [m1, q2] at e0l
          rw [m3, q3] at e0b
          by_cases c3 : cur = M
          · subst c3
            rw [hM] at h0
            simp only [Observation.value.injEq] at h0
            rw [← h0] at e0f
            refine ⟨by omega, get_of_some e1l, e1f, fun c => by omega,
              fun _ => ⟨hst, e0l, e0b, e1l⟩, fun c => by omega, fun _ => ⟨e0f, ?_⟩⟩
            rw [get_of_some e1b]
            exact hMN
          · rcases hmid cur (by omega) (by omega) with h3 | h3
            · rw [h3] at h0
              simp at h0
            · rw [h3] at h0
              simp only [Observation.value.injEq] at h0
              rw [← h0] at e0f
              refine ⟨by omega, get_of_some e1l, e1f, fun c => by omega,
                fun _ => ⟨hst, e0l, e0b, e1l⟩, fun _ => get_of_some e0f, fun c => by omega⟩
        · obtain ⟨q5, q6⟩ := pltM (by omega)
          have hf0m : (markStart cur ni).finalNotarized.get 0 ≠ 0 := by
            rw [m2, get_of_some q5]
            exact hb
          have he0 := (fill_entries cfg (markStart cur ni) nn cur 0 (by omega)).2.2 hl0m hf0m
          simp only [notarizedInfo.entry, Prod.mk.injEq] at he0
          obtain ⟨e0l, e0f, e0b, _⟩ := he0
          rw [m1, q2] at e0l
          rw [m2, q5] at e0f
          rw [m3, q3] at e0b
          refine ⟨by omega, get_of_some e1l, e1f, fun c => by omega,
            fun _ => ⟨hst, e0l, e0b, e1l⟩, fun c => by omega, fun _ => ⟨e0f, ?_⟩⟩
          rw [get_of_some e1b]
          omega

/-! ## Notarization tracker: the two-shard scenario -/

theorem sampleScanEnv_observations :
    ∀ cur, cur < 51 →
      (observation sampleScanEnv cur 1 = Observation.skipped ∨
        observation sampleScanEnv cur 1 = Observation.reset ∨
        observation sampleScanEnv cur 1 = Observation.value 0) ∧
      (cur = 0 ∨ cur = 45 ∨ cur = 50 ∨
        observation sampleScanEnv cur 0 = Observation.skipped) := by
  decide

/-- C21, as stated, fails.  In the sample storage (two shards; shard 0 is
observed with nonce 7 at metablock 50 and with nonce 5 at metablock 45, the
other metablocks 1 to 49 have no shard info, no record names shard 1), the maps
returned by `getNonceWithLastNotarized(50)` hold shard 1 with the value 0 in
both maps: the key is present, not absent.  Started one block higher, at 51
(no such metablock is stored), the scan observes the same last and final values
of shard 0 at the blocks 50 and 45, and the returned final value of shard 0 is
the one observed at block 50, not the one observed at block 45. -/
theorem unnotarized_shard_is_present :
    sampleScanEnv.NumberOfShards = 2 ∧
    observation sampleScanEnv 50 0 = Observation.value 7 ∧
    observation sampleScanEnv 45 0 = Observation.value 5 ∧
    (∀ n sd, sd ∈ (sampleMeta n).ShardInfo → sd.ShardId = 0) ∧
    (getNonceWithLastNotarized sampleScanEnv 50).2.2 1 = some 0 ∧
    (getNonceWithLastNotarized sampleScanEnv 50).2.1 1 = some 0 ∧
    (getNonceWithLastNotarized sampleScanEnv 50).2.2 0 = some 7 ∧
    (getNonceWithLastNotarized sampleScanEnv 50).2.1 0 = some 5 ∧
    observation sampleScanEnv 51 0 = Observation.reset ∧
    (getNonceWithLastNotarized sampleScanEnv 51).1 = 50 ∧
    (getNonceWithLastNotarized sampleScanEnv 51).2.2 0 = some 7 ∧
    (getNonceWithLastNotarized sampleScanEnv 51).2.1 0 = some 7 := by
  refine ⟨rfl, by rfl, by rfl, ?_, by rfl, by rfl, by rfl, by rfl, by rfl, by rfl, by rfl,
    by rfl⟩
  intro n sd hsd
  unfold sampleMeta at hsd
  simp only at hsd
  split at hsd
  · simp only [List.mem_singleton] at hsd
    rw [hsd]
  · split at hsd
    · simp only [List.mem_cons, List.mem_singleton, List.mem_nil_iff, or_false] at hsd
      rcases hsd with h | h <;> rw [h]
    · simp at hsd

/-- C21, amended: for a two-shard scan started at the metablock nonce `N` at
which shard 0's last-notarized nonce `a` is observed, in which shard 0's
final-notarized nonce `b` is observed at a lower metablock nonce `M` (the
blocks between them giving shard 0 no non-zero value), no scanned block resets
the tracker, and shard 1 is given no non-zero value by any scanned block,
`getNonceWithLastNotarized(N)` scans all the blocks down to nonce 1 and returns
`startNonce = N` and maps in which shard 0 holds `a` as last and `b` as final,
and shard 1 has the value 0 in both maps, its key being present in both with
the value 0.  In general, for every storage, start nonce and shard, a shard to
which no scanned metablock gives a non-zero value has the value 0 in both
returned maps. -/
theorem two_shard_scan (cfg : ScanEnv) (N M a b : Nat)
    (h2 : cfg.NumberOfShards = 2) (hM1 : 1 ≤ M) (hMN : M < N)
    (hN : observation cfg N 0 = Observation.value a) (ha : a ≠ 0)
    (hmid : ∀ cur, M < cur → cur < N →
      observation cfg cur 0 = Observation.skipped ∨
        observation cfg cur 0 = Observation.value 0)
    (hM : observation cfg M 0 = Observation.value b) (hb : b ≠ 0)
    (hlow : ∀ cur, 1 ≤ cur → cur < M → observation cfg cur 0 ≠ Observation.reset)
    (h1 : ∀ cur v, 1 ≤ cur → cur ≤ N → observation cfg cur 1 = Observation.value v → v = 0) :
    (getNonceWithLastNotarized cfg N).1 = N ∧
    (getNonceWithLastNotarized cfg N).2.2 0 = some a ∧
    (getNonceWithLastNotarized cfg N).2.1 0 = some b ∧
    (getNonceWithLastNotarized cfg N).2.2.get 1 = 0 ∧
    (getNonceWithLastNotarized cfg N).2.1.get 1 = 0 ∧
    (getNonceWithLastNotarized cfg N).2.2 1 = some 0 ∧
    (getNonceWithLastNotarized cfg N).2.1 1 = some 0 ∧
    (scanLoop cfg N notarizedInfo.reset []).2 = descending N N ∧
    (∀ (cfg1 : ScanEnv) (N1 s : Nat),
      (∀ cur v, 1 ≤ cur → cur ≤ N1 →
        observation cfg1 cur s = Observation.value v → v = 0) →
      (getNonceWithLastNotarized cfg1 N1).2.1.get s = 0 ∧
      (getNonceWithLastNotarized cfg1 N1).2.2.get s = 0) := by
  obtain ⟨r1, r2, r3, r4, r5, r6, r7, r8⟩ :=
    scanResult_two_shards cfg N M a b h2 hM1 hMN hN ha hmid hM hb hlow h1
  have e0 := (notarizedAtReturn_entry cfg N 0).1 (by omega)
  have e1 := (notarizedAtReturn_entry cfg N 1).1 (by omega)
  simp only [notarizedInfo.entry, Prod.mk.injEq] at e0 e1
  have hl0 : (getNonceWithLastNotarized cfg N).2.2 0 = some a := by
    show (notarizedAtReturn cfg N).lastNotarized 0 = some a
    rw [e0.1, r2]
  have hf0 : (getNonceWithLastNotarized cfg N).2.1 0 = some b := by
    show (notarizedAtReturn cfg N).finalNotarized 0 = some b
    rw [e0.2.1, if_neg (by rw [get_of_some r4]; omega), r3]
  have hl1 : (getNonceWithLastNotarized cfg N).2.2 1 = some 0 := by
    show (notarizedAtReturn cfg N).lastNotarized 1 = some 0
    rw [e1.1, r5]
  have hf1 : (getNonceWithLastNotarized cfg N).2.1 1 = some 0 := by
    show (notarizedAtReturn cfg N).finalNotarized 1 = some 0
    rw [e1.2.1, if_pos r7, get_of_some r5]
  refine ⟨?_, hl0, hf0, get_of_some hl1, get_of_some hf1, hl1, hf1, r8,
    fun cfg1 N1 s hq => getNonceWithLastNotarized_unnotarized cfg1 N1 s hq⟩
  show (notarizedAtReturn cfg N).startNonce = N
  rw [(notarizedAtReturn_entry cfg N 0).2.2, r1]

theorem two_shard_scan_witness :
    (getNonceWithLastNotarized sampleScanEnv 50).1 = 50 ∧
    (getNonceWithLastNotarized sampleScanEnv 50).2.2 0 = some 7 ∧
    (getNonceWithLastNotarized sampleScanEnv 50).2.1 0 = some 5 ∧
    (getNonceWithLastNotarized sampleScanEnv 50).2.2.get 1 = 0 ∧
    (getNonceWithLastNotarized sampleScanEnv 50).2.1.get 1 = 0 ∧
    (getNonceWithLastNotarized sampleScanEnv 50).2.2 1 = some 0 ∧
    (getNonceWithLastNotarized sampleScanEnv 50).2.1 1 = some 0 ∧
    (scanLoop sampleScanEnv 50 notarizedInfo.reset []).2 = descending 50 50 ∧
    (∀ (cfg1 : ScanEnv) (N1 s : Nat),
      (∀ cur v, 1 ≤ cur → cur ≤ N1 →
        observation cfg1 cur s = Observation.value v → v = 0) →
      (getNonceWithLastNotarized cfg1 N1).2.1.get s = 0 ∧
      (getNonceWithLastNotarized cfg1 N1).2.2.get s = 0) :=
  two_shard_scan sampleScanEnv 50 45 7 5 rfl (by decide) (by decide) (by rfl) (by decide)
    (fun cur hlo hhi => by
      rcases (sampleScanEnv_observations cur (by omega)).2 with h | h | h | h
      · omega
      · omega
      · omega
      · exact Or.inl h)
    (by rfl) (by decide)
    (fun cur hlo hhi => by
      rcases (sampleScanEnv_observations cur (by omega)).2 with h | h | h | h
      · omega
      · omega
      · omega
      · rw [h]
        simp)
    (fun cur v hlo hhi hobs => by
      rcases (sampleScanEnv_observations cur (by omega)).1 with h | h | h
      · rw [h] at hobs
        simp at hobs
      · rw [h] at hobs
        simp at hobs
      · rw [h] at hobs
        simp only [Observation.value.injEq] at hobs
        exact hobs.symm)

end MetaSync
